import Mathlib

/-!
The NSE linear cipher of gonse and its wire codec.

A shallow embedding of `pkg/nse/encryption.go` and `pkg/nse/conversion.go`.

* A Go `byte` is a `Nat` below `256`; a Go `int8` is an `Int` in `[-128, 127]`; a Go `int64`
  is an `Int` in `[-2^63, 2^63)`.  Every arithmetic operation of the source on `int64` is
  followed by an explicit reduction `wrap64` into the signed 64-bit range.
* A Go slice is a `List`; `make([]T, n)` is `List.replicate n 0` and `a[i] = v` is `List.set`.
* A call either returns normally, returns one of the package's error values, or stops with a
  run-time panic (index out of range, integer divide by zero): this is the type `Outcome`.
* The collaborators whose code is not among the sources (`bits.RightRotate`, `bits.LeftRotate`,
  `GenerateIV`, `DeriveKey`) are parameters of the functions that call them; `binary.PutVarint`
  and `binary.Varint` follow the Go standard library.
-/

set_option maxRecDepth 100000

namespace Gonse

/-! ## Machine integers -/

/-- Reduction of an exact integer to the signed 64-bit value with the same residue modulo `2^64`:
the result of every Go `int64` operation. -/
def wrap64 (x : Int) : Int := (x + 2 ^ 63) % 2 ^ 64 - 2 ^ 63

/-- Go `a + b` on `int64`. -/
def add64 (a b : Int) : Int := wrap64 (a + b)

/-- Go `a - b` on `int64`. -/
def sub64 (a b : Int) : Int := wrap64 (a - b)

/-- Go `a * b` on `int64`. -/
def mul64 (a b : Int) : Int := wrap64 (a * b)

/-- The 64-bit pattern of an `int64`, as an unsigned number. -/
def bits64 (x : Int) : Nat := (x % 2 ^ 64).toNat

/-- The `int64` whose two's-complement bit pattern is the low 64 bits of `u`. -/
def ofBits64 (u : Nat) : Int :=
  if u % 2 ^ 64 < 2 ^ 63 then ((u % 2 ^ 64 : Nat) : Int) else ((u % 2 ^ 64 : Nat) : Int) - 2 ^ 64

/-- Go `x << s` on `int64`: the bit pattern moves `s` places to the left and the bits that leave
the 64-bit word are discarded. -/
def shl64 (x : Int) (s : Nat) : Int := ofBits64 (bits64 x <<< s)

/-- The two ways a call can stop with a run-time panic. -/
inductive Panic where
  | indexOutOfRange
  | divideByZero
  deriving DecidableEq, Repr

/-- The error values of `internal/errors` that the package returns; `other` stands for an error
value produced by a collaborator (`DeriveKey`, `GenerateIV`). -/
inductive NseError where
  | NotPositiveDataLengthError (name : String)
  | DifferentIVLengthError (IVLength dataLength : Nat)
  | WrongDataFormatError
  | other (description : String)
  deriving DecidableEq, Repr

/-- The result of a call: a value with a nil error, a nil value with an error, or a panic. -/
inductive Outcome (α : Type) where
  | ok : α → Outcome α
  | error : NseError → Outcome α
  | panic : Panic → Outcome α
  deriving DecidableEq, Repr

/-- Sequencing of calls: an error or a panic of the first step ends the computation. -/
def Outcome.bind {α β : Type} (x : Outcome α) (f : α → Outcome β) : Outcome β :=
  match x with
  | .ok a => f a
  | .error e => .error e
  | .panic p => .panic p

/-- Go `xs[i]`: panics when `i` is not below `len(xs)`. -/
def index {α : Type} (xs : List α) (i : Nat) : Outcome α :=
  match xs[i]? with
  | some x => .ok x
  | none => .panic .indexOutOfRange

/-- Go `x / y` on `int64`: truncated division; a zero divisor panics; the one overflowing case
(`-2^63 / -1`) wraps. -/
def div64 (x y : Int) : Outcome Int :=
  if y = 0 then .panic .divideByZero else .ok (wrap64 (Int.tdiv x y))

/-- Go `int64(b)` for a `byte` `b`: the value is kept (zero extension). -/
def int64OfByte (b : Nat) : Int := (b : Int)

/-- Go `int64(x)` for an `int8` `x`: the value is kept (sign extension). -/
def int64OfInt8 (x : Int) : Int := x

/-- Go `int8(x)` for an `int64` `x`: the low 8 bits, read as a signed number. -/
def int8OfInt64 (x : Int) : Int := (x + 128) % 256 - 128

/-- Modelled from the spec: `bits.AsUnsigned` of `internal/bits`, which is not among the sources:
"representation-preserving two's-complement reinterpretation" of an `int8` as a `byte`. -/
def AsUnsigned (x : Int) : Nat := (x % 256).toNat

/-- Modelled from the spec: `bits.AsSigned` of `internal/bits`, which is not among the sources:
"representation-preserving two's-complement reinterpretation" of a `byte` as an `int8`. -/
def AsSigned (b : Nat) : Int := if b % 256 < 128 then ((b % 256 : Nat) : Int) else ((b % 256 : Nat) : Int) - 256

/-! ## `encryption.go` -/

/-- The variables of the first loop of `EncryptWithAlreadyDerivedKey`. -/
structure EncryptState where
  rotated64 : List Int
  IV64 : List Int
  derivedKey64 : List Int
  sum1 : Int
  sum2 : Int
  deriving DecidableEq, Repr

/-- The state of `EncryptWithAlreadyDerivedKey` after the first `count` iterations of
`for index := 0; index < dataLength; index++` (lines 27-34). -/
def encryptSums (rotated : List Nat) (IV derivedKey : List Int) (dataLength : Nat) :
    Nat → Outcome EncryptState
  | 0 => .ok
      { rotated64 := List.replicate dataLength 0
        IV64 := List.replicate dataLength 0
        derivedKey64 := List.replicate dataLength 0
        sum1 := 0
        sum2 := 0 }
  | idx + 1 =>
    (encryptSums rotated IV derivedKey dataLength idx).bind fun s =>
    (index rotated idx).bind fun r =>
    (index IV idx).bind fun v =>
    (index derivedKey idx).bind fun k =>
    let rotated64 := s.rotated64.set idx (int64OfByte r)
    let IV64 := s.IV64.set idx (int64OfInt8 v)
    let derivedKey64 := s.derivedKey64.set idx (int64OfInt8 k)
    (index derivedKey64 idx).bind fun k64 =>
    (index rotated64 idx).bind fun r64 =>
    (index IV64 idx).bind fun v64 =>
    .ok
      { rotated64 := rotated64
        IV64 := IV64
        derivedKey64 := derivedKey64
        sum1 := add64 s.sum1 (mul64 k64 k64)
        sum2 := add64 s.sum2 (mul64 k64 (sub64 r64 v64)) }

/-- The slice `encryptedData` after the first `count` iterations of
`for index := range encryptedData` (lines 35-39). -/
def encryptFill (s : EncryptState) (dataLength : Nat) : Nat → Outcome (List Int)
  | 0 => .ok (List.replicate dataLength 0)
  | idx + 1 =>
    (encryptFill s dataLength idx).bind fun encryptedData =>
    (index s.rotated64 idx).bind fun r64 =>
    (index s.derivedKey64 idx).bind fun k64 =>
    .ok (encryptedData.set idx (sub64 (mul64 r64 s.sum1) (shl64 (mul64 k64 s.sum2) 1)))

/-- `EncryptWithAlreadyDerivedKey` (encryption.go, lines 13-43).  `RightRotate` is
`bits.RightRotate` and `GenerateIV` is the package's IV generator. -/
def EncryptWithAlreadyDerivedKey
    (RightRotate : List Nat → Nat → Int → List Nat)
    (GenerateIV : Nat → List Nat → List Int → Except NseError (List Int))
    (data : List Nat) (derivedKey : List Int) (bitsToRotate : Nat) (bytesToRotate : Int) :
    Outcome (List Int × List Int) :=
  let dataLength := data.length
  if dataLength < 1 then .error (.NotPositiveDataLengthError "Data")
  else
    let rotated := RightRotate data bitsToRotate bytesToRotate
    match GenerateIV dataLength rotated derivedKey with
    | .error err => .error err
    | .ok IV =>
      (encryptSums rotated IV derivedKey dataLength dataLength).bind fun s =>
      (encryptFill s dataLength dataLength).bind fun encryptedData =>
      .ok (encryptedData, IV)

/-- The variables of the first loop of `DecryptWithAlreadyDerivedKey`. -/
structure DecryptState where
  encryptedData64 : List Int
  IV64 : List Int
  derivedKey64 : List Int
  sum1 : Int
  sum2 : Int
  sum3 : Int
  deriving DecidableEq, Repr

/-- The state of `DecryptWithAlreadyDerivedKey` after the first `count` iterations of
`for index := 0; index < dataLength; index++` (lines 71-77). -/
def decryptSums (encryptedData IV derivedKey : List Int) (dataLength : Nat) :
    Nat → Outcome DecryptState
  | 0 => .ok
      { encryptedData64 := List.replicate dataLength 0
        IV64 := List.replicate dataLength 0
        derivedKey64 := List.replicate dataLength 0
        sum1 := 0
        sum2 := 0
        sum3 := 0 }
  | idx + 1 =>
    (decryptSums encryptedData IV derivedKey dataLength idx).bind fun s =>
    (index encryptedData idx).bind fun e =>
    (index IV idx).bind fun v =>
    (index derivedKey idx).bind fun k =>
    let encryptedData64 := s.encryptedData64.set idx e
    let IV64 := s.IV64.set idx (int64OfInt8 v)
    let derivedKey64 := s.derivedKey64.set idx (int64OfInt8 k)
    (index derivedKey64 idx).bind fun k64 =>
    (index encryptedData64 idx).bind fun e64 =>
    (index IV64 idx).bind fun v64 =>
    .ok
      { encryptedData64 := encryptedData64
        IV64 := IV64
        derivedKey64 := derivedKey64
        sum1 := add64 s.sum1 (mul64 k64 k64)
        sum2 := add64 s.sum2 (mul64 k64 e64)
        sum3 := add64 s.sum3 (mul64 k64 v64) }

/-- The slice `rotated` after the first `count` iterations of `for index := range encryptedData`
(lines 81-83). -/
def decryptFill (s : DecryptState) (sum1Square : Int) (dataLength : Nat) :
    Nat → Outcome (List Nat)
  | 0 => .ok (List.replicate dataLength 0)
  | idx + 1 =>
    (decryptFill s sum1Square dataLength idx).bind fun rotated =>
    (index s.encryptedData64 idx).bind fun e64 =>
    (index s.derivedKey64 idx).bind fun k64 =>
    (div64
      (sub64 (mul64 (add64 e64 (shl64 (mul64 k64 s.sum3) 1)) s.sum1) (shl64 (mul64 k64 s.sum2) 1))
      sum1Square).bind fun q =>
    .ok (rotated.set idx (AsUnsigned (int8OfInt64 q)))

/-- `DecryptWithAlreadyDerivedKey` (encryption.go, lines 57-85).  `LeftRotate` is
`bits.LeftRotate`. -/
def DecryptWithAlreadyDerivedKey
    (LeftRotate : List Nat → Nat → Int → List Nat)
    (encryptedData : List Int) (IV derivedKey : List Int) (bitsToRotate : Nat)
    (bytesToRotate : Int) : Outcome (List Nat) :=
  let dataLength := encryptedData.length
  let IVLength := IV.length
  if dataLength < 1 then .error (.NotPositiveDataLengthError "Ciphertext")
  else if dataLength ≠ IVLength then .error (.DifferentIVLengthError IVLength dataLength)
  else
    (decryptSums encryptedData IV derivedKey dataLength dataLength).bind fun s =>
    let sum1Square := mul64 s.sum1 s.sum1
    (decryptFill s sum1Square dataLength dataLength).bind fun rotated =>
    .ok (LeftRotate rotated bitsToRotate bytesToRotate)

/-- The rotation that leaves every byte in place; used to run the cipher on concrete inputs. -/
def noRotate (data : List Nat) (_bitsToRotate : Nat) (_bytesToRotate : Int) : List Nat := data

/-- An IV generator that returns the given vector; used to run the cipher on concrete inputs. -/
def fixedIV (IV : List Int) (_dataLength : Nat) (_rotated : List Nat) (_derivedKey : List Int) :
    Except NseError (List Int) := .ok IV

/-! ## `conversion.go` -/

/-- Go `xs[i] = v`: panics when `i` is not below `len(xs)`. -/
def store {α : Type} (xs : List α) (i : Nat) (v : α) : Outcome (List α) :=
  if i < xs.length then .ok (xs.set i v) else .panic .indexOutOfRange

/-- Go `xs[:hi]` on a slice whose capacity is its length: panics when `hi` exceeds it. -/
def sliceTo {α : Type} (xs : List α) (hi : Nat) : Outcome (List α) :=
  if hi ≤ xs.length then .ok (xs.take hi) else .panic .indexOutOfRange

/-- Go `xs[lo:]`: panics when `lo` exceeds `len(xs)`. -/
def sliceFrom {α : Type} (xs : List α) (lo : Nat) : Outcome (List α) :=
  if lo ≤ xs.length then .ok (xs.drop lo) else .panic .indexOutOfRange

/-- Go `copy(dst, src)`: the first `min(len(dst), len(src))` cells of `dst` receive `src`. -/
def copyInto {α : Type} (dst src : List α) : List α :=
  src.take dst.length ++ dst.drop src.length

/-- The loop of `binary.PutUvarint` (Go standard library, `encoding/binary`):
`for x >= 0x80 { buf[i] = byte(x) | 0x80; x >>= 7; i++ }; buf[i] = byte(x); return i + 1`.
The buffer is returned together with the count.  The first argument bounds the number of
iterations still to come; `x` itself is such a bound, since every iteration makes `x` smaller,
and when the bound is used up `x` is zero and the loop has ended. -/
def putUvarintLoop : Nat → List Nat → Nat → Nat → Outcome (List Nat × Nat)
  | 0, buf, x, i => (store buf i (x % 256)).bind fun buf => .ok (buf, i + 1)
  | bound + 1, buf, x, i =>
    if x ≥ 0x80 then
      (store buf i ((x % 256) ||| 0x80)).bind fun buf => putUvarintLoop bound buf (x >>> 7) (i + 1)
    else (store buf i (x % 256)).bind fun buf => .ok (buf, i + 1)

/-- `binary.PutUvarint(buf, x)` for a `uint64` `x`. -/
def PutUvarint (buf : List Nat) (x : Nat) : Outcome (List Nat × Nat) :=
  putUvarintLoop x buf x 0

/-- `binary.PutVarint(buf, x)`: `ux := uint64(x) << 1; if x < 0 { ux = ^ux }`, then
`PutUvarint(buf, ux)`. -/
def PutVarint (buf : List Nat) (x : Int) : Outcome (List Nat × Nat) :=
  let ux := (bits64 x <<< 1) % 2 ^ 64
  PutUvarint buf (if x < 0 then 2 ^ 64 - 1 - ux else ux)

/-- The loop of `binary.Uvarint` (Go standard library): the value and the byte count, the count
being negative on overflow and zero when the buffer ends inside a number. -/
def uvarintLoop (x s i : Nat) : List Nat → Nat × Int
  | [] => (0, 0)
  | b :: rest =>
    if i = 10 then (0, -((i : Int) + 1))
    else if b < 0x80 then
      if i = 9 ∧ b > 1 then (0, -((i : Int) + 1))
      else (x ||| ((b <<< s) % 2 ^ 64), (i : Int) + 1)
    else uvarintLoop (x ||| (((b &&& 0x7f) <<< s) % 2 ^ 64)) (s + 7) (i + 1) rest

/-- `binary.Uvarint(buf)`. -/
def Uvarint (buf : List Nat) : Nat × Int := uvarintLoop 0 0 0 buf

/-- `binary.Varint(buf)`: `x := int64(ux >> 1); if ux&1 != 0 { x = ^x }`. -/
def Varint (buf : List Nat) : Int × Int :=
  let r := Uvarint buf
  let x : Int := ((r.1 >>> 1 : Nat) : Int)
  (if r.1 &&& 1 ≠ 0 then -x - 1 else x, r.2)

/-- The loop `for ; lastNonZeroIndex > 0 && bytes[lastNonZeroIndex] == 0; lastNonZeroIndex--`
of `Int64ToBytes`, started at the given index: the index at which it stops. -/
def lastNonZero (bytes : List Nat) : Nat → Outcome Nat
  | 0 => .ok 0
  | i + 1 => (index bytes (i + 1)).bind fun b => if b = 0 then lastNonZero bytes i else .ok (i + 1)

/-- `Int64ToBytes` (conversion.go, lines 10-17). -/
def Int64ToBytes (integer : Int) : Outcome (List Nat) :=
  (PutVarint (List.replicate 8 0) integer).bind fun written =>
  (lastNonZero written.1 7).bind fun lastNonZeroIndex =>
  sliceTo written.1 (lastNonZeroIndex + 1)

/-- The pair `(result, resultIndex)` of `Int64sToBytes` after the first `count` iterations of its
loop (lines 26-32). -/
def int64sToBytesLoop (data : List Int) (dataLength : Nat) : Nat → Outcome (List Nat × Nat)
  | 0 => .ok (List.replicate (dataLength * 9) 0, 0)
  | dataIndex + 1 =>
    (int64sToBytesLoop data dataLength dataIndex).bind fun st =>
    (index data dataIndex).bind fun x =>
    (Int64ToBytes x).bind fun integerBytes =>
    (store st.1 st.2 (integerBytes.length % 256)).bind fun result =>
    (sliceFrom result (st.2 + 1)).bind fun rest =>
    .ok (result.take (st.2 + 1) ++ copyInto rest integerBytes, st.2 + 1 + integerBytes.length)

/-- `Int64sToBytes` (conversion.go, lines 21-34). -/
def Int64sToBytes (data : List Int) : Outcome (List Nat) :=
  (int64sToBytesLoop data data.length data.length).bind fun st => sliceTo st.1 st.2

/-- The loop of `BytesToInt64s` (lines 44-52), from the given `dataIndex` and `resultIndex`.
The first argument bounds the number of iterations still to come; `dataLength - dataIndex` is such
a bound, since every iteration moves `dataIndex` forward, and when the bound is used up
`dataIndex` has reached `dataLength` and the loop has ended. -/
def bytesToInt64sLoop (data : List Nat) :
    Nat → List Int → Nat → Nat → Outcome (List Int)
  | 0, result, _, resultIndex => sliceTo result resultIndex
  | bound + 1, result, dataIndex, resultIndex =>
    if dataIndex < data.length then
      (index data dataIndex).bind fun length =>
      let newDataIndex := dataIndex + length + 1
      if newDataIndex > data.length then .error .WrongDataFormatError
      else
        (store result resultIndex
          (Varint ((data.take newDataIndex).drop (dataIndex + 1))).1).bind fun result =>
        bytesToInt64sLoop data bound result newDataIndex (resultIndex + 1)
    else sliceTo result resultIndex

/-- `BytesToInt64s` (conversion.go, lines 38-54). -/
def BytesToInt64s (data : List Nat) : Outcome (List Int) :=
  bytesToInt64sLoop data data.length (List.replicate data.length 0) 0 0

/-- The position of the length byte of the `k`-th block met when the blocks
`[length byte, payload]` of `data` are read one after the other from position `start`. -/
def blockStart (data : List Nat) (start : Nat) : Nat → Nat
  | 0 => start
  | k + 1 => blockStart data (start + data.getD start 0 + 1) k

/-! ## Closed forms of the loops -/

/-- The slice of length `n` in which the cells below `count` hold `f 0, f 1, ...` and the other
cells still hold the zero value `z` that `make` put there. -/
def filled {α : Type} (z : α) (f : Nat → α) (n count : Nat) : List α :=
  (List.range n).map fun j => if j < count then f j else z

/-- The widened rotated byte `int64(rotated[i])`. -/
def widenByte (rotated : List Nat) (i : Nat) : Int := int64OfByte (rotated.getD i 0)

/-- The widened signed element `int64(xs[i])` of an `int8` slice. -/
def widenInt8 (xs : List Int) (i : Nat) : Int := int64OfInt8 (xs.getD i 0)

/-- The exact integer `S1`: the sum of `K[j] * K[j]` over `j < n`. -/
def exactS1 (derivedKey : List Int) (n : Nat) : Int :=
  Finset.sum (Finset.range n) fun j => widenInt8 derivedKey j * widenInt8 derivedKey j

/-- The exact integer `S2`: the sum of `K[j] * (R[j] - V[j])` over `j < n`. -/
def exactS2 (rotated : List Nat) (IV derivedKey : List Int) (n : Nat) : Int :=
  Finset.sum (Finset.range n) fun j =>
    widenInt8 derivedKey j * (widenByte rotated j - widenInt8 IV j)

/-- The exact integer sum of `K[j] * E[j]` over `j < n` (`sum2` of the decryption). -/
def exactKE (encryptedData derivedKey : List Int) (n : Nat) : Int :=
  Finset.sum (Finset.range n) fun j => widenInt8 derivedKey j * encryptedData.getD j 0

/-- The exact integer sum of `K[j] * V[j]` over `j < n` (`sum3` of the decryption). -/
def exactKV (IV derivedKey : List Int) (n : Nat) : Int :=
  Finset.sum (Finset.range n) fun j => widenInt8 derivedKey j * widenInt8 IV j

/-- The value that line 38 stores in `encryptedData[i]`, from the sums the first loop leaves. -/
def encryptedAt (rotated : List Nat) (IV derivedKey : List Int) (n i : Nat) : Int :=
  sub64 (mul64 (widenByte rotated i) (wrap64 (exactS1 derivedKey n)))
    (shl64 (mul64 (widenInt8 derivedKey i) (wrap64 (exactS2 rotated IV derivedKey n))) 1)

/-- The numerator of the division of line 82 at index `i`. -/
def numeratorAt (encryptedData IV derivedKey : List Int) (n i : Nat) : Int :=
  sub64
    (mul64
      (add64 (encryptedData.getD i 0)
        (shl64 (mul64 (widenInt8 derivedKey i) (wrap64 (exactKV IV derivedKey n))) 1))
      (wrap64 (exactS1 derivedKey n)))
    (shl64 (mul64 (widenInt8 derivedKey i) (wrap64 (exactKE encryptedData derivedKey n))) 1)

/-- The divisor `sum1Square` of line 79. -/
def divisor (derivedKey : List Int) (n : Nat) : Int :=
  mul64 (wrap64 (exactS1 derivedKey n)) (wrap64 (exactS1 derivedKey n))

/-- The byte that line 82 stores in `rotated[i]` when the divisor is not zero. -/
def decryptedAt (encryptedData IV derivedKey : List Int) (n i : Nat) : Nat :=
  AsUnsigned (int8OfInt64 (wrap64
    (Int.tdiv (numeratorAt encryptedData IV derivedKey n i) (divisor derivedKey n))))

/-- The exact integer sum of `K[j] * R[j]` over `j < n`. -/
def exactKR (rotated : List Nat) (derivedKey : List Int) (n : Nat) : Int :=
  Finset.sum (Finset.range n) fun j => widenInt8 derivedKey j * widenByte rotated j

/-- The integer that `BytesToInt64s` reads from the `k`-th block after position `start`:
`binary.Varint` of the payload `data[p+1 : p+1+L]`. -/
def blockValue (data : List Nat) (start k : Nat) : Int :=
  (Varint ((data.take (blockStart data start (k + 1))).drop (blockStart data start k + 1))).1

/-- The slice `result` of `Int8sToBytes` after the first `count` iterations of
`for index, value := range data` (lines 59-63). -/
def int8sToBytesLoop (data : List Int) (dataLength : Nat) : Nat → Outcome (List Nat)
  | 0 => .ok (List.replicate dataLength 0)
  | idx + 1 =>
    (int8sToBytesLoop data dataLength idx).bind fun result =>
    (index data idx).bind fun value =>
    store result idx (AsUnsigned value)

/-- `Int8sToBytes` (conversion.go, lines 58-65). -/
def Int8sToBytes (data : List Int) : Outcome (List Nat) :=
  int8sToBytesLoop data data.length data.length

/-- The slice `result` of `BytesToInt8s` after the first `count` iterations of
`for index, value := range data` (lines 70-74). -/
def bytesToInt8sLoop (data : List Nat) (dataLength : Nat) : Nat → Outcome (List Int)
  | 0 => .ok (List.replicate dataLength 0)
  | idx + 1 =>
    (bytesToInt8sLoop data dataLength idx).bind fun result =>
    (index data idx).bind fun value =>
    store result idx (AsSigned value)

/-- `BytesToInt8s` (conversion.go, lines 69-76). -/
def BytesToInt8s (data : List Nat) : Outcome (List Int) :=
  bytesToInt8sLoop data data.length data.length

/-- `Encrypt` (encryption.go, lines 47-53).  `DeriveKey` is the package's key derivation; it
returns `(bitsToRotate, bytesToRotate, derivedKey)` or an error. -/
def Encrypt
    (DeriveKey : Int → List Nat → Nat → Except NseError (Nat × Int × List Int))
    (RightRotate : List Nat → Nat → Int → List Nat)
    (GenerateIV : Nat → List Nat → List Int → Except NseError (List Int))
    (data salt : List Nat) (key : Int) : Outcome (List Int × List Int) :=
  match DeriveKey key salt data.length with
  | .error err => .error err
  | .ok derived =>
    EncryptWithAlreadyDerivedKey RightRotate GenerateIV data derived.2.2 derived.1 derived.2.1

/-- `Decrypt` (encryption.go, lines 89-95). -/
def Decrypt
    (DeriveKey : Int → List Nat → Nat → Except NseError (Nat × Int × List Int))
    (LeftRotate : List Nat → Nat → Int → List Nat)
    (encryptedData : List Int) (salt : List Nat) (IV : List Int) (key : Int) :
    Outcome (List Nat) :=
  match DeriveKey key salt encryptedData.length with
  | .error err => .error err
  | .ok derived =>
    DecryptWithAlreadyDerivedKey LeftRotate encryptedData IV derived.2.2 derived.1 derived.2.1

/-- A key derivation that rejects a non-positive key and otherwise returns the given
parameters and derived key; used to run the facades on concrete inputs. -/
def fixedDeriveKey (bitsToRotate : Nat) (bytesToRotate : Int) (derivedKey : List Int)
    (key : Int) (_salt : List Nat) (_dataLength : Nat) :
    Except NseError (Nat × Int × List Int) :=
  if key ≤ 0 then .error (.other "key is not positive")
  else .ok (bitsToRotate, bytesToRotate, derivedKey)

/-- An IV generator that fails with the given error; used to run the cipher on concrete
inputs. -/
def failingIV (e : NseError) (_dataLength : Nat) (_rotated : List Nat) (_derivedKey : List Int) :
    Except NseError (List Int) := .error e

/-- Go `-x` on an `int8`: the negation wraps (`-(-128)` is `-128`). -/
def neg8 (x : Int) : Int := int8OfInt64 (-x)

/-- The state that the first loop of `DecryptWithAlreadyDerivedKey` reaches under the negated
key, in terms of the state it reaches under the key. -/
def negatedKeyState (s : DecryptState) : DecryptState :=
  { encryptedData64 := s.encryptedData64
    IV64 := s.IV64
    derivedKey64 := s.derivedKey64.map fun k => -k
    sum1 := s.sum1
    sum2 := wrap64 (-s.sum2)
    sum3 := wrap64 (-s.sum3) }

/-- The zigzag value of a signed integer: `2x` for `x ≥ 0` and `-2x - 1` for `x < 0`. -/
def zigzag (x : Int) : Nat := if x < 0 then (-2 * x - 1).toNat else (2 * x).toNat

/-- The bytes of the base-128 varint of `x`, least significant group first, every byte but the
last with its top bit set; the first argument bounds the number of groups and `x` is such a
bound. -/
def uvarintBytes : Nat → Nat → List Nat
  | 0, x => [x % 256]
  | bound + 1, x =>
    if x ≥ 0x80 then ((x % 256) ||| 0x80) :: uvarintBytes bound (x >>> 7) else [x % 256]

/-- The zigzag varint of a signed integer. -/
def varintBytes (x : Int) : List Nat := uvarintBytes (zigzag x) (zigzag x)

/-- The number that a sequence of varint bytes stands for: the low seven bits of each byte,
least significant group first. -/
def uvarintValue : List Nat → Nat
  | [] => 0
  | b :: rest => b % 128 + 128 * uvarintValue rest

/-- The wire form of an array: for each integer one length byte and its varint bytes. -/
def wireBlocks : List Int → List Nat
  | [] => []
  | x :: xs => ((varintBytes x).length :: varintBytes x) ++ wireBlocks xs

/-! ## Lemmas -/

theorem wrap64_modEq (x : Int) : wrap64 x ≡ x [ZMOD 2 ^ 64] := by
  unfold wrap64 Int.ModEq
  omega

theorem wrap64_lower (x : Int) : -2 ^ 63 ≤ wrap64 x := by
  unfold wrap64
  omega

theorem wrap64_upper (x : Int) : wrap64 x < 2 ^ 63 := by
  unfold wrap64
  omega

theorem wrap64_of_range (x : Int) (h1 : -2 ^ 63 ≤ x) (h2 : x < 2 ^ 63) : wrap64 x = x := by
  unfold wrap64
  omega

theorem wrap64_congr {a b : Int} (h : a ≡ b [ZMOD 2 ^ 64]) : wrap64 a = wrap64 b := by
  unfold wrap64 
  unfold Int.ModEq at h
  omega

theorem shl64_one (x : Int) : shl64 x 1 = wrap64 (2 * x) := by
  unfold shl64 ofBits64 bits64 wrap64
  rw [Nat.shiftLeft_eq]
  have h : ((x % 2 ^ 64).toNat : Int) = x % 2 ^ 64 := Int.toNat_of_nonneg (by omega)
  split <;> omega

theorem cast_wrap64 (x : Int) : ((wrap64 x : Int) : ZMod (2 ^ 64)) = (x : ZMod (2 ^ 64)) := by
  rw [ZMod.intCast_eq_intCast_iff]
  have := wrap64_modEq x
  simpa using this

theorem wrap64_eq_of_cast {a b : Int} (h : (a : ZMod (2 ^ 64)) = (b : ZMod (2 ^ 64))) :
    wrap64 a = wrap64 b := by
  apply wrap64_congr
  rw [ZMod.intCast_eq_intCast_iff] at h
  simpa using h

theorem cast_add64 (a b : Int) : ((add64 a b : Int) : ZMod (2 ^ 64)) = (a : ZMod (2 ^ 64)) + b := by
  rw [add64, cast_wrap64, Int.cast_add]

theorem cast_sub64 (a b : Int) : ((sub64 a b : Int) : ZMod (2 ^ 64)) = (a : ZMod (2 ^ 64)) - b := by
  rw [sub64, cast_wrap64, Int.cast_sub]

theorem cast_mul64 (a b : Int) : ((mul64 a b : Int) : ZMod (2 ^ 64)) = (a : ZMod (2 ^ 64)) * b := by
  rw [mul64, cast_wrap64, Int.cast_mul]

theorem cast_shl64_one (a : Int) : ((shl64 a 1 : Int) : ZMod (2 ^ 64)) = 2 * (a : ZMod (2 ^ 64)) := by
  rw [shl64_one, cast_wrap64, Int.cast_mul]; rfl

theorem filled_zero {α : Type} (z : α) (f : Nat → α) (n : Nat) :
    filled z f n 0 = List.replicate n z := by
  apply List.ext_getElem?
  intro i
  simp [filled, List.getElem?_replicate, List.getElem?_range]

theorem filled_length {α : Type} (z : α) (f : Nat → α) (n c : Nat) :
    (filled z f n c).length = n := by
  simp [filled]

theorem filled_set {α : Type} (z : α) (f : Nat → α) (n c : Nat) :
    (filled z f n c).set c (f c) = filled z f n (c + 1) := by
  apply List.ext_getElem?
  intro i
  rw [List.getElem?_set]
  by_cases hi : i < n
  · by_cases hc : c = i
    · subst hc
      simp [filled, List.getElem?_range, hi]
    · have h1 : (i < c + 1) ↔ (i < c) := by omega
      simp [filled, List.getElem?_range, hi, hc, h1]
  · have h1 : (filled z f n c)[i]? = none := by
      rw [List.getElem?_eq_none_iff, filled_length]; omega
    have h2 : (filled z f n (c + 1))[i]? = none := by
      rw [List.getElem?_eq_none_iff, filled_length]; omega
    rw [h1, h2]
    split
    · have : ¬ (c < (filled z f n c).length) := by rw [filled_length]; omega
      simp [this]
    · rfl

theorem index_of_lt {α : Type} (xs : List α) (i : Nat) (d : α) (h : i < xs.length) :
    index xs i = .ok (xs.getD i d) := by
  unfold index
  rw [List.getD_eq_getElem?_getD, List.getElem?_eq_getElem h]
  rfl

theorem index_filled {α : Type} (z : α) (f : Nat → α) (n c j : Nat) (h : j < n) :
    index (filled z f n c) j = .ok (if j < c then f j else z) := by
  unfold index
  simp [filled, List.getElem?_range, h]

theorem filled_full {α : Type} (z : α) (f : Nat → α) (n : Nat) :
    filled z f n n = (List.range n).map f := by
  unfold filled
  apply List.map_congr_left
  intro j hj
  simp [List.mem_range.mp hj]

theorem exactS1_succ (derivedKey : List Int) (c : Nat) :
    exactS1 derivedKey (c + 1)
      = exactS1 derivedKey c + widenInt8 derivedKey c * widenInt8 derivedKey c := by
  unfold exactS1
  rw [Finset.sum_range_succ]

theorem exactS2_succ (rotated : List Nat) (IV derivedKey : List Int) (c : Nat) :
    exactS2 rotated IV derivedKey (c + 1)
      = exactS2 rotated IV derivedKey c
        + widenInt8 derivedKey c * (widenByte rotated c - widenInt8 IV c) := by
  unfold exactS2
  rw [Finset.sum_range_succ]

theorem encryptSums_eq (rotated : List Nat) (IV derivedKey : List Int) (n : Nat)
    (hr : n ≤ rotated.length) (hv : n ≤ IV.length) (hk : n ≤ derivedKey.length) :
    ∀ c, c ≤ n → encryptSums rotated IV derivedKey n c = .ok
      { rotated64 := filled 0 (widenByte rotated) n c
        IV64 := filled 0 (widenInt8 IV) n c
        derivedKey64 := filled 0 (widenInt8 derivedKey) n c
        sum1 := wrap64 (exactS1 derivedKey c)
        sum2 := wrap64 (exactS2 rotated IV derivedKey c) } := by
  intro c
  induction c with
  | zero =>
    intro _
    simp only [encryptSums, filled_zero, exactS1, exactS2, Finset.range_zero, Finset.sum_empty]
    rfl
  | succ c ih =>
    intro hc
    rw [encryptSums, ih (by omega)]
    simp only [Outcome.bind]
    rw [index_of_lt rotated c 0 (by omega), index_of_lt IV c 0 (by omega),
      index_of_lt derivedKey c 0 (by omega)]
    simp only []
    have e1 : (filled 0 (widenByte rotated) n c).set c (int64OfByte (rotated.getD c 0))
        = filled 0 (widenByte rotated) n (c + 1) := filled_set 0 (widenByte rotated) n c
    have e2 : (filled 0 (widenInt8 IV) n c).set c (int64OfInt8 (IV.getD c 0))
        = filled 0 (widenInt8 IV) n (c + 1) := filled_set 0 (widenInt8 IV) n c
    have e3 : (filled 0 (widenInt8 derivedKey) n c).set c (int64OfInt8 (derivedKey.getD c 0))
        = filled 0 (widenInt8 derivedKey) n (c + 1) := filled_set 0 (widenInt8 derivedKey) n c
    rw [e1, e2, e3, index_filled _ _ _ _ _ hc, index_filled _ _ _ _ _ hc,
      index_filled _ _ _ _ _ hc]
    simp only [Nat.lt_succ_self, if_true]
    congr 2
    · apply wrap64_eq_of_cast
      rw [exactS1_succ, Int.cast_add, cast_wrap64, cast_mul64, Int.cast_add, Int.cast_mul]
    · apply wrap64_eq_of_cast
      rw [exactS2_succ, Int.cast_add, cast_wrap64, cast_mul64, cast_sub64, Int.cast_add,
        Int.cast_mul, Int.cast_sub]

theorem encryptFill_eq (rotated : List Nat) (IV derivedKey : List Int) (n : Nat) :
    ∀ c, c ≤ n → encryptFill
      { rotated64 := filled 0 (widenByte rotated) n n
        IV64 := filled 0 (widenInt8 IV) n n
        derivedKey64 := filled 0 (widenInt8 derivedKey) n n
        sum1 := wrap64 (exactS1 derivedKey n)
        sum2 := wrap64 (exactS2 rotated IV derivedKey n) } n c
      = .ok (filled 0 (encryptedAt rotated IV derivedKey n) n c) := by
  intro c
  induction c with
  | zero =>
    intro _
    simp only [encryptFill, filled_zero]
  | succ c ih =>
    intro hc
    rw [encryptFill, ih (by omega)]
    simp only [Outcome.bind]
    rw [index_filled _ _ _ _ _ hc, index_filled _ _ _ _ _ hc]
    simp only [if_pos (show c < n by omega)]
    rw [← filled_set]
    rfl

theorem encrypt_eq (RightRotate : List Nat → Nat → Int → List Nat)
    (GenerateIV : Nat → List Nat → List Int → Except NseError (List Int))
    (data : List Nat) (derivedKey IV : List Int) (bitsToRotate : Nat) (bytesToRotate : Int)
    (hn : 1 ≤ data.length)
    (hr : data.length ≤ (RightRotate data bitsToRotate bytesToRotate).length)
    (hk : data.length ≤ derivedKey.length)
    (hg : GenerateIV data.length (RightRotate data bitsToRotate bytesToRotate) derivedKey = .ok IV)
    (hv : data.length ≤ IV.length) :
    EncryptWithAlreadyDerivedKey RightRotate GenerateIV data derivedKey bitsToRotate bytesToRotate
      = .ok ((List.range data.length).map
          (encryptedAt (RightRotate data bitsToRotate bytesToRotate) IV derivedKey data.length),
          IV) := by
  unfold EncryptWithAlreadyDerivedKey
  simp only []
  rw [if_neg (by omega), hg]
  simp only []
  rw [encryptSums_eq _ _ _ _ hr hv hk _ (le_refl _)]
  simp only [Outcome.bind]
  rw [encryptFill_eq _ _ _ _ _ (le_refl _)]
  simp only [filled_full]

theorem exactKE_succ (encryptedData derivedKey : List Int) (c : Nat) :
    exactKE encryptedData derivedKey (c + 1)
      = exactKE encryptedData derivedKey c + widenInt8 derivedKey c * encryptedData.getD c 0 := by
  unfold exactKE
  rw [Finset.sum_range_succ]

theorem exactKV_succ (IV derivedKey : List Int) (c : Nat) :
    exactKV IV derivedKey (c + 1)
      = exactKV IV derivedKey c + widenInt8 derivedKey c * widenInt8 IV c := by
  unfold exactKV
  rw [Finset.sum_range_succ]

theorem decryptSums_eq (encryptedData IV derivedKey : List Int) (n : Nat)
    (he : n ≤ encryptedData.length) (hv : n ≤ IV.length) (hk : n ≤ derivedKey.length) :
    ∀ c, c ≤ n → decryptSums encryptedData IV derivedKey n c = .ok
      { encryptedData64 := filled 0 (fun j => encryptedData.getD j 0) n c
        IV64 := filled 0 (widenInt8 IV) n c
        derivedKey64 := filled 0 (widenInt8 derivedKey) n c
        sum1 := wrap64 (exactS1 derivedKey c)
        sum2 := wrap64 (exactKE encryptedData derivedKey c)
        sum3 := wrap64 (exactKV IV derivedKey c) } := by
  intro c
  induction c with
  | zero =>
    intro _
    simp only [decryptSums, filled_zero, exactS1, exactKE, exactKV, Finset.range_zero,
      Finset.sum_empty]
    rfl
  | succ c ih =>
    intro hc
    rw [decryptSums, ih (by omega)]
    simp only [Outcome.bind]
    rw [index_of_lt encryptedData c 0 (by omega), index_of_lt IV c 0 (by omega),
      index_of_lt derivedKey c 0 (by omega)]
    simp only []
    have e1 : (filled 0 (fun j => encryptedData.getD j 0) n c).set c (encryptedData.getD c 0)
        = filled 0 (fun j => encryptedData.getD j 0) n (c + 1) :=
      filled_set 0 (fun j => encryptedData.getD j 0) n c
    have e2 : (filled 0 (widenInt8 IV) n c).set c (int64OfInt8 (IV.getD c 0))
        = filled 0 (widenInt8 IV) n (c + 1) := filled_set 0 (widenInt8 IV) n c
    have e3 : (filled 0 (widenInt8 derivedKey) n c).set c (int64OfInt8 (derivedKey.getD c 0))
        = filled 0 (widenInt8 derivedKey) n (c + 1) := filled_set 0 (widenInt8 derivedKey) n c
    rw [e1, e2, e3, index_filled _ _ _ _ _ hc, index_filled _ _ _ _ _ hc,
      index_filled _ _ _ _ _ hc]
    simp only [Nat.lt_succ_self, if_true]
    congr 2
    · apply wrap64_eq_of_cast
      rw [exactS1_succ, Int.cast_add, cast_wrap64, cast_mul64, Int.cast_add, Int.cast_mul]
    · apply wrap64_eq_of_cast
      rw [exactKE_succ, Int.cast_add, cast_wrap64, cast_mul64, Int.cast_add, Int.cast_mul]
    · apply wrap64_eq_of_cast
      rw [exactKV_succ, Int.cast_add, cast_wrap64, cast_mul64, Int.cast_add, Int.cast_mul]

theorem decryptFill_eq (encryptedData IV derivedKey : List Int) (n : Nat)
    (hd : divisor derivedKey n ≠ 0) :
    ∀ c, c ≤ n → decryptFill
      { encryptedData64 := filled 0 (fun j => encryptedData.getD j 0) n n
        IV64 := filled 0 (widenInt8 IV) n n
        derivedKey64 := filled 0 (widenInt8 derivedKey) n n
        sum1 := wrap64 (exactS1 derivedKey n)
        sum2 := wrap64 (exactKE encryptedData derivedKey n)
        sum3 := wrap64 (exactKV IV derivedKey n) } (divisor derivedKey n) n c
      = .ok (filled 0 (decryptedAt encryptedData IV derivedKey n) n c) := by
  intro c
  induction c with
  | zero =>
    intro _
    simp only [decryptFill, filled_zero]
  | succ c ih =>
    intro hc
    rw [decryptFill, ih (by omega)]
    simp only [Outcome.bind]
    rw [index_filled _ _ _ _ _ hc, index_filled _ _ _ _ _ hc]
    simp only [if_pos (show c < n by omega), div64, if_neg hd]
    rw [← filled_set]
    rfl

theorem decryptFill_zero_divisor (s : DecryptState) (n : Nat)
    (h1 : n ≤ s.encryptedData64.length) (h2 : n ≤ s.derivedKey64.length) :
    ∀ c, 1 ≤ c → c ≤ n → decryptFill s 0 n c = .panic .divideByZero := by
  intro c
  induction c with
  | zero => intro h; omega
  | succ c ih =>
    intro _ hc
    rw [decryptFill]
    rcases Nat.eq_zero_or_pos c with h0 | h0
    · subst h0
      simp only [decryptFill, Outcome.bind]
      rw [index_of_lt _ 0 0 (by omega), index_of_lt _ 0 0 (by omega)]
      simp [div64]
    · rw [ih h0 (by omega)]
      rfl

theorem decrypt_eq (LeftRotate : List Nat → Nat → Int → List Nat)
    (encryptedData IV derivedKey : List Int) (bitsToRotate : Nat) (bytesToRotate : Int)
    (hn : 1 ≤ encryptedData.length) (hv : IV.length = encryptedData.length)
    (hk : encryptedData.length ≤ derivedKey.length)
    (hd : divisor derivedKey encryptedData.length ≠ 0) :
    DecryptWithAlreadyDerivedKey LeftRotate encryptedData IV derivedKey bitsToRotate bytesToRotate
      = .ok (LeftRotate ((List.range encryptedData.length).map
          (decryptedAt encryptedData IV derivedKey encryptedData.length))
          bitsToRotate bytesToRotate) := by
  unfold DecryptWithAlreadyDerivedKey
  simp only []
  rw [if_neg (by omega), if_neg (by omega)]
  rw [decryptSums_eq _ _ _ _ (le_refl _) (by omega) hk _ (le_refl _)]
  simp only [Outcome.bind]
  have := decryptFill_eq encryptedData IV derivedKey _ hd _ (le_refl _)
  unfold divisor at this
  rw [this]
  simp only [filled_full]

theorem exactS2_eq_sub (rotated : List Nat) (IV derivedKey : List Int) (n : Nat) :
    exactS2 rotated IV derivedKey n = exactKR rotated derivedKey n - exactKV IV derivedKey n := by
  induction n with
  | zero => simp [exactS2, exactKR, exactKV]
  | succ c ih =>
    rw [exactS2_succ, exactKV_succ, ih]
    unfold exactKR
    rw [Finset.sum_range_succ]
    ring

theorem getD_map_range (f : Nat → Int) (n j : Nat) (h : j < n) :
    ((List.range n).map f).getD j 0 = f j := by
  rw [List.getD_eq_getElem?_getD]
  simp [List.getElem?_range, h]

/-- The sum `sum2` of the decryption, on the output of the encryption, modulo `2^64`. -/
theorem cast_exactKE_encrypted (rotated : List Nat) (IV derivedKey : List Int) (n : Nat) :
    ∀ c, c ≤ n →
    ((exactKE ((List.range n).map (encryptedAt rotated IV derivedKey n)) derivedKey c : Int) :
        ZMod (2 ^ 64))
      = (exactS1 derivedKey n : ZMod (2 ^ 64)) * (exactKR rotated derivedKey c : ZMod (2 ^ 64))
        - 2 * (exactS2 rotated IV derivedKey n : ZMod (2 ^ 64))
          * (exactS1 derivedKey c : ZMod (2 ^ 64)) := by
  intro c
  induction c with
  | zero =>
    intro _
    simp [exactKE, exactKR, exactS1]
  | succ c ih =>
    intro hc
    rw [exactKE_succ, exactS1_succ, Int.cast_add, ih (by omega), getD_map_range _ _ _ hc]
    unfold exactKR
    rw [Finset.sum_range_succ]
    rw [encryptedAt, Int.cast_mul, cast_sub64, cast_mul64, cast_shl64_one, cast_mul64,
      cast_wrap64, cast_wrap64]
    push_cast
    ring

theorem numeratorAt_encrypted (rotated : List Nat) (IV derivedKey : List Int) (n i : Nat)
    (hi : i < n) :
    numeratorAt ((List.range n).map (encryptedAt rotated IV derivedKey n)) IV derivedKey n i
      = wrap64 (widenByte rotated i * (exactS1 derivedKey n * exactS1 derivedKey n)) := by
  unfold numeratorAt
  rw [sub64]
  apply wrap64_eq_of_cast
  rw [Int.cast_sub, cast_mul64, cast_add64, cast_shl64_one, cast_shl64_one, cast_mul64,
    cast_mul64, cast_wrap64, cast_wrap64, cast_wrap64,
    cast_exactKE_encrypted _ _ _ _ _ (le_refl _), getD_map_range _ _ _ hi, encryptedAt,
    cast_sub64, cast_mul64, cast_shl64_one, cast_mul64, cast_wrap64, cast_wrap64,
    exactS2_eq_sub]
  push_cast
  ring

theorem divisor_eq (derivedKey : List Int) (n : Nat) :
    divisor derivedKey n = wrap64 (exactS1 derivedKey n * exactS1 derivedKey n) := by
  unfold divisor
  rw [mul64]
  apply wrap64_eq_of_cast
  rw [Int.cast_mul, cast_wrap64, Int.cast_mul]

theorem widenInt8_range (xs : List Int) (h : ∀ k ∈ xs, -128 ≤ k ∧ k ≤ 127) (j : Nat) :
    -128 ≤ widenInt8 xs j ∧ widenInt8 xs j ≤ 127 := by
  unfold widenInt8 int64OfInt8
  rw [List.getD_eq_getElem?_getD]
  by_cases hj : j < xs.length
  · rw [List.getElem?_eq_getElem hj]
    exact h _ (List.getElem_mem hj)
  · rw [List.getElem?_eq_none (by omega)]
    simp

theorem widenByte_range (xs : List Nat) (h : ∀ b ∈ xs, b < 256) (j : Nat) :
    0 ≤ widenByte xs j ∧ widenByte xs j ≤ 255 := by
  unfold widenByte int64OfByte
  rw [List.getD_eq_getElem?_getD]
  by_cases hj : j < xs.length
  · rw [List.getElem?_eq_getElem hj]
    have := h _ (List.getElem_mem hj)
    simp only [Option.getD_some]
    omega
  · rw [List.getElem?_eq_none (by omega)]
    simp

theorem exactS1_nonneg (derivedKey : List Int) (n : Nat) : 0 ≤ exactS1 derivedKey n := by
  induction n with
  | zero => simp [exactS1]
  | succ c ih =>
    rw [exactS1_succ]
    have := mul_self_nonneg (widenInt8 derivedKey c)
    omega

theorem exactS1_le (derivedKey : List Int) (h : ∀ k ∈ derivedKey, -128 ≤ k ∧ k ≤ 127) (n : Nat) :
    exactS1 derivedKey n ≤ 16384 * (n : Int) := by
  induction n with
  | zero => simp [exactS1]
  | succ c ih =>
    rw [exactS1_succ]
    have hr := widenInt8_range derivedKey h c
    have : widenInt8 derivedKey c * widenInt8 derivedKey c ≤ 16384 := by nlinarith
    push_cast
    omega

theorem exactS1_ge_term (derivedKey : List Int) (n j : Nat) (hj : j < n) :
    widenInt8 derivedKey j * widenInt8 derivedKey j ≤ exactS1 derivedKey n := by
  induction n with
  | zero => omega
  | succ c ih =>
    rw [exactS1_succ]
    rcases Nat.lt_succ_iff_lt_or_eq.mp hj with h | h
    · have := ih h
      have := mul_self_nonneg (widenInt8 derivedKey c)
      omega
    · subst h
      have := exactS1_nonneg derivedKey j
      omega

theorem exactS1_pos (derivedKey : List Int) (n : Nat) (hlen : derivedKey.length ≤ n)
    (hnz : ∃ k ∈ derivedKey, k ≠ 0) : 0 < exactS1 derivedKey n := by
  obtain ⟨k, hk, hk0⟩ := hnz
  obtain ⟨j, hj, hjk⟩ := List.getElem_of_mem hk
  have h1 := exactS1_ge_term derivedKey n j (by omega)
  have h2 : widenInt8 derivedKey j = k := by
    unfold widenInt8 int64OfInt8
    rw [List.getD_eq_getElem?_getD, List.getElem?_eq_getElem hj, hjk]
    rfl
  rw [h2] at h1
  have : 0 < k * k := mul_self_pos.mpr hk0
  omega

/-- One cell of the round trip: when `255 * S1 * S1` fits in a signed 64-bit word, the quotient
of line 82 on the output of the encryption is the rotated byte itself. -/
theorem decryptedAt_encrypted (rotated : List Nat) (IV derivedKey : List Int) (n i : Nat)
    (hi : i < n) (hb : ∀ b ∈ rotated, b < 256)
    (hpos : 0 < exactS1 derivedKey n)
    (hfit : 255 * (exactS1 derivedKey n * exactS1 derivedKey n) < 2 ^ 63) :
    decryptedAt ((List.range n).map (encryptedAt rotated IV derivedKey n)) IV derivedKey n i
      = rotated.getD i 0 := by
  have hR := widenByte_range rotated hb i
  have hsq : 0 < exactS1 derivedKey n * exactS1 derivedKey n := by positivity
  unfold decryptedAt
  rw [numeratorAt_encrypted _ _ _ _ _ hi, divisor_eq]
  have h1 : widenByte rotated i * (exactS1 derivedKey n * exactS1 derivedKey n)
      ≤ 255 * (exactS1 derivedKey n * exactS1 derivedKey n) := by nlinarith
  have h2 : 0 ≤ widenByte rotated i * (exactS1 derivedKey n * exactS1 derivedKey n) := by
    nlinarith
  rw [wrap64_of_range (widenByte rotated i * (exactS1 derivedKey n * exactS1 derivedKey n))
      (by omega) (by omega),
    wrap64_of_range (exactS1 derivedKey n * exactS1 derivedKey n) (by omega) (by omega),
    Int.mul_tdiv_cancel _ (by omega), wrap64_of_range _ (by omega) (by omega)]
  unfold AsUnsigned int8OfInt64
  unfold widenByte int64OfByte at hR ⊢
  omega

theorem bind_eq_ok {α β : Type} (x : Outcome α) (f : α → Outcome β) (b : β)
    (h : x.bind f = .ok b) : ∃ a, x = .ok a ∧ f a = .ok b := by
  cases x with
  | ok a => exact ⟨a, rfl, h⟩
  | error e => simp [Outcome.bind] at h
  | panic p => simp [Outcome.bind] at h

/-- A successful encryption returns the IV of the generator. -/
theorem encrypt_ok_generateIV (RightRotate : List Nat → Nat → Int → List Nat)
    (GenerateIV : Nat → List Nat → List Int → Except NseError (List Int))
    (data : List Nat) (derivedKey : List Int) (bitsToRotate : Nat) (bytesToRotate : Int)
    (c IV : List Int)
    (h : EncryptWithAlreadyDerivedKey RightRotate GenerateIV data derivedKey bitsToRotate
      bytesToRotate = .ok (c, IV)) :
    1 ≤ data.length ∧
    GenerateIV data.length (RightRotate data bitsToRotate bytesToRotate) derivedKey = .ok IV := by
  unfold EncryptWithAlreadyDerivedKey at h
  simp only [] at h
  by_cases hn : data.length < 1
  · rw [if_pos hn] at h
    cases h
  · rw [if_neg hn] at h
    refine ⟨by omega, ?_⟩
    cases hg : GenerateIV data.length (RightRotate data bitsToRotate bytesToRotate) derivedKey with
    | error e =>
      rw [hg] at h
      cases h
    | ok iv =>
      rw [hg] at h
      simp only [] at h
      obtain ⟨s, _, h1⟩ := bind_eq_ok _ _ _ h
      obtain ⟨e, _, h2⟩ := bind_eq_ok _ _ _ h1
      cases h2
      rfl

theorem map_getD_range (xs : List Nat) (n : Nat) (h : xs.length = n) :
    (List.range n).map (fun i => xs.getD i 0) = xs := by
  apply List.ext_getElem?
  intro i
  by_cases hi : i < n
  · simp [List.getElem?_range, hi, List.getD_eq_getElem?_getD,
      List.getElem?_eq_getElem (show i < xs.length by omega)]
  · rw [List.getElem?_eq_none (by simp; omega), List.getElem?_eq_none (by omega)]

/-- The round trip whenever `S1 > 0` and `255 * S1 * S1` fits in a signed 64-bit word. -/
theorem roundTrip_of_fit (RightRotate LeftRotate : List Nat → Nat → Int → List Nat)
    (GenerateIV : Nat → List Nat → List Int → Except NseError (List Int))
    (data : List Nat) (derivedKey : List Int) (bitsToRotate : Nat) (bytesToRotate : Int)
    (c IV : List Int)
    (hrlen : (RightRotate data bitsToRotate bytesToRotate).length = data.length)
    (hbytes : ∀ b ∈ RightRotate data bitsToRotate bytesToRotate, b < 256)
    (hinv : LeftRotate (RightRotate data bitsToRotate bytesToRotate) bitsToRotate bytesToRotate
      = data)
    (hklen : derivedKey.length = data.length)
    (hIV : IV.length = data.length)
    (hpos : 0 < exactS1 derivedKey data.length)
    (hfit : 255 * (exactS1 derivedKey data.length * exactS1 derivedKey data.length) < 2 ^ 63)
    (henc : EncryptWithAlreadyDerivedKey RightRotate GenerateIV data derivedKey bitsToRotate
      bytesToRotate = .ok (c, IV)) :
    DecryptWithAlreadyDerivedKey LeftRotate c IV derivedKey bitsToRotate bytesToRotate
      = .ok data := by
  obtain ⟨hn, hg⟩ := encrypt_ok_generateIV _ _ _ _ _ _ _ _ henc
  rw [encrypt_eq RightRotate GenerateIV data derivedKey IV bitsToRotate bytesToRotate hn
    (by omega) (by omega) hg (by omega)] at henc
  cases henc
  have hclen : ((List.range data.length).map (encryptedAt
      (RightRotate data bitsToRotate bytesToRotate) IV derivedKey data.length)).length
      = data.length := by simp
  have hsq : 0 < exactS1 derivedKey data.length * exactS1 derivedKey data.length := by
    positivity
  rw [decrypt_eq LeftRotate _ IV derivedKey bitsToRotate bytesToRotate (by omega) (by omega)
    (by omega) (by
      rw [hclen, divisor_eq, wrap64_of_range _ (by omega) (by omega)]
      omega)]
  rw [hclen]
  have : (List.range data.length).map (decryptedAt ((List.range data.length).map (encryptedAt
      (RightRotate data bitsToRotate bytesToRotate) IV derivedKey data.length)) IV derivedKey
      data.length) = RightRotate data bitsToRotate bytesToRotate := by
    rw [← map_getD_range (RightRotate data bitsToRotate bytesToRotate) data.length hrlen]
    apply List.map_congr_left
    intro i hi
    rw [map_getD_range _ _ hrlen]
    exact decryptedAt_encrypted _ _ _ _ _ (List.mem_range.mp hi) hbytes hpos hfit
  rw [this, hinv]

theorem widenByte_replicate (n b j : Nat) (hj : j < n) :
    widenByte (List.replicate n b) j = (b : Int) := by
  unfold widenByte int64OfByte
  rw [List.getD_eq_getElem?_getD, List.getElem?_replicate, if_pos hj]
  rfl

theorem widenInt8_replicate (n : Nat) (k : Int) (j : Nat) (hj : j < n) :
    widenInt8 (List.replicate n k) j = k := by
  unfold widenInt8 int64OfInt8
  rw [List.getD_eq_getElem?_getD, List.getElem?_replicate, if_pos hj]
  rfl

theorem getD_replicate_int (n : Nat) (e : Int) (j : Nat) (hj : j < n) :
    (List.replicate n e).getD j 0 = e := by
  rw [List.getD_eq_getElem?_getD, List.getElem?_replicate, if_pos hj]
  rfl

theorem exactS1_replicate (n : Nat) (k : Int) :
    ∀ m, m ≤ n → exactS1 (List.replicate n k) m = (m : Int) * (k * k) := by
  intro m
  induction m with
  | zero => intro _; simp [exactS1]
  | succ c ih =>
    intro hc
    rw [exactS1_succ, ih (by omega), widenInt8_replicate n k c (by omega)]
    push_cast
    ring

theorem exactS2_replicate (n b : Nat) (v k : Int) :
    ∀ m, m ≤ n →
      exactS2 (List.replicate n b) (List.replicate n v) (List.replicate n k) m
        = (m : Int) * (k * ((b : Int) - v)) := by
  intro m
  induction m with
  | zero => intro _; simp [exactS2]
  | succ c ih =>
    intro hc
    rw [exactS2_succ, ih (by omega), widenInt8_replicate n k c (by omega),
      widenInt8_replicate n v c (by omega), widenByte_replicate n b c (by omega)]
    push_cast
    ring

theorem exactKE_replicate (n : Nat) (e k : Int) :
    ∀ m, m ≤ n →
      exactKE (List.replicate n e) (List.replicate n k) m = (m : Int) * (k * e) := by
  intro m
  induction m with
  | zero => intro _; simp [exactKE]
  | succ c ih =>
    intro hc
    rw [exactKE_succ, ih (by omega), widenInt8_replicate n k c (by omega),
      getD_replicate_int n e c (by omega)]
    push_cast
    ring

theorem exactKV_replicate (n : Nat) (v k : Int) :
    ∀ m, m ≤ n →
      exactKV (List.replicate n v) (List.replicate n k) m = (m : Int) * (k * v) := by
  intro m
  induction m with
  | zero => intro _; simp [exactKV]
  | succ c ih =>
    intro hc
    rw [exactKV_succ, ih (by omega), widenInt8_replicate n k c (by omega),
      widenInt8_replicate n v c (by omega)]
    push_cast
    ring

theorem map_range_const {α : Type} (f : Nat → α) (n : Nat) (a : α) (h : ∀ i, i < n → f i = a) :
    (List.range n).map f = List.replicate n a := by
  apply List.ext_getElem?
  intro i
  by_cases hi : i < n
  · simp [List.getElem?_range, hi, List.getElem?_replicate, h i hi]
  · rw [List.getElem?_eq_none (by simp; omega), List.getElem?_eq_none (by simp; omega)]

/-- The encryption of a constant vector under a constant key and a constant IV. -/
theorem encrypt_replicate (n b : Nat) (v k : Int) (hn : 1 ≤ n) :
    EncryptWithAlreadyDerivedKey noRotate (fixedIV (List.replicate n v)) (List.replicate n b)
        (List.replicate n k) 0 1
      = .ok (List.replicate n
          (sub64 (mul64 (b : Int) (wrap64 ((n : Int) * (k * k))))
            (shl64 (mul64 k (wrap64 ((n : Int) * (k * ((b : Int) - v))))) 1)),
          List.replicate n v) := by
  rw [encrypt_eq noRotate (fixedIV (List.replicate n v)) (List.replicate n b)
    (List.replicate n k) (List.replicate n v) 0 1 (by simpa using hn) (by simp [noRotate])
    (by simp) rfl (by simp)]
  simp only [List.length_replicate, noRotate]
  rw [map_range_const _ n _ (fun i hi => by
    rw [encryptedAt, widenByte_replicate n b i hi, widenInt8_replicate n k i hi,
      exactS1_replicate n k n (le_refl _), exactS2_replicate n b v k n (le_refl _)])]

/-- The decryption of a constant vector under a constant key and a constant IV. -/
theorem decrypt_replicate (n : Nat) (e v k : Int) (hn : 1 ≤ n)
    (hd : mul64 (wrap64 ((n : Int) * (k * k))) (wrap64 ((n : Int) * (k * k))) ≠ 0) :
    DecryptWithAlreadyDerivedKey noRotate (List.replicate n e) (List.replicate n v)
        (List.replicate n k) 0 1
      = .ok (List.replicate n (AsUnsigned (int8OfInt64 (wrap64 (Int.tdiv
          (sub64
            (mul64 (add64 e (shl64 (mul64 k (wrap64 ((n : Int) * (k * v)))) 1))
              (wrap64 ((n : Int) * (k * k))))
            (shl64 (mul64 k (wrap64 ((n : Int) * (k * e)))) 1))
          (mul64 (wrap64 ((n : Int) * (k * k))) (wrap64 ((n : Int) * (k * k))))))))) := by
  rw [decrypt_eq noRotate (List.replicate n e) (List.replicate n v) (List.replicate n k) 0 1
    (by simpa using hn) (by simp) (by simp) (by
      rw [List.length_replicate, divisor, exactS1_replicate n k n (le_refl _)]
      exact hd)]
  simp only [List.length_replicate, noRotate]
  rw [map_range_const _ n _ (fun i hi => by
    rw [decryptedAt, numeratorAt, divisor, widenInt8_replicate n k i hi,
      getD_replicate_int n e i hi, exactS1_replicate n k n (le_refl _),
      exactKE_replicate n e k n (le_refl _), exactKV_replicate n v k n (le_refl _)])]

theorem bind_eq_error {α β : Type} (x : Outcome α) (f : α → Outcome β) (e : NseError)
    (h : x.bind f = .error e) : x = .error e ∨ ∃ a, x = .ok a ∧ f a = .error e := by
  cases x with
  | ok a => exact Or.inr ⟨a, rfl, h⟩
  | error e2 =>
    simp only [Outcome.bind, Outcome.error.injEq] at h
    exact Or.inl (by rw [h])
  | panic p => simp [Outcome.bind] at h

theorem index_ne_error {α : Type} (xs : List α) (i : Nat) (e : NseError) :
    index xs i ≠ .error e := by
  unfold index
  split <;> simp

theorem div64_ne_error (x y : Int) (e : NseError) : div64 x y ≠ .error e := by
  unfold div64
  split <;> simp

theorem encryptSums_ne_error (rotated : List Nat) (IV derivedKey : List Int) (n : Nat)
    (e : NseError) : ∀ c, encryptSums rotated IV derivedKey n c ≠ .error e := by
  intro c
  induction c with
  | zero => simp [encryptSums]
  | succ c ih =>
    intro h
    rw [encryptSums] at h
    rcases bind_eq_error _ _ _ h with h | ⟨s, _, h⟩
    · exact ih h
    rcases bind_eq_error _ _ _ h with h | ⟨r, _, h⟩
    · exact index_ne_error _ _ _ h
    rcases bind_eq_error _ _ _ h with h | ⟨v, _, h⟩
    · exact index_ne_error _ _ _ h
    rcases bind_eq_error _ _ _ h with h | ⟨k, _, h⟩
    · exact index_ne_error _ _ _ h
    simp only [] at h
    rcases bind_eq_error _ _ _ h with h | ⟨k64, _, h⟩
    · exact index_ne_error _ _ _ h
    rcases bind_eq_error _ _ _ h with h | ⟨r64, _, h⟩
    · exact index_ne_error _ _ _ h
    rcases bind_eq_error _ _ _ h with h | ⟨v64, _, h⟩
    · exact index_ne_error _ _ _ h
    cases h

theorem encryptFill_ne_error (s : EncryptState) (n : Nat) (e : NseError) :
    ∀ c, encryptFill s n c ≠ .error e := by
  intro c
  induction c with
  | zero => simp [encryptFill]
  | succ c ih =>
    intro h
    rw [encryptFill] at h
    rcases bind_eq_error _ _ _ h with h | ⟨l, _, h⟩
    · exact ih h
    rcases bind_eq_error _ _ _ h with h | ⟨r, _, h⟩
    · exact index_ne_error _ _ _ h
    rcases bind_eq_error _ _ _ h with h | ⟨k, _, h⟩
    · exact index_ne_error _ _ _ h
    cases h

theorem decryptSums_ne_error (encryptedData IV derivedKey : List Int) (n : Nat)
    (e : NseError) : ∀ c, decryptSums encryptedData IV derivedKey n c ≠ .error e := by
  intro c
  induction c with
  | zero => simp [decryptSums]
  | succ c ih =>
    intro h
    rw [decryptSums] at h
    rcases bind_eq_error _ _ _ h with h | ⟨s, _, h⟩
    · exact ih h
    rcases bind_eq_error _ _ _ h with h | ⟨r, _, h⟩
    · exact index_ne_error _ _ _ h
    rcases bind_eq_error _ _ _ h with h | ⟨v, _, h⟩
    · exact index_ne_error _ _ _ h
    rcases bind_eq_error _ _ _ h with h | ⟨k, _, h⟩
    · exact index_ne_error _ _ _ h
    simp only [] at h
    rcases bind_eq_error _ _ _ h with h | ⟨k64, _, h⟩
    · exact index_ne_error _ _ _ h
    rcases bind_eq_error _ _ _ h with h | ⟨r64, _, h⟩
    · exact index_ne_error _ _ _ h
    rcases bind_eq_error _ _ _ h with h | ⟨v64, _, h⟩
    · exact index_ne_error _ _ _ h
    cases h

theorem decryptFill_ne_error (s : DecryptState) (d : Int) (n : Nat) (e : NseError) :
    ∀ c, decryptFill s d n c ≠ .error e := by
  intro c
  induction c with
  | zero => simp [decryptFill]
  | succ c ih =>
    intro h
    rw [decryptFill] at h
    rcases bind_eq_error _ _ _ h with h | ⟨l, _, h⟩
    · exact ih h
    rcases bind_eq_error _ _ _ h with h | ⟨r, _, h⟩
    · exact index_ne_error _ _ _ h
    rcases bind_eq_error _ _ _ h with h | ⟨k, _, h⟩
    · exact index_ne_error _ _ _ h
    rcases bind_eq_error _ _ _ h with h | ⟨q, _, h⟩
    · exact div64_ne_error _ _ _ h
    cases h

theorem encryptFill_length (s : EncryptState) (n : Nat) :
    ∀ c l, encryptFill s n c = .ok l → l.length = n := by
  intro c
  induction c with
  | zero =>
    intro l h
    simp only [encryptFill, Outcome.ok.injEq] at h
    rw [← h, List.length_replicate]
  | succ c ih =>
    intro l h
    rw [encryptFill] at h
    obtain ⟨l0, h0, h⟩ := bind_eq_ok _ _ _ h
    obtain ⟨r, _, h⟩ := bind_eq_ok _ _ _ h
    obtain ⟨k, _, h⟩ := bind_eq_ok _ _ _ h
    simp only [Outcome.ok.injEq] at h
    rw [← h, List.length_set]
    exact ih l0 h0

theorem decryptFill_length (s : DecryptState) (d : Int) (n : Nat) :
    ∀ c l, decryptFill s d n c = .ok l → l.length = n := by
  intro c
  induction c with
  | zero =>
    intro l h
    simp only [decryptFill, Outcome.ok.injEq] at h
    rw [← h, List.length_replicate]
  | succ c ih =>
    intro l h
    rw [decryptFill] at h
    obtain ⟨l0, h0, h⟩ := bind_eq_ok _ _ _ h
    obtain ⟨r, _, h⟩ := bind_eq_ok _ _ _ h
    obtain ⟨k, _, h⟩ := bind_eq_ok _ _ _ h
    obtain ⟨q, _, h⟩ := bind_eq_ok _ _ _ h
    simp only [Outcome.ok.injEq] at h
    rw [← h, List.length_set]
    exact ih l0 h0

theorem encrypt_ok_length (RightRotate : List Nat → Nat → Int → List Nat)
    (GenerateIV : Nat → List Nat → List Int → Except NseError (List Int))
    (data : List Nat) (derivedKey : List Int) (bitsToRotate : Nat) (bytesToRotate : Int)
    (out IV : List Int)
    (h : EncryptWithAlreadyDerivedKey RightRotate GenerateIV data derivedKey bitsToRotate
      bytesToRotate = .ok (out, IV)) : out.length = data.length := by
  unfold EncryptWithAlreadyDerivedKey at h
  simp only [] at h
  by_cases hn : data.length < 1
  · rw [if_pos hn] at h
    cases h
  · rw [if_neg hn] at h
    cases hg : GenerateIV data.length (RightRotate data bitsToRotate bytesToRotate) derivedKey with
    | error e =>
      rw [hg] at h
      cases h
    | ok iv =>
      rw [hg] at h
      simp only [] at h
      obtain ⟨s, _, h1⟩ := bind_eq_ok _ _ _ h
      obtain ⟨e, he, h2⟩ := bind_eq_ok _ _ _ h1
      cases h2
      exact encryptFill_length _ _ _ _ he

theorem decrypt_ok_length (LeftRotate : List Nat → Nat → Int → List Nat)
    (encryptedData IV derivedKey : List Int) (bitsToRotate : Nat) (bytesToRotate : Int)
    (out : List Nat)
    (h : DecryptWithAlreadyDerivedKey LeftRotate encryptedData IV derivedKey bitsToRotate
      bytesToRotate = .ok out) :
    1 ≤ encryptedData.length ∧ encryptedData.length = IV.length ∧
    ∃ rotated : List Nat, rotated.length = encryptedData.length
      ∧ out = LeftRotate rotated bitsToRotate bytesToRotate := by
  unfold DecryptWithAlreadyDerivedKey at h
  simp only [] at h
  by_cases hn : encryptedData.length < 1
  · rw [if_pos hn] at h
    cases h
  · rw [if_neg hn] at h
    by_cases hv : encryptedData.length ≠ IV.length
    · rw [if_pos hv] at h
      cases h
    · rw [if_neg hv] at h
      obtain ⟨s, _, h1⟩ := bind_eq_ok _ _ _ h
      obtain ⟨r, hr, h2⟩ := bind_eq_ok _ _ _ h1
      cases h2
      exact ⟨by omega, by omega, r, decryptFill_length _ _ _ _ _ hr, rfl⟩

theorem decrypt_error_cases (LeftRotate : List Nat → Nat → Int → List Nat)
    (encryptedData IV derivedKey : List Int) (bitsToRotate : Nat) (bytesToRotate : Int)
    (e : NseError)
    (h : DecryptWithAlreadyDerivedKey LeftRotate encryptedData IV derivedKey bitsToRotate
      bytesToRotate = .error e) :
    e = .NotPositiveDataLengthError "Ciphertext"
      ∨ e = .DifferentIVLengthError IV.length encryptedData.length := by
  unfold DecryptWithAlreadyDerivedKey at h
  simp only [] at h
  by_cases hn : encryptedData.length < 1
  · rw [if_pos hn] at h
    exact Or.inl (Outcome.error.inj h).symm
  · rw [if_neg hn] at h
    by_cases hv : encryptedData.length ≠ IV.length
    · rw [if_pos hv] at h
      exact Or.inr (Outcome.error.inj h).symm
    · rw [if_neg hv] at h
      exfalso
      rcases bind_eq_error _ _ _ h with h | ⟨s, _, h⟩
      · exact decryptSums_ne_error _ _ _ _ _ _ h
      rcases bind_eq_error _ _ _ h with h | ⟨l, _, h⟩
      · exact decryptFill_ne_error _ _ _ _ _ h
      cases h

theorem store_length {α : Type} (xs ys : List α) (i : Nat) (v : α)
    (h : store xs i v = .ok ys) : ys.length = xs.length := by
  unfold store at h
  split at h
  · cases h
    rw [List.length_set]
  · cases h

/-- The bound of `putUvarintLoop` does not matter once it is at least `x`. -/
theorem putUvarintLoop_bound (b1 b2 : Nat) :
    ∀ (buf : List Nat) (x i : Nat), x ≤ b1 → x ≤ b2 →
      putUvarintLoop b1 buf x i = putUvarintLoop b2 buf x i := by
  induction b1 generalizing b2 with
  | zero =>
    intro buf x i h1 h2
    have hx : x = 0 := by omega
    subst hx
    cases b2 with
    | zero => rfl
    | succ b => simp [putUvarintLoop]
  | succ b ih =>
    intro buf x i h1 h2
    cases b2 with
    | zero =>
      have hx : x = 0 := by omega
      subst hx
      simp [putUvarintLoop]
    | succ c =>
      rw [putUvarintLoop, putUvarintLoop]
      by_cases hx : x ≥ 0x80
      · rw [if_pos hx, if_pos hx]
        have hs : x >>> 7 < x := by
          rw [Nat.shiftRight_eq_div_pow]
          omega
        congr 1
        funext buf2
        exact ih c buf2 (x >>> 7) (i + 1) (by omega) (by omega)
      · rw [if_neg hx, if_neg hx]

/-- `PutUvarint` satisfies the equation of the Go loop. -/
theorem PutUvarint_loop (bound : Nat) (buf : List Nat) (x i : Nat) (h : x ≤ bound) :
    putUvarintLoop bound buf x i =
      if x ≥ 0x80 then
        (store buf i ((x % 256) ||| 0x80)).bind fun buf =>
          putUvarintLoop (x >>> 7) buf (x >>> 7) (i + 1)
      else (store buf i (x % 256)).bind fun buf => .ok (buf, i + 1) := by
  cases bound with
  | zero =>
    have hx : x = 0 := by omega
    subst hx
    simp [putUvarintLoop]
  | succ b =>
    rw [putUvarintLoop]
    by_cases hx : x ≥ 0x80
    · rw [if_pos hx, if_pos hx]
      have hs : x >>> 7 < x := by
        rw [Nat.shiftRight_eq_div_pow]
        omega
      congr 1
      funext buf2
      exact putUvarintLoop_bound b (x >>> 7) buf2 (x >>> 7) (i + 1) (by omega) (le_refl _)
    · rw [if_neg hx, if_neg hx]

theorem putUvarintLoop_length (bound : Nat) :
    ∀ (buf : List Nat) (x i : Nat) (out : List Nat × Nat),
      putUvarintLoop bound buf x i = .ok out → out.1.length = buf.length := by
  induction bound with
  | zero =>
    intro buf x i out h
    rw [putUvarintLoop] at h
    obtain ⟨b2, hb, h⟩ := bind_eq_ok _ _ _ h
    cases h
    exact store_length _ _ _ _ hb
  | succ b ih =>
    intro buf x i out h
    rw [putUvarintLoop] at h
    split at h
    · obtain ⟨b2, hb, h⟩ := bind_eq_ok _ _ _ h
      rw [ih _ _ _ _ h]
      exact store_length _ _ _ _ hb
    · obtain ⟨b2, hb, h⟩ := bind_eq_ok _ _ _ h
      cases h
      exact store_length _ _ _ _ hb

theorem lastNonZero_le (bytes : List Nat) :
    ∀ i l, lastNonZero bytes i = .ok l → l ≤ i := by
  intro i
  induction i with
  | zero =>
    intro l h
    cases h
    exact le_refl _
  | succ i ih =>
    intro l h
    rw [lastNonZero] at h
    obtain ⟨b, _, h⟩ := bind_eq_ok _ _ _ h
    split at h
    · have := ih l h
      omega
    · cases h
      exact le_refl _

/-- `Int64ToBytes` returns between one and eight bytes whenever it returns. -/
theorem Int64ToBytes_length (x : Int) (bs : List Nat) (h : Int64ToBytes x = .ok bs) :
    1 ≤ bs.length ∧ bs.length ≤ 8 := by
  unfold Int64ToBytes at h
  obtain ⟨w, hw, h⟩ := bind_eq_ok _ _ _ h
  obtain ⟨l, hl, h⟩ := bind_eq_ok _ _ _ h
  have h8 : w.1.length = 8 := by
    unfold PutVarint PutUvarint at hw
    rw [putUvarintLoop_length _ _ _ _ _ hw, List.length_replicate]
  have hl7 := lastNonZero_le _ _ _ hl
  unfold sliceTo at h
  split at h
  · cases h
    rw [List.length_take]
    omega
  · cases h

theorem int64sToBytesLoop_index (data : List Int) (n : Nat) :
    ∀ c st, int64sToBytesLoop data n c = .ok st → 2 * c ≤ st.2 := by
  intro c
  induction c with
  | zero =>
    intro st h
    omega
  | succ c ih =>
    intro st h
    rw [int64sToBytesLoop] at h
    obtain ⟨st0, h0, h⟩ := bind_eq_ok _ _ _ h
    obtain ⟨x, _, h⟩ := bind_eq_ok _ _ _ h
    obtain ⟨bs, hbs, h⟩ := bind_eq_ok _ _ _ h
    obtain ⟨r, _, h⟩ := bind_eq_ok _ _ _ h
    obtain ⟨t, _, h⟩ := bind_eq_ok _ _ _ h
    cases h
    have := ih st0 h0
    have := (Int64ToBytes_length x bs hbs).1
    simp only []
    omega

/-- The output of `Int64sToBytes` has at least two bytes for each integer. -/
theorem Int64sToBytes_length (data : List Int) (out : List Nat)
    (h : Int64sToBytes data = .ok out) : 2 * data.length ≤ out.length := by
  unfold Int64sToBytes at h
  obtain ⟨st, hst, h⟩ := bind_eq_ok _ _ _ h
  have := int64sToBytesLoop_index _ _ _ _ hst
  unfold sliceTo at h
  split at h
  · cases h
    rw [List.length_take]
    omega
  · cases h

theorem blockStart_ge (data : List Nat) : ∀ k start, start ≤ blockStart data start k := by
  intro k
  induction k with
  | zero => intro start; exact le_refl _
  | succ k ih =>
    intro start
    rw [blockStart]
    have := ih (start + data.getD start 0 + 1)
    omega

/-- From any reachable loop state, a block that reaches past the end makes the loop return the
format error. -/
theorem bytesToInt64sLoop_overreach (data : List Nat) :
    ∀ k bound (result : List Int) dataIndex resultIndex,
      result.length = data.length → resultIndex ≤ dataIndex →
      data.length - dataIndex ≤ bound →
      blockStart data dataIndex k < data.length →
      blockStart data dataIndex k + data.getD (blockStart data dataIndex k) 0 + 1 > data.length →
      bytesToInt64sLoop data bound result dataIndex resultIndex
        = .error .WrongDataFormatError := by
  intro k
  induction k with
  | zero =>
    intro bound result dataIndex resultIndex _ _ hb h1 h2
    rw [blockStart] at h1 h2
    obtain ⟨b, rfl⟩ : ∃ b, bound = b + 1 := ⟨bound - 1, by omega⟩
    rw [bytesToInt64sLoop, if_pos h1, index_of_lt data dataIndex 0 h1]
    simp only [Outcome.bind]
    rw [if_pos h2]
  | succ k ih =>
    intro bound result dataIndex resultIndex hr hri hb h1 h2
    rw [blockStart] at h1 h2
    have hge := blockStart_ge data k (dataIndex + data.getD dataIndex 0 + 1)
    have hd : dataIndex < data.length := by omega
    obtain ⟨b, rfl⟩ : ∃ b, bound = b + 1 := ⟨bound - 1, by omega⟩
    rw [bytesToInt64sLoop, if_pos hd, index_of_lt data dataIndex 0 hd]
    simp only [Outcome.bind]
    rw [if_neg (by omega)]
    unfold store
    rw [if_pos (by omega)]
    simp only []
    exact ih b _ _ _ (by rw [List.length_set]; exact hr) (by omega) (by omega) h1 h2

theorem blockStart_add_le (data : List Nat) :
    ∀ k start, start + k ≤ blockStart data start k := by
  intro k
  induction k with
  | zero => intro start; exact le_refl _
  | succ k ih =>
    intro start
    rw [blockStart]
    have := ih (start + data.getD start 0 + 1)
    omega

theorem take_set_succ {α : Type} (xs : List α) (i : Nat) (v : α) (h : i < xs.length) :
    (xs.set i v).take (i + 1) = xs.take i ++ [v] := by
  apply List.ext_getElem?
  intro j
  by_cases hj : j < i
  · rw [List.getElem?_take_of_lt (by omega), List.getElem?_set_ne (by omega),
      List.getElem?_append_left (by rw [List.length_take]; omega),
      List.getElem?_take_of_lt hj]
  · by_cases hji : j = i
    · subst hji
      rw [List.getElem?_take_of_lt (by omega), List.getElem?_set_eq_of_lt _ h,
        List.getElem?_append_right (by rw [List.length_take]; omega)]
      simp [List.length_take, Nat.min_eq_left (Nat.le_of_lt h)]
    · rw [List.getElem?_eq_none (by simp [List.length_take]; omega),
        List.getElem?_eq_none (by simp [List.length_take]; omega)]

/-- From any reachable loop state from which the blocks end exactly at the end of the buffer,
the loop stores one integer per block, in block order, and returns them. -/
theorem bytesToInt64sLoop_exact (data : List Nat) :
    ∀ m bound (result : List Int) dataIndex resultIndex,
      result.length = data.length → resultIndex ≤ dataIndex →
      data.length - dataIndex ≤ bound →
      blockStart data dataIndex m = data.length →
      bytesToInt64sLoop data bound result dataIndex resultIndex
        = .ok (result.take resultIndex ++ (List.range m).map (blockValue data dataIndex)) := by
  intro m
  induction m with
  | zero =>
    intro bound result dataIndex resultIndex hr hri _ h
    rw [blockStart] at h
    have hs : sliceTo result resultIndex = .ok (result.take resultIndex) := by
      unfold sliceTo
      rw [if_pos (by omega)]
    cases bound with
    | zero => rw [bytesToInt64sLoop, hs]; simp
    | succ b => rw [bytesToInt64sLoop, if_neg (by omega), hs]; simp
  | succ m ih =>
    intro bound result dataIndex resultIndex hr hri hb h
    rw [blockStart] at h
    have hge := blockStart_ge data m (dataIndex + data.getD dataIndex 0 + 1)
    have hd : dataIndex < data.length := by omega
    obtain ⟨b, rfl⟩ : ∃ b, bound = b + 1 := ⟨bound - 1, by omega⟩
    rw [bytesToInt64sLoop, if_pos hd, index_of_lt data dataIndex 0 hd]
    simp only [Outcome.bind]
    rw [if_neg (by omega)]
    unfold store
    rw [if_pos (by omega)]
    simp only []
    rw [ih b _ _ _ (by rw [List.length_set]; exact hr) (by omega) (by omega) h,
      take_set_succ _ _ _ (by omega), List.range_succ_eq_map, List.map_cons, List.map_map,
      List.append_assoc]
    rfl

/-- Reading the blocks from a position inside the buffer either ends exactly at the end of the
buffer or meets a block whose length byte reaches past the end. -/
theorem blocks_dichotomy (data : List Nat) :
    ∀ fuel dataIndex, data.length - dataIndex ≤ fuel → dataIndex ≤ data.length →
      (∃ m, blockStart data dataIndex m = data.length)
      ∨ (∃ k, blockStart data dataIndex k < data.length
          ∧ blockStart data dataIndex k + data.getD (blockStart data dataIndex k) 0 + 1
            > data.length) := by
  intro fuel
  induction fuel with
  | zero =>
    intro di h1 h2
    exact Or.inl ⟨0, by rw [blockStart]; omega⟩
  | succ f ih =>
    intro di h1 h2
    by_cases hd : di = data.length
    · exact Or.inl ⟨0, by rw [blockStart]; exact hd⟩
    · by_cases ho : di + data.getD di 0 + 1 > data.length
      · exact Or.inr ⟨0, by rw [blockStart]; omega, by rw [blockStart]; exact ho⟩
      · rcases ih (di + data.getD di 0 + 1) (by omega) (by omega) with ⟨m, hm⟩ | ⟨k, hk1, hk2⟩
        · exact Or.inl ⟨m + 1, by rw [blockStart]; exact hm⟩
        · exact Or.inr ⟨k + 1, by rw [blockStart]; exact hk1, by rw [blockStart]; exact hk2⟩

theorem store_filled {α : Type} (z : α) (f : Nat → α) (n c : Nat) (h : c < n) :
    store (filled z f n c) c (f c) = .ok (filled z f n (c + 1)) := by
  unfold store
  rw [if_pos (by rw [filled_length]; exact h), filled_set]

theorem int8sToBytesLoop_eq (data : List Int) (n : Nat) (hn : n ≤ data.length) :
    ∀ c, c ≤ n → int8sToBytesLoop data n c
      = .ok (filled 0 (fun j => AsUnsigned (data.getD j 0)) n c) := by
  intro c
  induction c with
  | zero => intro _; rw [int8sToBytesLoop, filled_zero]
  | succ c ih =>
    intro hc
    rw [int8sToBytesLoop, ih (by omega)]
    simp only [Outcome.bind]
    rw [index_of_lt data c 0 (by omega)]
    simp only []
    exact store_filled 0 (fun j => AsUnsigned (data.getD j 0)) n c (by omega)

theorem bytesToInt8sLoop_eq (data : List Nat) (n : Nat) (hn : n ≤ data.length) :
    ∀ c, c ≤ n → bytesToInt8sLoop data n c
      = .ok (filled 0 (fun j => AsSigned (data.getD j 0)) n c) := by
  intro c
  induction c with
  | zero => intro _; rw [bytesToInt8sLoop, filled_zero]
  | succ c ih =>
    intro hc
    rw [bytesToInt8sLoop, ih (by omega)]
    simp only [Outcome.bind]
    rw [index_of_lt data c 0 (by omega)]
    simp only []
    exact store_filled 0 (fun j => AsSigned (data.getD j 0)) n c (by omega)

theorem map_range_getD {α β : Type} (xs : List α) (d : α) (g : α → β) :
    (List.range xs.length).map (fun j => g (xs.getD j d)) = xs.map g := by
  apply List.ext_getElem?
  intro i
  by_cases hi : i < xs.length
  · rw [List.getElem?_map, List.getElem?_map, List.getElem?_range hi,
      List.getElem?_eq_getElem hi]
    simp [List.getD_eq_getElem?_getD, List.getElem?_eq_getElem hi]
  · rw [List.getElem?_eq_none (by simp; omega), List.getElem?_eq_none (by simp; omega)]

theorem Int8sToBytes_eq (data : List Int) : Int8sToBytes data = .ok (data.map AsUnsigned) := by
  unfold Int8sToBytes
  rw [int8sToBytesLoop_eq data data.length (le_refl _) _ (le_refl _), filled_full,
    map_range_getD]

theorem BytesToInt8s_eq (data : List Nat) : BytesToInt8s data = .ok (data.map AsSigned) := by
  unfold BytesToInt8s
  rw [bytesToInt8sLoop_eq data data.length (le_refl _) _ (le_refl _), filled_full,
    map_range_getD]

theorem AsUnsigned_AsSigned (b : Nat) (h : b < 256) : AsUnsigned (AsSigned b) = b := by
  unfold AsUnsigned AsSigned
  split <;> omega

theorem AsSigned_AsUnsigned (x : Int) (h1 : -128 ≤ x) (h2 : x ≤ 127) :
    AsSigned (AsUnsigned x) = x := by
  unfold AsUnsigned AsSigned
  split <;> omega

theorem widenInt8_zero (derivedKey : List Int) (h : ∀ k ∈ derivedKey, k = 0) (j : Nat) :
    widenInt8 derivedKey j = 0 := by
  unfold widenInt8 int64OfInt8
  rw [List.getD_eq_getElem?_getD]
  by_cases hj : j < derivedKey.length
  · rw [List.getElem?_eq_getElem hj]
    exact h _ (List.getElem_mem hj)
  · rw [List.getElem?_eq_none (by omega)]
    rfl

theorem exactS1_zero (derivedKey : List Int) (h : ∀ k ∈ derivedKey, k = 0) (n : Nat) :
    exactS1 derivedKey n = 0 := by
  induction n with
  | zero => simp [exactS1]
  | succ c ih => rw [exactS1_succ, ih, widenInt8_zero derivedKey h]; rfl

theorem exactS2_zero (rotated : List Nat) (IV derivedKey : List Int)
    (h : ∀ k ∈ derivedKey, k = 0) (n : Nat) : exactS2 rotated IV derivedKey n = 0 := by
  induction n with
  | zero => simp [exactS2]
  | succ c ih => rw [exactS2_succ, ih, widenInt8_zero derivedKey h]; simp

/-- With a zero divisor the decryption stops with a division by zero at its first index. -/
theorem decrypt_zero_divisor (LeftRotate : List Nat → Nat → Int → List Nat)
    (encryptedData IV derivedKey : List Int) (bitsToRotate : Nat) (bytesToRotate : Int)
    (hn : 1 ≤ encryptedData.length) (hv : IV.length = encryptedData.length)
    (hk : encryptedData.length ≤ derivedKey.length)
    (hd : divisor derivedKey encryptedData.length = 0) :
    DecryptWithAlreadyDerivedKey LeftRotate encryptedData IV derivedKey bitsToRotate bytesToRotate
      = .panic .divideByZero := by
  unfold DecryptWithAlreadyDerivedKey
  simp only []
  rw [if_neg (by omega), if_neg (by omega)]
  rw [decryptSums_eq _ _ _ _ (le_refl _) (by omega) hk _ (le_refl _)]
  simp only [Outcome.bind]
  unfold divisor at hd
  rw [hd, decryptFill_zero_divisor _ _ (by simp [filled_length]) (by simp [filled_length]) _ hn
    (le_refl _)]

theorem encryptedAt_zero_key (rotated : List Nat) (IV derivedKey : List Int) (n i : Nat)
    (h : ∀ k ∈ derivedKey, k = 0) : encryptedAt rotated IV derivedKey n i = 0 := by
  unfold encryptedAt
  rw [exactS1_zero derivedKey h, exactS2_zero rotated IV derivedKey h,
    widenInt8_zero derivedKey h, shl64_one]
  have e0 : wrap64 0 = 0 := rfl
  simp only [mul64, sub64, e0, mul_zero, zero_mul, sub_zero]

/-- The encryption under an all-zero key returns the all-zero ciphertext. -/
theorem encrypt_zero_key (RightRotate : List Nat → Nat → Int → List Nat)
    (GenerateIV : Nat → List Nat → List Int → Except NseError (List Int))
    (data : List Nat) (derivedKey IV : List Int) (bitsToRotate : Nat) (bytesToRotate : Int)
    (hn : 1 ≤ data.length)
    (hrlen : (RightRotate data bitsToRotate bytesToRotate).length = data.length)
    (hklen : derivedKey.length = data.length)
    (hzero : ∀ k ∈ derivedKey, k = 0)
    (hg : GenerateIV data.length (RightRotate data bitsToRotate bytesToRotate) derivedKey = .ok IV)
    (hIV : IV.length = data.length) :
    EncryptWithAlreadyDerivedKey RightRotate GenerateIV data derivedKey bitsToRotate
      bytesToRotate = .ok (List.replicate data.length 0, IV) := by
  rw [encrypt_eq RightRotate GenerateIV data derivedKey IV bitsToRotate bytesToRotate hn
    (by omega) (by omega) hg (by omega)]
  rw [map_range_const _ _ 0 (fun i _ => encryptedAt_zero_key _ _ _ _ i hzero)]

theorem index_map {α β : Type} (f : α → β) (xs : List α) (i : Nat) :
    index (xs.map f) i = (index xs i).bind fun x => .ok (f x) := by
  unfold index
  rw [List.getElem?_map]
  cases xs[i]? <;> rfl

theorem mul64_neg_neg (k s : Int) : mul64 (-k) (wrap64 (-s)) = mul64 k s := by
  unfold mul64
  apply wrap64_eq_of_cast
  rw [Int.cast_mul, cast_wrap64, Int.cast_mul]
  push_cast
  ring

theorem add64_neg_mul64 (s k e : Int) :
    add64 (wrap64 (-s)) (mul64 (-k) e) = wrap64 (-(add64 s (mul64 k e))) := by
  show wrap64 (wrap64 (-s) + mul64 (-k) e) = wrap64 (-(add64 s (mul64 k e)))
  apply wrap64_eq_of_cast
  rw [Int.cast_add, cast_wrap64, cast_mul64, Int.cast_neg, Int.cast_neg, Int.cast_neg,
    cast_add64, cast_mul64]
  ring

theorem mul64_neg_self (k : Int) : mul64 (-k) (-k) = mul64 k k := by
  unfold mul64
  rw [neg_mul_neg]

theorem decryptSums_neg (encryptedData IV derivedKey : List Int) (n : Nat) :
    ∀ c, decryptSums encryptedData IV (derivedKey.map fun k => -k) n c
      = (decryptSums encryptedData IV derivedKey n c).bind fun s => .ok (negatedKeyState s) := by
  intro c
  induction c with
  | zero =>
    simp only [decryptSums, Outcome.bind, negatedKeyState, List.map_replicate, neg_zero]
    rfl
  | succ c ih =>
    rw [decryptSums, decryptSums, ih]
    cases decryptSums encryptedData IV derivedKey n c with
    | error e => rfl
    | panic p => rfl
    | ok s =>
      simp only [Outcome.bind]
      cases index encryptedData c with
      | error e => rfl
      | panic p => rfl
      | ok e =>
        simp only []
        cases index IV c with
        | error e => rfl
        | panic p => rfl
        | ok v =>
          simp only []
          rw [index_map]
          cases index derivedKey c with
          | error e => rfl
          | panic p => rfl
          | ok k =>
            simp only [Outcome.bind, negatedKeyState, int64OfInt8]
            rw [← List.map_set, index_map]
            cases index (s.derivedKey64.set c k) c with
            | error e => rfl
            | panic p => rfl
            | ok k64 =>
              simp only [Outcome.bind]
              cases index (s.encryptedData64.set c e) c with
              | error e => rfl
              | panic p => rfl
              | ok e64 =>
                simp only []
                cases index (s.IV64.set c v) c with
                | error e => rfl
                | panic p => rfl
                | ok v64 =>
                  simp only []
                  rw [add64_neg_mul64, add64_neg_mul64, mul64_neg_self]

theorem decryptFill_neg (s : DecryptState) (d : Int) (n : Nat) :
    ∀ c, decryptFill (negatedKeyState s) d n c = decryptFill s d n c := by
  intro c
  induction c with
  | zero => rfl
  | succ c ih =>
    rw [decryptFill, decryptFill, ih]
    cases decryptFill s d n c with
    | error e => simp only [Outcome.bind]
    | panic p => simp only [Outcome.bind]
    | ok rotated =>
      simp only [Outcome.bind]
      have h1 : (negatedKeyState s).encryptedData64 = s.encryptedData64 := rfl
      have h2 : (negatedKeyState s).derivedKey64 = s.derivedKey64.map fun k => -k := rfl
      have h3 : (negatedKeyState s).sum1 = s.sum1 := rfl
      have h4 : (negatedKeyState s).sum2 = wrap64 (-s.sum2) := rfl
      have h5 : (negatedKeyState s).sum3 = wrap64 (-s.sum3) := rfl
      rw [h1, h2, h3, h4, h5]
      cases index s.encryptedData64 c with
      | error e => simp only [Outcome.bind]
      | panic p => simp only [Outcome.bind]
      | ok e64 =>
        simp only []
        rw [index_map]
        cases index s.derivedKey64 c with
        | error e => simp only [Outcome.bind]
        | panic p => simp only [Outcome.bind]
        | ok k64 =>
          simp only [Outcome.bind]
          rw [mul64_neg_neg, mul64_neg_neg]

/-- The decryption under the element-wise negated key is the decryption under the key. -/
theorem decrypt_neg (LeftRotate : List Nat → Nat → Int → List Nat)
    (encryptedData IV derivedKey : List Int) (bitsToRotate : Nat) (bytesToRotate : Int) :
    DecryptWithAlreadyDerivedKey LeftRotate encryptedData IV (derivedKey.map fun k => -k)
        bitsToRotate bytesToRotate
      = DecryptWithAlreadyDerivedKey LeftRotate encryptedData IV derivedKey bitsToRotate
        bytesToRotate := by
  unfold DecryptWithAlreadyDerivedKey
  simp only []
  split
  · rfl
  · split
    · rfl
    · rw [decryptSums_neg]
      cases decryptSums encryptedData IV derivedKey encryptedData.length
          encryptedData.length with
      | error e => rfl
      | panic p => rfl
      | ok s =>
        simp only [Outcome.bind]
        have h3 : (negatedKeyState s).sum1 = s.sum1 := rfl
        rw [h3, decryptFill_neg]

theorem lor_128 (y : Nat) (h : y < 256) : y ||| 128 = y % 128 + 128 := by
  revert y
  decide

theorem store_eq {α : Type} (xs : List α) (i : Nat) (v : α) (h : i < xs.length) :
    store xs i v = .ok (xs.take i ++ v :: xs.drop (i + 1)) := by
  unfold store
  rw [if_pos h, List.set_eq_take_append_cons_drop, if_pos h]

theorem uvarintBytes_bound (b1 b2 : Nat) :
    ∀ x, x ≤ b1 → x ≤ b2 → uvarintBytes b1 x = uvarintBytes b2 x := by
  induction b1 generalizing b2 with
  | zero =>
    intro x h1 h2
    have hx : x = 0 := by omega
    subst hx
    cases b2 with
    | zero => rfl
    | succ b => simp [uvarintBytes]
  | succ b ih =>
    intro x h1 h2
    cases b2 with
    | zero =>
      have hx : x = 0 := by omega
      subst hx
      simp [uvarintBytes]
    | succ c =>
      rw [uvarintBytes, uvarintBytes]
      by_cases hx : x ≥ 0x80
      · rw [if_pos hx, if_pos hx]
        have hs : x >>> 7 < x := by
          rw [Nat.shiftRight_eq_div_pow]
          omega
        rw [ih c (x >>> 7) (by omega) (by omega)]
      · rw [if_neg hx, if_neg hx]

theorem uvarintBytes_length_pos (bound x : Nat) : 1 ≤ (uvarintBytes bound x).length := by
  cases bound with
  | zero => simp [uvarintBytes]
  | succ b =>
    rw [uvarintBytes]
    split <;> simp

/-- A number below `2^(7k)` has at most `k` varint bytes. -/
theorem uvarintBytes_length_le :
    ∀ k bound x, 1 ≤ k → x ≤ bound → x < 2 ^ (7 * k) → (uvarintBytes bound x).length ≤ k := by
  intro k
  induction k with
  | zero => intro bound x h; omega
  | succ k ih =>
    intro bound x _ hb hx
    cases bound with
    | zero => simp [uvarintBytes]
    | succ b =>
      rw [uvarintBytes]
      by_cases h128 : x ≥ 0x80
      · rw [if_pos h128, List.length_cons]
        have hk : 1 ≤ k := by
          rcases Nat.eq_zero_or_pos k with h0 | h0
          · subst h0
            simp at hx
            omega
          · exact h0
        have hs : x >>> 7 < 2 ^ (7 * k) := by
          rw [Nat.shiftRight_eq_div_pow, Nat.div_lt_iff_lt_mul (by norm_num)]
          have : 2 ^ (7 * (k + 1)) = 2 ^ (7 * k) * 2 ^ 7 := by
            rw [← Nat.pow_add, Nat.mul_succ]
          omega
        have hs2 : x >>> 7 < x := by
          rw [Nat.shiftRight_eq_div_pow]
          omega
        have := ih b (x >>> 7) hk (by omega) hs
        omega
      · rw [if_neg h128]
        simp

/-- The varint bytes stand for the number they were made from. -/
theorem uvarintValue_uvarintBytes :
    ∀ bound x, x ≤ bound → uvarintValue (uvarintBytes bound x) = x := by
  intro bound
  induction bound with
  | zero =>
    intro x h
    have hx : x = 0 := by omega
    subst hx
    rfl
  | succ b ih =>
    intro x h
    rw [uvarintBytes]
    by_cases h128 : x ≥ 0x80
    · rw [if_pos h128, uvarintValue]
      have hs : x >>> 7 < x := by
        rw [Nat.shiftRight_eq_div_pow]
        omega
      rw [ih (x >>> 7) (by omega), lor_128 _ (Nat.mod_lt _ (by norm_num)),
        Nat.shiftRight_eq_div_pow]
      omega
    · rw [if_neg h128, uvarintValue, uvarintValue]
      omega

/-- The shape of the varint bytes: every byte is below 256, every byte but the last has its top
bit set, the last byte is below 128, and the last byte is zero only for the number zero. -/
theorem uvarintBytes_shape :
    ∀ bound x, x ≤ bound →
      (∀ i, i + 1 < (uvarintBytes bound x).length →
        128 ≤ (uvarintBytes bound x).getD i 0 ∧ (uvarintBytes bound x).getD i 0 < 256)
      ∧ (uvarintBytes bound x).getD ((uvarintBytes bound x).length - 1) 0 < 128
      ∧ (x ≠ 0 → (uvarintBytes bound x).getD ((uvarintBytes bound x).length - 1) 0 ≠ 0) := by
  intro bound
  induction bound with
  | zero =>
    intro x h
    have hx : x = 0 := by omega
    subst hx
    simp [uvarintBytes]
  | succ b ih =>
    intro x h
    rw [uvarintBytes]
    by_cases h128 : x ≥ 0x80
    · rw [if_pos h128]
      have hs : x >>> 7 < x := by
        rw [Nat.shiftRight_eq_div_pow]
        omega
      have hs0 : x >>> 7 ≠ 0 := by
        rw [Nat.shiftRight_eq_div_pow]
        have : 1 ≤ x / 2 ^ 7 := by
          rw [Nat.le_div_iff_mul_le (by norm_num)]
          omega
        omega
      obtain ⟨h1, h2, h3⟩ := ih (x >>> 7) (by omega)
      have hpos := uvarintBytes_length_pos b (x >>> 7)
      have hlor := lor_128 (x % 256) (Nat.mod_lt _ (by norm_num))
      refine ⟨?_, ?_, ?_⟩
      · intro i hi
        cases i with
        | zero =>
          rw [List.getD_cons_zero, hlor]
          omega
        | succ j =>
          rw [List.getD_cons_succ]
          exact h1 j (by simpa using hi)
      · rw [List.length_cons, Nat.add_sub_cancel]
        obtain ⟨m, hm⟩ : ∃ m, (uvarintBytes b (x >>> 7)).length = m + 1 :=
          ⟨(uvarintBytes b (x >>> 7)).length - 1, by omega⟩
        rw [hm, List.getD_cons_succ]
        rw [hm] at h2
        simpa using h2
      · intro _
        rw [List.length_cons, Nat.add_sub_cancel]
        obtain ⟨m, hm⟩ : ∃ m, (uvarintBytes b (x >>> 7)).length = m + 1 :=
          ⟨(uvarintBytes b (x >>> 7)).length - 1, by omega⟩
        rw [hm, List.getD_cons_succ]
        have := h3 hs0
        rw [hm] at this
        simpa using this
    · rw [if_neg h128]
      refine ⟨?_, ?_, ?_⟩
      · intro i hi
        simp at hi
      · simp
        omega
      · intro hx
        simp
        omega

theorem putUvarintLoop_eq :
    ∀ bound (buf : List Nat) x i, i + (uvarintBytes bound x).length ≤ buf.length →
      putUvarintLoop bound buf x i
        = .ok (buf.take i ++ uvarintBytes bound x
            ++ buf.drop (i + (uvarintBytes bound x).length),
          i + (uvarintBytes bound x).length) := by
  intro bound
  induction bound with
  | zero =>
    intro buf x i h
    simp only [uvarintBytes, List.length_singleton] at h ⊢
    rw [putUvarintLoop, store_eq _ _ _ (by omega)]
    simp [Outcome.bind]
  | succ b ih =>
    intro buf x i h
    rw [putUvarintLoop]
    by_cases h128 : x ≥ 0x80
    · have hu : uvarintBytes (b + 1) x
          = ((x % 256) ||| 0x80) :: uvarintBytes b (x >>> 7) := by
        rw [uvarintBytes, if_pos h128]
      rw [hu, List.length_cons] at h
      rw [if_pos h128, hu, List.length_cons, store_eq _ _ _ (by omega)]
      simp only [Outcome.bind]
      have hlen : (buf.take i).length = i := by
        rw [List.length_take]
        omega
      rw [ih _ _ _ (by simp; omega)]
      congr 2
      · have e1 : (buf.take i ++ (x % 256 ||| 128) :: buf.drop (i + 1)).take (i + 1)
            = buf.take i ++ [x % 256 ||| 128] := by
          rw [List.take_append_eq_append_take, hlen]
          simp [List.take_of_length_le (show (buf.take i).length ≤ i + 1 by omega)]
        have e2 : (buf.take i ++ (x % 256 ||| 128) :: buf.drop (i + 1)).drop
            (i + 1 + (uvarintBytes b (x >>> 7)).length)
            = buf.drop (i + ((uvarintBytes b (x >>> 7)).length + 1)) := by
          rw [List.drop_append_eq_append_drop, hlen,
            List.drop_of_length_le (show (buf.take i).length
              ≤ i + 1 + (uvarintBytes b (x >>> 7)).length by omega)]
          have : i + 1 + (uvarintBytes b (x >>> 7)).length - i
              = (uvarintBytes b (x >>> 7)).length + 1 := by omega
          rw [this, List.nil_append, List.drop_succ_cons, List.drop_drop]
          congr 1
          omega
        rw [e1, e2]
        simp
      · omega
    · have hu : uvarintBytes (b + 1) x = [x % 256] := by
        rw [uvarintBytes, if_neg h128]
      rw [hu, List.length_singleton] at h
      rw [if_neg h128, hu, List.length_singleton, store_eq _ _ _ (by omega)]
      simp [Outcome.bind]

theorem lastNonZero_padded (bs : List Nat) (m : Nat) (hpos : 1 ≤ bs.length)
    (hlast : bs.length = 1 ∨ bs.getD (bs.length - 1) 0 ≠ 0) :
    ∀ j, j ≤ m →
      lastNonZero (bs ++ List.replicate m 0) (bs.length - 1 + j) = .ok (bs.length - 1) := by
  intro j
  induction j with
  | zero =>
    intro _
    rw [Nat.add_zero]
    rcases hlast with h1 | h2
    · rw [h1]
      rfl
    · obtain ⟨t, ht⟩ : ∃ t, bs.length - 1 = t + 1 ∨ bs.length - 1 = t ∧ t = 0 := by
        rcases Nat.eq_zero_or_pos (bs.length - 1) with h0 | h0
        · exact ⟨0, Or.inr ⟨h0, rfl⟩⟩
        · exact ⟨bs.length - 2, Or.inl (by omega)⟩
      rcases ht with ht | ⟨ht, h0⟩
      · rw [ht, lastNonZero, index_of_lt _ _ 0 (by simp; omega)]
        simp only [Outcome.bind]
        have : (bs ++ List.replicate m 0).getD (t + 1) 0 = bs.getD (bs.length - 1) 0 := by
          rw [List.getD_eq_getElem?_getD, List.getD_eq_getElem?_getD,
            List.getElem?_append_left (by omega), ht]
        rw [this, if_neg h2]
      · rw [ht, h0]
        rfl
  | succ j ih =>
    intro hj
    have e : bs.length - 1 + (j + 1) = (bs.length - 1 + j) + 1 := by omega
    rw [e, lastNonZero, index_of_lt _ _ 0 (by simp; omega)]
    simp only [Outcome.bind]
    have : (bs ++ List.replicate m 0).getD (bs.length - 1 + j + 1) 0 = 0 := by
      rw [List.getD_eq_getElem?_getD, List.getElem?_append_right (by omega),
        List.getElem?_replicate]
      split <;> rfl
    rw [this, if_pos rfl]
    exact ih (by omega)

/-- The value `ux` that `binary.PutVarint` computes from a signed 64-bit `x` is its zigzag
value. -/
theorem zigzag_code (x : Int) (h1 : -2 ^ 63 ≤ x) (h2 : x < 2 ^ 63) :
    (if x < 0 then 2 ^ 64 - 1 - (bits64 x <<< 1) % 2 ^ 64 else (bits64 x <<< 1) % 2 ^ 64)
      = zigzag x := by
  unfold bits64 zigzag
  rw [Nat.shiftLeft_eq]
  have h : ((x % 2 ^ 64).toNat : Int) = x % 2 ^ 64 := Int.toNat_of_nonneg (by omega)
  split <;> omega

theorem zigzag_lt (x : Int) (h1 : -2 ^ 55 ≤ x) (h2 : x < 2 ^ 55) : zigzag x < 2 ^ 56 := by
  unfold zigzag
  split <;> omega

/-- On `[-2^55, 2^55)` the function `Int64ToBytes` returns the zigzag varint. -/
theorem Int64ToBytes_eq (x : Int) (h1 : -2 ^ 55 ≤ x) (h2 : x < 2 ^ 55) :
    Int64ToBytes x = .ok (varintBytes x) := by
  have hz := zigzag_lt x h1 h2
  have hlen : (varintBytes x).length ≤ 8 :=
    uvarintBytes_length_le 8 (zigzag x) (zigzag x) (by norm_num) (le_refl _) (by simpa using hz)
  have hpos : 1 ≤ (varintBytes x).length := uvarintBytes_length_pos _ _
  have hshape := uvarintBytes_shape (zigzag x) (zigzag x) (le_refl _)
  unfold Int64ToBytes PutVarint PutUvarint
  simp only []
  rw [zigzag_code x (by omega) (by omega),
    putUvarintLoop_eq _ _ _ _ (by rw [List.length_replicate]; unfold varintBytes at hlen; omega)]
  simp only [Outcome.bind, List.take_zero, List.nil_append, Nat.zero_add, List.drop_replicate]
  have e7 : 7 = (varintBytes x).length - 1 + (8 - (varintBytes x).length) := by omega
  have hl := lastNonZero_padded (varintBytes x) (8 - (varintBytes x).length) hpos (by
    by_cases hx0 : zigzag x = 0
    · left
      unfold varintBytes
      rw [hx0]
      rfl
    · right
      exact hshape.2.2 hx0) (8 - (varintBytes x).length) (le_refl _)
  rw [← e7] at hl
  unfold varintBytes at hl hpos hlen ⊢
  rw [hl]
  simp only []
  unfold sliceTo
  rw [if_pos (by simp; omega)]
  congr 1
  have : (uvarintBytes (zigzag x) (zigzag x)).length - 1 + 1
      = (uvarintBytes (zigzag x) (zigzag x)).length := by omega
  rw [this, List.take_left']
  rfl

theorem wireBlocks_append (xs ys : List Int) :
    wireBlocks (xs ++ ys) = wireBlocks xs ++ wireBlocks ys := by
  induction xs with
  | nil => rfl
  | cons x xs ih =>
    rw [List.cons_append, wireBlocks, wireBlocks, ih, List.append_assoc]

theorem take_succ_getD (data : List Int) (c : Nat) (h : c < data.length) :
    data.take (c + 1) = data.take c ++ [data.getD c 0] := by
  rw [List.take_succ, List.getD_eq_getElem?_getD, List.getElem?_eq_getElem h]
  rfl

/-- One iteration of the loop of `Int64sToBytes` on a buffer that still has room. -/
theorem int64sToBytes_step (pre bytes : List Nat) (v z : Nat) (hz : bytes.length + 1 ≤ z) :
    ((store (pre ++ List.replicate z 0) pre.length v).bind fun result =>
      (sliceFrom result (pre.length + 1)).bind fun rest =>
      .ok (result.take (pre.length + 1) ++ copyInto rest bytes,
        pre.length + 1 + bytes.length))
      = .ok (pre ++ (v :: bytes) ++ List.replicate (z - 1 - bytes.length) 0,
          pre.length + 1 + bytes.length) := by
  obtain ⟨y, rfl⟩ : ∃ y, z = y + 1 := ⟨z - 1, by omega⟩
  have hs : store (pre ++ List.replicate (y + 1) 0) pre.length v
      = .ok (pre ++ v :: List.replicate y 0) := by
    rw [store_eq _ _ _ (by simp)]
    congr 1
    rw [List.take_left', List.drop_append_eq_append_drop,
      List.drop_of_length_le (by omega)]
    · simp [List.replicate_succ]
    · rfl
  rw [hs]
  simp only [Outcome.bind]
  have hf : sliceFrom (pre ++ v :: List.replicate y 0) (pre.length + 1)
      = .ok (List.replicate y 0) := by
    unfold sliceFrom
    rw [if_pos (by simp)]
    congr 1
    rw [List.drop_append_eq_append_drop, List.drop_of_length_le (by omega)]
    simp
  rw [hf]
  simp only []
  congr 2
  have ht : (pre ++ v :: List.replicate y 0).take (pre.length + 1) = pre ++ [v] := by
    rw [List.take_append_eq_append_take, List.take_of_length_le (by omega)]
    simp
  have hc : copyInto (List.replicate y 0) bytes
      = bytes ++ List.replicate (y + 1 - 1 - bytes.length) 0 := by
    unfold copyInto
    rw [List.length_replicate, List.take_of_length_le (by omega), List.drop_replicate]
    congr 2
  rw [ht, hc]
  simp

theorem varintBytes_length (x : Int) (h1 : -2 ^ 55 ≤ x) (h2 : x < 2 ^ 55) :
    1 ≤ (varintBytes x).length ∧ (varintBytes x).length ≤ 8 :=
  ⟨uvarintBytes_length_pos _ _,
   uvarintBytes_length_le 8 (zigzag x) (zigzag x) (by norm_num) (le_refl _)
     (by simpa using zigzag_lt x h1 h2)⟩

theorem wireBlocks_length_le (xs : List Int) (h : ∀ x ∈ xs, -2 ^ 55 ≤ x ∧ x < 2 ^ 55) :
    (wireBlocks xs).length ≤ 9 * xs.length := by
  induction xs with
  | nil => simp [wireBlocks]
  | cons x xs ih =>
    have hx := h x (List.mem_cons_self _ _)
    have := varintBytes_length x hx.1 hx.2
    have := ih (fun y hy => h y (List.mem_cons_of_mem _ hy))
    simp only [wireBlocks, List.length_append, List.length_cons]
    omega

theorem int64sToBytesLoop_eq (data : List Int)
    (h : ∀ x ∈ data, -2 ^ 55 ≤ x ∧ x < 2 ^ 55) :
    ∀ c, c ≤ data.length →
      int64sToBytesLoop data data.length c
        = .ok (wireBlocks (data.take c)
            ++ List.replicate (data.length * 9 - (wireBlocks (data.take c)).length) 0,
          (wireBlocks (data.take c)).length) := by
  intro c
  induction c with
  | zero =>
    intro _
    simp [int64sToBytesLoop, wireBlocks]
  | succ c ih =>
    intro hc
    have hmem : data.getD c 0 ∈ data := by
      rw [List.getD_eq_getElem?_getD, List.getElem?_eq_getElem (show c < data.length by omega)]
      exact List.getElem_mem _
    have hx := h _ hmem
    have hb := varintBytes_length _ hx.1 hx.2
    have hpre := wireBlocks_length_le (data.take c) (fun y hy => h y (List.mem_of_mem_take hy))
    rw [List.length_take, Nat.min_eq_left (by omega)] at hpre
    rw [int64sToBytesLoop, ih (by omega)]
    simp only [Outcome.bind]
    rw [index_of_lt data c 0 (by omega)]
    simp only []
    rw [Int64ToBytes_eq _ hx.1 hx.2]
    simp only []
    rw [Nat.mod_eq_of_lt (show (varintBytes (data.getD c 0)).length < 256 by omega)]
    have hstep := int64sToBytes_step (wireBlocks (data.take c)) (varintBytes (data.getD c 0))
      (varintBytes (data.getD c 0)).length
      (data.length * 9 - (wireBlocks (data.take c)).length) (by omega)
    simp only [Outcome.bind] at hstep
    rw [hstep, take_succ_getD data c (by omega), wireBlocks_append]
    have e1 : wireBlocks [data.getD c 0]
        = (varintBytes (data.getD c 0)).length :: varintBytes (data.getD c 0) := by
      simp [wireBlocks]
    rw [e1]
    have e2 : (wireBlocks (data.take c)
        ++ (varintBytes (data.getD c 0)).length :: varintBytes (data.getD c 0)).length
        = (wireBlocks (data.take c)).length + 1 + (varintBytes (data.getD c 0)).length := by
      simp only [List.length_append, List.length_cons]
      omega
    have e3 : data.length * 9 - (wireBlocks (data.take c)).length - 1
        - (varintBytes (data.getD c 0)).length
        = data.length * 9 - ((wireBlocks (data.take c)).length + 1
          + (varintBytes (data.getD c 0)).length) := by omega
    rw [e2, e3]

/-- On integers of `[-2^55, 2^55)` the function `Int64sToBytes` returns the wire blocks, which
fit the buffer of nine bytes per integer. -/
theorem Int64sToBytes_eq (data : List Int) (h : ∀ x ∈ data, -2 ^ 55 ≤ x ∧ x < 2 ^ 55) :
    Int64sToBytes data = .ok (wireBlocks data)
      ∧ (wireBlocks data).length ≤ data.length * 9 := by
  have hl := wireBlocks_length_le data h
  refine ⟨?_, by omega⟩
  unfold Int64sToBytes
  rw [int64sToBytesLoop_eq data h _ (le_refl _), List.take_length]
  simp only [Outcome.bind]
  unfold sliceTo
  rw [if_pos (by simp), List.take_left']
  rfl

theorem and_127 (y : Nat) (h : y < 256) : y &&& 127 = y % 128 := by
  revert y
  decide

theorem lor_shift (acc d s : Nat) (h : acc < 2 ^ s) : acc ||| (d * 2 ^ s) = acc + d * 2 ^ s := by
  rw [Nat.or_comm, Nat.mul_comm d, ← Nat.mul_add_lt_is_or h, Nat.add_comm]

theorem uvarintLoop_uvarintBytes :
    ∀ bound x acc s i, x ≤ bound → acc < 2 ^ s → acc + x * 2 ^ s < 2 ^ 64 →
      i + (uvarintBytes bound x).length ≤ 9 →
      uvarintLoop acc s i (uvarintBytes bound x)
        = (acc + x * 2 ^ s, ((i + (uvarintBytes bound x).length : Nat) : Int)) := by
  intro bound
  induction bound with
  | zero =>
    intro x acc s i hx hacc hfit hi
    have hx0 : x = 0 := by omega
    subst hx0
    simp only [uvarintBytes, List.length_singleton] at hi ⊢
    rw [uvarintLoop, if_neg (by omega), if_pos (by norm_num), if_neg (by omega)]
    simp
  | succ b ih =>
    intro x acc s i hx hacc hfit hi
    by_cases h128 : x ≥ 0x80
    · have hu : uvarintBytes (b + 1) x
          = ((x % 256) ||| 0x80) :: uvarintBytes b (x >>> 7) := by
        rw [uvarintBytes, if_pos h128]
      rw [hu, List.length_cons] at hi
      have hlor := lor_128 (x % 256) (Nat.mod_lt _ (by norm_num))
      have hb256 : (x % 256) ||| 0x80 < 256 := by omega
      have hand := and_127 _ hb256
      have hd : ((x % 256) ||| 0x80) &&& 0x7f = x % 128 := by
        rw [hand, hlor]
        omega
      rw [hu, uvarintLoop, if_neg (by omega), if_neg (by omega), hd, List.length_cons]
      have hq : x >>> 7 = x / 128 := by
        rw [Nat.shiftRight_eq_div_pow]
      have hxe : x = 128 * (x / 128) + x % 128 := (Nat.div_add_mod x 128).symm
      have hmul : x * 2 ^ s = (x / 128) * (2 ^ s * 128) + (x % 128) * 2 ^ s := by
        conv_lhs => rw [hxe]
        ring
      have hdlt : (x % 128) * 2 ^ s < 2 ^ 64 := by omega
      have hsmall : (x % 128) * 2 ^ s ≤ 127 * 2 ^ s :=
        Nat.mul_le_mul_right _ (by omega)
      have hacc2 : acc ||| (((x % 128) <<< s) % 2 ^ 64) = acc + (x % 128) * 2 ^ s := by
        rw [Nat.shiftLeft_eq, Nat.mod_eq_of_lt hdlt, lor_shift _ _ _ hacc]
      have hpow : 2 ^ (s + 7) = 2 ^ s * 128 := by
        rw [Nat.pow_add]
      rw [hacc2, hq, ih (x / 128) _ (s + 7) (i + 1) (by omega) (by rw [hpow]; omega)
        (by rw [hpow]; omega) (by rw [← hq]; omega), hpow, hmul]
      congr 1
      · ring
      · rw [← hq]
        congr 1
        omega
    · have hu : uvarintBytes (b + 1) x = [x % 256] := by
        rw [uvarintBytes, if_neg h128]
      rw [hu, List.length_singleton] at hi
      rw [hu, uvarintLoop, if_neg (by omega), if_pos (by omega), if_neg (by omega),
        List.length_singleton]
      have hm : x % 256 = x := Nat.mod_eq_of_lt (by omega)
      have hle : x * 2 ^ s < 2 ^ 64 := by omega
      rw [hm, Nat.shiftLeft_eq, Nat.mod_eq_of_lt hle, lor_shift _ _ _ hacc]
      simp

/-- The decoder `binary.Varint` reads back the zigzag varint of an integer of
`[-2^55, 2^55)`. -/
theorem Varint_varintBytes (x : Int) (h1 : -2 ^ 55 ≤ x) (h2 : x < 2 ^ 55) :
    Varint (varintBytes x) = (x, ((varintBytes x).length : Int)) := by
  have hz := zigzag_lt x h1 h2
  have hlen := varintBytes_length x h1 h2
  have hu : Uvarint (varintBytes x) = (zigzag x, ((varintBytes x).length : Int)) := by
    unfold Uvarint varintBytes
    unfold varintBytes at hlen
    rw [uvarintLoop_uvarintBytes _ _ 0 0 0 (le_refl _) (by norm_num) (by omega) (by omega)]
    simp
  unfold Varint
  rw [hu]
  simp only [Nat.and_one_is_mod, Nat.shiftRight_eq_div_pow]
  congr 1
  unfold zigzag
  split <;> split <;> omega

theorem PutVarint_eq (x : Int) (h1 : -2 ^ 55 ≤ x) (h2 : x < 2 ^ 55) :
    PutVarint (List.replicate 8 0) x
      = .ok (varintBytes x ++ List.replicate (8 - (varintBytes x).length) 0,
          (varintBytes x).length) := by
  have hlen := (varintBytes_length x h1 h2).2
  unfold PutVarint PutUvarint
  simp only []
  unfold varintBytes at hlen ⊢
  rw [zigzag_code x (by omega) (by omega),
    putUvarintLoop_eq _ _ _ _ (by rw [List.length_replicate]; omega)]
  simp only [List.take_zero, List.nil_append, Nat.zero_add, List.drop_replicate]

theorem blockValue_succ (data : List Nat) (start k : Nat) :
    blockValue data start (k + 1) = blockValue data (start + data.getD start 0 + 1) k := rfl

/-- Reading the blocks of a buffer that ends with the wire form of `xs`, from the position where
that wire form starts, meets one block per integer and reads the integers back. -/
theorem blocks_of_wireBlocks (xs : List Int) :
    ∀ pre : List Nat, (∀ x ∈ xs, -2 ^ 55 ≤ x ∧ x < 2 ^ 55) →
      blockStart (pre ++ wireBlocks xs) pre.length xs.length = (pre ++ wireBlocks xs).length
      ∧ ∀ k, k < xs.length →
        blockValue (pre ++ wireBlocks xs) pre.length k = xs.getD k 0 := by
  induction xs with
  | nil =>
    intro pre _
    constructor
    · simp [blockStart, wireBlocks]
    · intro k hk
      simp at hk
  | cons x xs ih =>
    intro pre h
    have hx := h x (List.mem_cons_self _ _)
    have hxs : ∀ y ∈ xs, -2 ^ 55 ≤ y ∧ y < 2 ^ 55 := fun y hy => h y (List.mem_cons_of_mem _ hy)
    have hdata : pre ++ wireBlocks (x :: xs)
        = (pre ++ (varintBytes x).length :: varintBytes x) ++ wireBlocks xs := by
      rw [wireBlocks, List.append_assoc]
    have hget : (pre ++ wireBlocks (x :: xs)).getD pre.length 0 = (varintBytes x).length := by
      rw [List.getD_eq_getElem?_getD, List.getElem?_append_right (le_refl _)]
      simp [wireBlocks]
    have hpre : pre.length + (varintBytes x).length + 1
        = (pre ++ (varintBytes x).length :: varintBytes x).length := by
      simp only [List.length_append, List.length_cons]
      omega
    obtain ⟨ih1, ih2⟩ := ih (pre ++ (varintBytes x).length :: varintBytes x) hxs
    constructor
    · rw [List.length_cons, blockStart, hget, hpre, hdata]
      exact ih1
    · intro k hk
      cases k with
      | zero =>
        rw [List.getD_cons_zero]
        unfold blockValue
        simp only [blockStart]
        rw [hget, hpre, hdata, List.take_left']
        · have : (pre ++ (varintBytes x).length :: varintBytes x).drop (pre.length + 1)
              = varintBytes x := by
            rw [List.drop_append_eq_append_drop, List.drop_of_length_le (by omega)]
            simp
          rw [this, Varint_varintBytes x hx.1 hx.2]
        · rfl
      | succ j =>
        rw [List.getD_cons_succ, blockValue_succ, hget, hpre, hdata]
        exact ih2 j (by simpa using hk)

/-- The decoder reads back the wire form of integers of `[-2^55, 2^55)`. -/
theorem BytesToInt64s_wireBlocks (xs : List Int) (h : ∀ x ∈ xs, -2 ^ 55 ≤ x ∧ x < 2 ^ 55) :
    BytesToInt64s (wireBlocks xs) = .ok xs := by
  obtain ⟨h1, h2⟩ := blocks_of_wireBlocks xs [] h
  simp only [List.nil_append, List.length_nil] at h1 h2
  unfold BytesToInt64s
  rw [bytesToInt64sLoop_exact (wireBlocks xs) xs.length _ _ 0 0 (by simp) (le_refl _) (by omega)
    h1]
  simp only [List.take_zero, List.nil_append]
  congr 1
  apply List.ext_getElem?
  intro i
  by_cases hi : i < xs.length
  · rw [List.getElem?_map, List.getElem?_range hi, Option.map_some', h2 i hi,
      List.getElem?_eq_getElem hi, List.getD_eq_getElem?_getD, List.getElem?_eq_getElem hi]
    rfl
  · rw [List.getElem?_eq_none (by simp; omega), List.getElem?_eq_none (by omega)]

/-- The wire codec returns the array it was given, on integers of `[-2^55, 2^55)`. -/
theorem codec_roundTrip (xs : List Int) (h : ∀ x ∈ xs, -2 ^ 55 ≤ x ∧ x < 2 ^ 55) :
    ∃ out, Int64sToBytes xs = .ok out ∧ out.length ≤ xs.length * 9
      ∧ BytesToInt64s out = .ok xs :=
  ⟨wireBlocks xs, (Int64sToBytes_eq xs h).1, (Int64sToBytes_eq xs h).2,
    BytesToInt64s_wireBlocks xs h⟩

theorem zigzag_eq_zero (x : Int) (h : zigzag x = 0) : x = 0 := by
  unfold zigzag at h
  split at h <;> omega

theorem wrap64_of_abs_le (x : Int) (h : |x| ≤ 2 ^ 62) : wrap64 x = x := by
  have := abs_le.mp h
  exact wrap64_of_range x (by omega) (by omega)

theorem abs_widenInt8_le (xs : List Int) (h : ∀ k ∈ xs, -128 ≤ k ∧ k ≤ 127) (j : Nat) :
    |widenInt8 xs j| ≤ 128 := by
  have := widenInt8_range xs h j
  exact abs_le.mpr ⟨by omega, by omega⟩

theorem abs_widenByte_le (xs : List Nat) (h : ∀ b ∈ xs, b < 256) (j : Nat) :
    |widenByte xs j| ≤ 255 := by
  have := widenByte_range xs h j
  exact abs_le.mpr ⟨by omega, by omega⟩

theorem abs_term2_le (rotated : List Nat) (IV derivedKey : List Int)
    (hb : ∀ b ∈ rotated, b < 256) (hv : ∀ v ∈ IV, -128 ≤ v ∧ v ≤ 127)
    (hk : ∀ k ∈ derivedKey, -128 ≤ k ∧ k ≤ 127) (j : Nat) :
    |widenByte rotated j - widenInt8 IV j| ≤ 383
    ∧ |widenInt8 derivedKey j * (widenByte rotated j - widenInt8 IV j)| ≤ 49024 := by
  have h1 := widenByte_range rotated hb j
  have h2 := widenInt8_range IV hv j
  have h3 : |widenByte rotated j - widenInt8 IV j| ≤ 383 := abs_le.mpr ⟨by omega, by omega⟩
  refine ⟨h3, ?_⟩
  rw [abs_mul]
  calc |widenInt8 derivedKey j| * |widenByte rotated j - widenInt8 IV j|
      ≤ 128 * 383 := mul_le_mul (abs_widenInt8_le derivedKey hk j) h3 (abs_nonneg _)
        (by norm_num)
    _ = 49024 := by norm_num

theorem abs_exactS2_le (rotated : List Nat) (IV derivedKey : List Int)
    (hb : ∀ b ∈ rotated, b < 256) (hv : ∀ v ∈ IV, -128 ≤ v ∧ v ≤ 127)
    (hk : ∀ k ∈ derivedKey, -128 ≤ k ∧ k ≤ 127) (n : Nat) :
    |exactS2 rotated IV derivedKey n| ≤ 49024 * (n : Int) := by
  induction n with
  | zero => simp [exactS2]
  | succ c ih =>
    rw [exactS2_succ]
    have h1 := (abs_term2_le rotated IV derivedKey hb hv hk c).2
    have h2 := abs_add (exactS2 rotated IV derivedKey c)
      (widenInt8 derivedKey c * (widenByte rotated c - widenInt8 IV c))
    push_cast
    omega

theorem abs_exactS1_le (derivedKey : List Int) (hk : ∀ k ∈ derivedKey, -128 ≤ k ∧ k ≤ 127)
    (n : Nat) : |exactS1 derivedKey n| ≤ 16384 * (n : Int) := by
  rw [abs_of_nonneg (exactS1_nonneg derivedKey n)]
  exact exactS1_le derivedKey hk n

/-- The exact value of a ciphertext cell is at most `16728064 * n` in absolute value. -/
theorem abs_cell_le (rotated : List Nat) (IV derivedKey : List Int)
    (hb : ∀ b ∈ rotated, b < 256) (hv : ∀ v ∈ IV, -128 ≤ v ∧ v ≤ 127)
    (hk : ∀ k ∈ derivedKey, -128 ≤ k ∧ k ≤ 127) (n i : Nat) :
    |widenByte rotated i * exactS1 derivedKey n| ≤ 4177920 * (n : Int)
    ∧ |widenInt8 derivedKey i * exactS2 rotated IV derivedKey n| ≤ 6275072 * (n : Int)
    ∧ |widenByte rotated i * exactS1 derivedKey n
        - 2 * (widenInt8 derivedKey i * exactS2 rotated IV derivedKey n)|
      ≤ 16728064 * (n : Int) := by
  have hn : (0 : Int) ≤ n := Int.ofNat_nonneg n
  have h1 : |widenByte rotated i * exactS1 derivedKey n| ≤ 4177920 * (n : Int) := by
    rw [abs_mul]
    calc |widenByte rotated i| * |exactS1 derivedKey n|
        ≤ 255 * (16384 * (n : Int)) := mul_le_mul (abs_widenByte_le rotated hb i)
          (abs_exactS1_le derivedKey hk n) (abs_nonneg _) (by norm_num)
      _ = 4177920 * (n : Int) := by ring
  have h2 : |widenInt8 derivedKey i * exactS2 rotated IV derivedKey n|
      ≤ 6275072 * (n : Int) := by
    rw [abs_mul]
    calc |widenInt8 derivedKey i| * |exactS2 rotated IV derivedKey n|
        ≤ 128 * (49024 * (n : Int)) := mul_le_mul (abs_widenInt8_le derivedKey hk i)
          (abs_exactS2_le rotated IV derivedKey hb hv hk n) (abs_nonneg _) (by norm_num)
      _ = 6275072 * (n : Int) := by ring
  refine ⟨h1, h2, ?_⟩
  have h3 := abs_sub (widenByte rotated i * exactS1 derivedKey n)
    (2 * (widenInt8 derivedKey i * exactS2 rotated IV derivedKey n))
  have h4 : |2 * (widenInt8 derivedKey i * exactS2 rotated IV derivedKey n)|
      = 2 * |widenInt8 derivedKey i * exactS2 rotated IV derivedKey n| := by
    rw [abs_mul]
    norm_num
  omega

/-- In the tested range no operation of the encryption wraps: the operations of the two loops at
index `i`, on the exact sums, return the exact integers. -/
theorem encrypt_ops_exact (rotated : List Nat) (IV derivedKey : List Int)
    (hb : ∀ b ∈ rotated, b < 256) (hv : ∀ v ∈ IV, -128 ≤ v ∧ v ≤ 127)
    (hk : ∀ k ∈ derivedKey, -128 ≤ k ∧ k ≤ 127) (n i : Nat) (hn : n ≤ 512) (hi : i < n) :
    mul64 (widenInt8 derivedKey i) (widenInt8 derivedKey i)
        = widenInt8 derivedKey i * widenInt8 derivedKey i
    ∧ add64 (exactS1 derivedKey i) (widenInt8 derivedKey i * widenInt8 derivedKey i)
        = exactS1 derivedKey (i + 1)
    ∧ sub64 (widenByte rotated i) (widenInt8 IV i) = widenByte rotated i - widenInt8 IV i
    ∧ mul64 (widenInt8 derivedKey i) (widenByte rotated i - widenInt8 IV i)
        = widenInt8 derivedKey i * (widenByte rotated i - widenInt8 IV i)
    ∧ add64 (exactS2 rotated IV derivedKey i)
          (widenInt8 derivedKey i * (widenByte rotated i - widenInt8 IV i))
        = exactS2 rotated IV derivedKey (i + 1)
    ∧ mul64 (widenByte rotated i) (exactS1 derivedKey n)
        = widenByte rotated i * exactS1 derivedKey n
    ∧ mul64 (widenInt8 derivedKey i) (exactS2 rotated IV derivedKey n)
        = widenInt8 derivedKey i * exactS2 rotated IV derivedKey n
    ∧ shl64 (widenInt8 derivedKey i * exactS2 rotated IV derivedKey n) 1
        = 2 * (widenInt8 derivedKey i * exactS2 rotated IV derivedKey n)
    ∧ sub64 (widenByte rotated i * exactS1 derivedKey n)
          (2 * (widenInt8 derivedKey i * exactS2 rotated IV derivedKey n))
        = widenByte rotated i * exactS1 derivedKey n
          - 2 * (widenInt8 derivedKey i * exactS2 rotated IV derivedKey n) := by
  have hn' : (n : Int) ≤ 512 := by exact_mod_cast hn
  have hi' : ((i + 1 : Nat) : Int) ≤ 512 := by exact_mod_cast (show i + 1 ≤ 512 by omega)
  have hK := abs_widenInt8_le derivedKey hk i
  have hKK : |widenInt8 derivedKey i * widenInt8 derivedKey i| ≤ 16384 := by
    rw [abs_mul]
    calc |widenInt8 derivedKey i| * |widenInt8 derivedKey i| ≤ 128 * 128 :=
          mul_le_mul hK hK (abs_nonneg _) (by norm_num)
      _ = 16384 := by norm_num
  obtain ⟨hRV, hKRV⟩ := abs_term2_le rotated IV derivedKey hb hv hk i
  have hS1 := abs_exactS1_le derivedKey hk (i + 1)
  have hS2 := abs_exactS2_le rotated IV derivedKey hb hv hk (i + 1)
  obtain ⟨hc1, hc2, hc3⟩ := abs_cell_le rotated IV derivedKey hb hv hk n i
  have hc4 : |2 * (widenInt8 derivedKey i * exactS2 rotated IV derivedKey n)|
      = 2 * |widenInt8 derivedKey i * exactS2 rotated IV derivedKey n| := by
    rw [abs_mul]
    norm_num
  refine ⟨wrap64_of_abs_le _ (by omega), ?_, wrap64_of_abs_le _ (by omega),
    wrap64_of_abs_le _ (by omega), ?_, wrap64_of_abs_le _ (by omega),
    wrap64_of_abs_le _ (by omega), ?_, wrap64_of_abs_le _ (by omega)⟩
  · rw [add64, ← exactS1_succ]
    exact wrap64_of_abs_le _ (by omega)
  · rw [add64, ← exactS2_succ]
    exact wrap64_of_abs_le _ (by omega)
  · rw [shl64_one]
    exact wrap64_of_abs_le _ (by omega)

/-- In the tested range the ciphertext cell is the exact integer `R[i]*S1 - 2*(K[i]*S2)`. -/
theorem encryptedAt_exact (rotated : List Nat) (IV derivedKey : List Int)
    (hb : ∀ b ∈ rotated, b < 256) (hv : ∀ v ∈ IV, -128 ≤ v ∧ v ≤ 127)
    (hk : ∀ k ∈ derivedKey, -128 ≤ k ∧ k ≤ 127) (n i : Nat) (hn : n ≤ 512) (hi : i < n) :
    encryptedAt rotated IV derivedKey n i
      = widenByte rotated i * exactS1 derivedKey n
        - 2 * (widenInt8 derivedKey i * exactS2 rotated IV derivedKey n) := by
  have hn' : (n : Int) ≤ 512 := by exact_mod_cast hn
  have hS1 := abs_exactS1_le derivedKey hk n
  have hS2 := abs_exactS2_le rotated IV derivedKey hb hv hk n
  obtain ⟨_, _, _, _, _, h6, h7, h8, h9⟩ :=
    encrypt_ops_exact rotated IV derivedKey hb hv hk n i hn hi
  unfold encryptedAt
  rw [wrap64_of_abs_le (exactS1 derivedKey n) (by omega),
    wrap64_of_abs_le (exactS2 rotated IV derivedKey n) (by omega), h6, h7, h8, h9]

/-- A successful `binary.Uvarint` on `bs` returns a value below `2^(7 * len(bs))` (shifted by
the bits already read). -/
theorem uvarintLoop_lt :
    ∀ (bs : List Nat) acc s i, acc < 2 ^ s → ∀ v n, uvarintLoop acc s i bs = (v, n) → 0 < n →
      v < 2 ^ (s + 7 * bs.length) := by
  intro bs
  induction bs with
  | nil =>
    intro acc s i _ v n h hn
    rw [uvarintLoop] at h
    cases h
    omega
  | cons b rest ih =>
    intro acc s i hacc v n h hn
    have hmono : (2 : Nat) ^ s ≤ 2 ^ (s + 7 * (b :: rest).length) :=
      Nat.pow_le_pow_right (by norm_num) (by omega)
    have hmono7 : (2 : Nat) ^ (s + 7) ≤ 2 ^ (s + 7 * (b :: rest).length) :=
      Nat.pow_le_pow_right (by norm_num) (by simp only [List.length_cons]; omega)
    have hpow : (2 : Nat) ^ (s + 7) = 2 ^ s * 128 := by rw [Nat.pow_add]
    rw [uvarintLoop] at h
    by_cases h10 : i = 10
    · rw [if_pos h10] at h
      cases h
      omega
    · rw [if_neg h10] at h
      by_cases hb : b < 0x80
      · rw [if_pos hb] at h
        by_cases h9 : i = 9 ∧ b > 1
        · rw [if_pos h9] at h
          cases h
          omega
        · rw [if_neg h9] at h
          cases h
          apply Nat.or_lt_two_pow (by omega)
          have h1 : (b <<< s) % 2 ^ 64 ≤ b <<< s := Nat.mod_le _ _
          have h2 : b <<< s = b * 2 ^ s := Nat.shiftLeft_eq _ _
          have h3 : b * 2 ^ s ≤ 127 * 2 ^ s := Nat.mul_le_mul_right _ (by omega)
          have hp : 0 < 2 ^ s := Nat.two_pow_pos s
          omega
      · rw [if_neg hb] at h
        have hand : b &&& 0x7f < 2 ^ 7 := Nat.and_lt_two_pow b (by norm_num)
        have h1 : ((b &&& 0x7f) <<< s) % 2 ^ 64 ≤ (b &&& 0x7f) <<< s := Nat.mod_le _ _
        have h2 : (b &&& 0x7f) <<< s = (b &&& 0x7f) * 2 ^ s := Nat.shiftLeft_eq _ _
        have h3 : (b &&& 0x7f) * 2 ^ s ≤ 127 * 2 ^ s := Nat.mul_le_mul_right _ (by omega)
        have hp : 0 < 2 ^ s := Nat.two_pow_pos s
        have hacc' : acc ||| (((b &&& 0x7f) <<< s) % 2 ^ 64) < 2 ^ (s + 7) :=
          Nat.or_lt_two_pow (by omega) (by omega)
        have := ih _ (s + 7) (i + 1) hacc' v n h hn
        have e : s + 7 + 7 * rest.length = s + 7 * (b :: rest).length := by
          simp only [List.length_cons]
          omega
        rw [e] at this
        exact this

/-- A byte sequence that `binary.Varint` reads as `x` is at least as long as the zigzag varint
of `x`. -/
theorem varintBytes_minimal (x : Int) (bs : List Nat) (n : Int)
    (h : Varint bs = (x, n)) (hn : 0 < n) : (varintBytes x).length ≤ bs.length := by
  unfold Varint at h
  simp only [Prod.mk.injEq] at h
  obtain ⟨hval, hcount⟩ := h
  have hu : Uvarint bs = ((Uvarint bs).1, n) := by rw [← hcount]
  unfold Uvarint at hu
  have hlt := uvarintLoop_lt bs 0 0 0 (by norm_num) _ n hu hn
  rw [Nat.zero_add] at hlt
  have hz : zigzag x = (Uvarint bs).1 := by
    rw [← hval]
    simp only [Nat.and_one_is_mod, Nat.shiftRight_eq_div_pow]
    unfold zigzag
    split <;> split <;> omega
  have hpos : 1 ≤ bs.length := by
    rcases Nat.eq_zero_or_pos bs.length with h0 | h0
    · have : bs = [] := List.eq_nil_of_length_eq_zero h0
      subst this
      rw [uvarintLoop] at hu
      cases hu
      omega
    · exact h0
  unfold varintBytes
  exact uvarintBytes_length_le bs.length _ _ hpos (le_refl _) (by rw [hz]; exact hlt)

theorem uvarintBytes_length_one_iff (z : Nat) :
    (uvarintBytes z z).length = 1 ↔ z < 128 := by
  cases z with
  | zero => simp [uvarintBytes]
  | succ b =>
    rw [uvarintBytes]
    by_cases hge : b + 1 ≥ 0x80
    · rw [if_pos hge, List.length_cons]
      have hpos := uvarintBytes_length_pos b ((b + 1) >>> 7)
      constructor
      · intro h
        omega
      · intro h
        omega
    · rw [if_neg hge, List.length_singleton]
      constructor
      · intro _
        omega
      · intro _
        rfl

theorem varintBytes_length_one_iff (x : Int) :
    (varintBytes x).length = 1 ↔ -64 ≤ x ∧ x ≤ 63 := by
  have hz : zigzag x < 128 ↔ -64 ≤ x ∧ x ≤ 63 := by
    unfold zigzag
    split <;> omega
  rw [← hz]
  unfold varintBytes
  exact uvarintBytes_length_one_iff (zigzag x)

/-! ## The claims -/

theorem fit_of_length_le (derivedKey : List Int) (n : Nat)
    (hk : ∀ k ∈ derivedKey, -128 ≤ k ∧ k ≤ 127) (hn : n ≤ 11607) :
    255 * (exactS1 derivedKey n * exactS1 derivedKey n) < 2 ^ 63 := by
  have h0 := exactS1_nonneg derivedKey n
  have h1 := exactS1_le derivedKey hk n
  have h2 : exactS1 derivedKey n ≤ 190169088 := by
    have : (n : Int) ≤ 11607 := by exact_mod_cast hn
    omega
  have h3 : exactS1 derivedKey n * exactS1 derivedKey n ≤ 190169088 * 190169088 :=
    mul_le_mul h2 h2 h0 (by norm_num)
  omega

/-- C1: round trip in the tested range.  For `1 ≤ n ≤ 512`, data of `n` bytes, a derived key of
`n` signed 8-bit values with a non-zero element, any rotation parameters and an IV of length `n`:
if `EncryptWithAlreadyDerivedKey` returns `(c, IV, nil)` then `DecryptWithAlreadyDerivedKey` on
`c`, `IV` and the same key and parameters returns `(data, nil)`.  The rotation primitive is only
assumed to preserve the length, to return bytes, and to be inverted by `LeftRotate`. -/
theorem roundTrip_tested_range (RightRotate LeftRotate : List Nat → Nat → Int → List Nat)
    (GenerateIV : Nat → List Nat → List Int → Except NseError (List Int))
    (data : List Nat) (derivedKey : List Int) (bitsToRotate : Nat) (bytesToRotate : Int)
    (c IV : List Int)
    (hn : 1 ≤ data.length) (hn512 : data.length ≤ 512)
    (hrlen : (RightRotate data bitsToRotate bytesToRotate).length = data.length)
    (hbytes : ∀ b ∈ RightRotate data bitsToRotate bytesToRotate, b < 256)
    (hinv : LeftRotate (RightRotate data bitsToRotate bytesToRotate) bitsToRotate bytesToRotate
      = data)
    (hklen : derivedKey.length = data.length)
    (hk : ∀ k ∈ derivedKey, -128 ≤ k ∧ k ≤ 127)
    (hnz : ∃ k ∈ derivedKey, k ≠ 0)
    (hIV : IV.length = data.length)
    (henc : EncryptWithAlreadyDerivedKey RightRotate GenerateIV data derivedKey bitsToRotate
      bytesToRotate = .ok (c, IV)) :
    DecryptWithAlreadyDerivedKey LeftRotate c IV derivedKey bitsToRotate bytesToRotate
      = .ok data := by
  have _ := hn
  exact roundTrip_of_fit RightRotate LeftRotate GenerateIV data derivedKey bitsToRotate
    bytesToRotate c IV hrlen hbytes hinv hklen hIV
    (exactS1_pos derivedKey data.length (by omega) hnz)
    (fit_of_length_le derivedKey data.length hk (by omega)) henc

theorem roundTrip_tested_range_witness :
    DecryptWithAlreadyDerivedKey noRotate [19840, -2172] [3, -4] [5, -7] 0 1 = .ok [65, 255] :=
  roundTrip_tested_range noRotate noRotate (fixedIV [3, -4]) [65, 255] [5, -7] 0 1
    [19840, -2172] [3, -4] (by decide) (by decide) (by decide) (by decide) (by decide)
    (by decide) (by decide) (by decide) (by decide) (by decide)

/-- C2, as the code has it: the round trip for every length `1 ≤ n ≤ 11607`.  For data of `n`
bytes, a derived key of `n` signed 8-bit values with a non-zero element, any rotation parameters
and an IV of length `n`, decrypting the output of `EncryptWithAlreadyDerivedKey` under the same
IV, key and parameters returns exactly the data and no error. -/
theorem roundTrip_up_to_11607 (RightRotate LeftRotate : List Nat → Nat → Int → List Nat)
    (GenerateIV : Nat → List Nat → List Int → Except NseError (List Int))
    (data : List Nat) (derivedKey : List Int) (bitsToRotate : Nat) (bytesToRotate : Int)
    (c IV : List Int)
    (hn : 1 ≤ data.length) (hmax : data.length ≤ 11607)
    (hrlen : (RightRotate data bitsToRotate bytesToRotate).length = data.length)
    (hbytes : ∀ b ∈ RightRotate data bitsToRotate bytesToRotate, b < 256)
    (hinv : LeftRotate (RightRotate data bitsToRotate bytesToRotate) bitsToRotate bytesToRotate
      = data)
    (hklen : derivedKey.length = data.length)
    (hk : ∀ k ∈ derivedKey, -128 ≤ k ∧ k ≤ 127)
    (hnz : ∃ k ∈ derivedKey, k ≠ 0)
    (hIV : IV.length = data.length)
    (henc : EncryptWithAlreadyDerivedKey RightRotate GenerateIV data derivedKey bitsToRotate
      bytesToRotate = .ok (c, IV)) :
    DecryptWithAlreadyDerivedKey LeftRotate c IV derivedKey bitsToRotate bytesToRotate
      = .ok data := by
  have _ := hn
  exact roundTrip_of_fit RightRotate LeftRotate GenerateIV data derivedKey bitsToRotate
    bytesToRotate c IV hrlen hbytes hinv hklen hIV
    (exactS1_pos derivedKey data.length (by omega) hnz)
    (fit_of_length_le derivedKey data.length hk hmax) henc

theorem roundTrip_up_to_11607_witness :
    DecryptWithAlreadyDerivedKey noRotate [128, 0, 128] [7, 0, -9] [0, -1, 0] 1 2
      = .ok [128, 0, 128] :=
  roundTrip_up_to_11607 noRotate noRotate (fixedIV [7, 0, -9]) [128, 0, 128] [0, -1, 0] 1 2
    [128, 0, 128] [7, 0, -9] (by decide) (by decide) (by decide) (by decide) (by decide)
    (by decide) (by decide) (by decide) (by decide) (by decide)

/-- C2 fails as stated: with 11608 bytes `0xFF`, the key of 11608 elements `-128` and a zero IV
(identity rotation), the encryption succeeds and the decryption of its output returns 11608 bytes
`0x02` with a nil error, not the data: `255 * S1 * S1` no longer fits in 64 bits. -/
theorem roundTrip_fails_at_11608 :
    EncryptWithAlreadyDerivedKey noRotate (fixedIV (List.replicate 11608 0))
        (List.replicate 11608 255) (List.replicate 11608 (-128)) 0 1
      = .ok (List.replicate 11608 (-48497295360), List.replicate 11608 0)
    ∧ DecryptWithAlreadyDerivedKey noRotate (List.replicate 11608 (-48497295360))
        (List.replicate 11608 0) (List.replicate 11608 (-128)) 0 1
      = .ok (List.replicate 11608 2)
    ∧ DecryptWithAlreadyDerivedKey noRotate (List.replicate 11608 (-48497295360))
        (List.replicate 11608 0) (List.replicate 11608 (-128)) 0 1
      ≠ .ok (List.replicate 11608 255) := by
  have hE := encrypt_replicate 11608 255 0 (-128) (by norm_num)
  have hD := decrypt_replicate 11608 (-48497295360) 0 (-128) (by norm_num) (by
    norm_num [mul64, wrap64])
  have e1 : sub64 (mul64 ((255 : Nat) : Int) (wrap64 (((11608 : Nat) : Int) * (-128 * -128))))
      (shl64 (mul64 (-128) (wrap64 (((11608 : Nat) : Int) * (-128 * (((255 : Nat) : Int) - 0)))))
        1) = -48497295360 := by
    rw [shl64_one]
    norm_num [sub64, mul64, wrap64]
  have e2 : AsUnsigned (int8OfInt64 (wrap64 (Int.tdiv
      (sub64
        (mul64 (add64 (-48497295360)
          (shl64 (mul64 (-128) (wrap64 (((11608 : Nat) : Int) * (-128 * 0)))) 1))
          (wrap64 (((11608 : Nat) : Int) * (-128 * -128))))
        (shl64 (mul64 (-128) (wrap64 (((11608 : Nat) : Int) * (-128 * -48497295360)))) 1))
      (mul64 (wrap64 (((11608 : Nat) : Int) * (-128 * -128)))
        (wrap64 (((11608 : Nat) : Int) * (-128 * -128))))))) = 2 := by
    decide
  rw [e1] at hE
  rw [e2] at hD
  refine ⟨hE, hD, ?_⟩
  rw [hD]
  intro h
  have h2 : List.replicate 11608 (2 : Nat) = List.replicate 11608 255 := Outcome.ok.inj h
  rw [List.replicate_right_inj (by norm_num)] at h2
  omega

/-- C3: the encrypt transform equals its reference formula.  For non-empty data of `n` bytes, a
derived key of length `n` and a generated IV of length `n`, with `R`, `V`, `K` the widened values
and `S1`, `S2` the exact integer sums, the call succeeds and the `i`-th element of the ciphertext
is the exact integer `R[i]*S1 - 2*(K[i]*S2)` reduced modulo `2^64` into the signed range; and the
left shift by one bit is the wrapping multiplication by two for every value. -/
theorem encrypt_reference_formula (RightRotate : List Nat → Nat → Int → List Nat)
    (GenerateIV : Nat → List Nat → List Int → Except NseError (List Int))
    (data : List Nat) (derivedKey IV : List Int) (bitsToRotate : Nat) (bytesToRotate : Int)
    (hn : 1 ≤ data.length)
    (hrlen : (RightRotate data bitsToRotate bytesToRotate).length = data.length)
    (hklen : derivedKey.length = data.length)
    (hg : GenerateIV data.length (RightRotate data bitsToRotate bytesToRotate) derivedKey = .ok IV)
    (hIV : IV.length = data.length) :
    (∃ out, EncryptWithAlreadyDerivedKey RightRotate GenerateIV data derivedKey bitsToRotate
        bytesToRotate = .ok (out, IV)
      ∧ out.length = data.length
      ∧ ∀ i, i < data.length → out[i]? = some (wrap64
          (widenByte (RightRotate data bitsToRotate bytesToRotate) i
              * exactS1 derivedKey data.length
            - 2 * (widenInt8 derivedKey i
              * exactS2 (RightRotate data bitsToRotate bytesToRotate) IV derivedKey
                  data.length))))
    ∧ ∀ x : Int, shl64 x 1 = mul64 x 2 := by
  refine ⟨⟨_, encrypt_eq RightRotate GenerateIV data derivedKey IV bitsToRotate bytesToRotate hn
    (by omega) (by omega) hg (by omega), by simp, ?_⟩, ?_⟩
  · intro i hi
    rw [List.getElem?_map, List.getElem?_range hi, Option.map_some', encryptedAt, sub64]
    congr 1
    apply wrap64_eq_of_cast
    rw [Int.cast_sub, cast_mul64, cast_shl64_one, cast_mul64, cast_wrap64, cast_wrap64]
    push_cast
    ring
  · intro x
    rw [shl64_one, mul64, mul_comm]

theorem encrypt_reference_formula_witness :
    (∃ out, EncryptWithAlreadyDerivedKey noRotate (fixedIV [3, -4]) [65, 255] [5, -7] 0 1
        = .ok (out, [3, -4])
      ∧ out.length = [65, 255].length
      ∧ ∀ i, i < [65, 255].length → out[i]? = some (wrap64
          (widenByte (noRotate [65, 255] 0 1) i * exactS1 [5, -7] [65, 255].length
            - 2 * (widenInt8 [5, -7] i
              * exactS2 (noRotate [65, 255] 0 1) [3, -4] [5, -7] [65, 255].length))))
    ∧ ∀ x : Int, shl64 x 1 = mul64 x 2 :=
  encrypt_reference_formula noRotate (fixedIV [3, -4]) [65, 255] [5, -7] [3, -4] 0 1
    (by decide) (by decide) (by decide) rfl (by decide)

/-- C4 fails as stated: the rotated byte `0xFF` enters the sums as `255`, not as `-1`.  For the
one-byte data `0xFF`, key `1` and IV `0`, the first loop leaves `rotated64 = [255]` and
`sum2 = 255`, and the ciphertext is `[-255]` (sign extension would give `[1]`). -/
theorem widening_is_not_sign_extension :
    encryptSums [255] [0] [1] 1 1
      = .ok { rotated64 := [255], IV64 := [0], derivedKey64 := [1], sum1 := 1, sum2 := 255 }
    ∧ ([255] : List Int) ≠ [int64OfInt8 (AsSigned 255)]
    ∧ int64OfInt8 (AsSigned 255) = -1
    ∧ EncryptWithAlreadyDerivedKey noRotate (fixedIV [0]) [255] [1] 0 1 = .ok ([-255], [0]) := by
  decide

/-- C4, as the code has it: every rotated byte is widened to 64 bits by zero extension, without
a signed reinterpretation.  After the first loop of `EncryptWithAlreadyDerivedKey`, for every
index `i` the cell `rotated64[i]` holds the byte `rotated[i]` itself, a value between 0 and 255,
and this is the value in the sum `sum2`. -/
theorem widening_is_zero_extension (rotated : List Nat) (IV derivedKey : List Int)
    (hb : ∀ b ∈ rotated, b < 256)
    (hv : rotated.length ≤ IV.length) (hk : rotated.length ≤ derivedKey.length) :
    ∃ s, encryptSums rotated IV derivedKey rotated.length rotated.length = .ok s
      ∧ s.rotated64 = rotated.map (fun b : Nat => (b : Int))
      ∧ (∀ x ∈ s.rotated64, 0 ≤ x ∧ x ≤ 255)
      ∧ s.sum2 = wrap64 (Finset.sum (Finset.range rotated.length) fun j =>
          derivedKey.getD j 0 * (((rotated.getD j 0 : Nat) : Int) - IV.getD j 0)) := by
  have hmap : filled 0 (widenByte rotated) rotated.length rotated.length
      = rotated.map (fun b : Nat => (b : Int)) := by
    rw [filled_full]
    apply List.ext_getElem?
    intro i
    by_cases hi : i < rotated.length
    · rw [List.getElem?_map, List.getElem?_map, List.getElem?_range hi,
        List.getElem?_eq_getElem hi]
      simp [widenByte, int64OfByte, List.getD_eq_getElem?_getD, List.getElem?_eq_getElem hi]
    · rw [List.getElem?_eq_none (by simp; omega), List.getElem?_eq_none (by simp; omega)]
  refine ⟨_, encryptSums_eq rotated IV derivedKey rotated.length (le_refl _) hv hk _ (le_refl _),
    hmap, ?_, rfl⟩
  simp only [hmap]
  intro x hx
  obtain ⟨b, hbm, rfl⟩ := List.mem_map.mp hx
  have := hb b hbm
  omega

theorem widening_is_zero_extension_witness :
    ∃ s, encryptSums [255, 7] [0, 1] [1, -2] [255, 7].length [255, 7].length = .ok s
      ∧ s.rotated64 = [255, 7].map (fun b : Nat => (b : Int))
      ∧ (∀ x ∈ s.rotated64, 0 ≤ x ∧ x ≤ 255)
      ∧ s.sum2 = wrap64 (Finset.sum (Finset.range [255, 7].length) fun j =>
          ([1, -2] : List Int).getD j 0
            * (((([255, 7] : List Nat).getD j 0 : Nat) : Int) - ([0, 1] : List Int).getD j 0)) :=
  widening_is_zero_extension [255, 7] [0, 1] [1, -2] (by decide) (by decide) (by decide)

/-- C5: decrypt validation.  (a) An empty ciphertext gives `NotPositiveDataLengthError` naming
"Ciphertext", whatever the IV is; (b) a non-empty ciphertext with `len(IV) != len(ciphertext)`
gives `DifferentIVLengthError` carrying `len(IV)` and `len(ciphertext)`.  Both hold for every
derived key and every `LeftRotate`, so neither the transform nor the rotation takes part. -/
theorem decrypt_validation (LeftRotate : List Nat → Nat → Int → List Nat)
    (encryptedData IV derivedKey : List Int) (bitsToRotate : Nat) (bytesToRotate : Int) :
    (encryptedData = [] →
      DecryptWithAlreadyDerivedKey LeftRotate encryptedData IV derivedKey bitsToRotate
        bytesToRotate = .error (.NotPositiveDataLengthError "Ciphertext"))
    ∧ (encryptedData ≠ [] → IV.length ≠ encryptedData.length →
      DecryptWithAlreadyDerivedKey LeftRotate encryptedData IV derivedKey bitsToRotate
        bytesToRotate = .error (.DifferentIVLengthError IV.length encryptedData.length)) := by
  constructor
  · intro h
    subst h
    rfl
  · intro h1 h2
    have hlen : ¬ encryptedData.length < 1 := by
      have := List.length_pos.mpr h1
      omega
    unfold DecryptWithAlreadyDerivedKey
    simp only []
    rw [if_neg hlen, if_pos (fun h => h2 h.symm)]

theorem decrypt_validation_witness :
    DecryptWithAlreadyDerivedKey noRotate [] [1, 2] [] 0 1
        = .error (.NotPositiveDataLengthError "Ciphertext")
    ∧ DecryptWithAlreadyDerivedKey noRotate [5] [1, 2] [] 0 1
        = .error (.DifferentIVLengthError 2 1) :=
  ⟨(decrypt_validation noRotate [] [1, 2] [] 0 1).1 rfl,
   (decrypt_validation noRotate [5] [1, 2] [] 0 1).2 (by decide) (by decide)⟩

/-- C6: encrypt validation.  Empty data gives `NotPositiveDataLengthError` naming "Data" for every
rotation and every IV generator (neither is consulted); when the generator does not itself fail
with that error value, the call returns it exactly when `len(data) < 1`; and for non-empty data
of `n` bytes, a key of length `n` and a generator that succeeds with an IV of length `n`, the
call returns a ciphertext and that IV with a nil error. -/
theorem encrypt_validation (RightRotate : List Nat → Nat → Int → List Nat)
    (GenerateIV : Nat → List Nat → List Int → Except NseError (List Int))
    (data : List Nat) (derivedKey : List Int) (bitsToRotate : Nat) (bytesToRotate : Int) :
    (data.length < 1 →
      EncryptWithAlreadyDerivedKey RightRotate GenerateIV data derivedKey bitsToRotate
        bytesToRotate = .error (.NotPositiveDataLengthError "Data"))
    ∧ (GenerateIV data.length (RightRotate data bitsToRotate bytesToRotate) derivedKey
          ≠ .error (.NotPositiveDataLengthError "Data") →
        (EncryptWithAlreadyDerivedKey RightRotate GenerateIV data derivedKey bitsToRotate
          bytesToRotate = .error (.NotPositiveDataLengthError "Data") ↔ data.length < 1))
    ∧ (1 ≤ data.length →
        (RightRotate data bitsToRotate bytesToRotate).length = data.length →
        derivedKey.length = data.length →
        ∀ IV, GenerateIV data.length (RightRotate data bitsToRotate bytesToRotate) derivedKey
            = .ok IV →
          IV.length = data.length →
          ∃ out, EncryptWithAlreadyDerivedKey RightRotate GenerateIV data derivedKey
            bitsToRotate bytesToRotate = .ok (out, IV)) := by
  have h1 : data.length < 1 →
      EncryptWithAlreadyDerivedKey RightRotate GenerateIV data derivedKey bitsToRotate
        bytesToRotate = .error (.NotPositiveDataLengthError "Data") := by
    intro h
    unfold EncryptWithAlreadyDerivedKey
    simp only []
    rw [if_pos h]
  refine ⟨h1, ?_, ?_⟩
  · intro hg
    refine ⟨?_, h1⟩
    intro h
    by_contra hn
    unfold EncryptWithAlreadyDerivedKey at h
    simp only [] at h
    rw [if_neg hn] at h
    cases hiv : GenerateIV data.length (RightRotate data bitsToRotate bytesToRotate)
        derivedKey with
    | error e =>
      rw [hiv] at h hg
      simp only [] at h
      exact hg (by rw [Outcome.error.inj h])
    | ok iv =>
      rw [hiv] at h
      simp only [] at h
      rcases bind_eq_error _ _ _ h with h | ⟨s, _, h⟩
      · exact encryptSums_ne_error _ _ _ _ _ _ h
      rcases bind_eq_error _ _ _ h with h | ⟨l, _, h⟩
      · exact encryptFill_ne_error _ _ _ _ h
      cases h
  · intro hn hr hk IV hg hv
    exact ⟨_, encrypt_eq RightRotate GenerateIV data derivedKey IV bitsToRotate bytesToRotate hn
      (by omega) (by omega) hg (by omega)⟩

theorem encrypt_validation_witness :
    EncryptWithAlreadyDerivedKey noRotate (fixedIV []) [] [] 0 1
        = .error (.NotPositiveDataLengthError "Data")
    ∧ (EncryptWithAlreadyDerivedKey noRotate (fixedIV [3, -4]) [65, 255] [5, -7] 0 1
        = .error (.NotPositiveDataLengthError "Data") ↔ [65, 255].length < 1)
    ∧ ∃ out, EncryptWithAlreadyDerivedKey noRotate (fixedIV [3, -4]) [65, 255] [5, -7] 0 1
        = .ok (out, [3, -4]) :=
  ⟨(encrypt_validation noRotate (fixedIV []) [] [] 0 1).1 (by decide),
   (encrypt_validation noRotate (fixedIV [3, -4]) [65, 255] [5, -7] 0 1).2.1
     (fun h => Except.noConfusion h),
   (encrypt_validation noRotate (fixedIV [3, -4]) [65, 255] [5, -7] 0 1).2.2
     (by decide) (by decide) (by decide) [3, -4] rfl (by decide)⟩

/-- C7: length invariants of every successful call.  When `EncryptWithAlreadyDerivedKey`
returns a nil error, the ciphertext has `len(data)` elements and the IV is the one the generator
produced (so of length `len(data)` when the generator returns that length); when
`DecryptWithAlreadyDerivedKey` returns a nil error and `LeftRotate` preserves the length, the
bytes returned are `len(ciphertext) = len(IV)` many. -/
theorem length_invariants (RightRotate LeftRotate : List Nat → Nat → Int → List Nat)
    (GenerateIV : Nat → List Nat → List Int → Except NseError (List Int))
    (data : List Nat) (encryptedData IV derivedKey : List Int) (bitsToRotate : Nat)
    (bytesToRotate : Int) :
    (∀ out IVout,
      EncryptWithAlreadyDerivedKey RightRotate GenerateIV data derivedKey bitsToRotate
        bytesToRotate = .ok (out, IVout) →
      out.length = data.length
      ∧ GenerateIV data.length (RightRotate data bitsToRotate bytesToRotate) derivedKey
          = .ok IVout
      ∧ ((∀ iv, GenerateIV data.length (RightRotate data bitsToRotate bytesToRotate) derivedKey
          = .ok iv → iv.length = data.length) → IVout.length = data.length))
    ∧ (∀ bytes,
      (∀ l, (LeftRotate l bitsToRotate bytesToRotate).length = l.length) →
      DecryptWithAlreadyDerivedKey LeftRotate encryptedData IV derivedKey bitsToRotate
        bytesToRotate = .ok bytes →
      bytes.length = encryptedData.length ∧ encryptedData.length = IV.length) := by
  constructor
  · intro out IVout h
    have hg := (encrypt_ok_generateIV _ _ _ _ _ _ _ _ h).2
    exact ⟨encrypt_ok_length _ _ _ _ _ _ _ _ h, hg, fun hl => hl IVout hg⟩
  · intro bytes hl h
    obtain ⟨_, hv, r, hr, ho⟩ := decrypt_ok_length _ _ _ _ _ _ _ h
    rw [ho, hl, hr]
    exact ⟨rfl, hv⟩

theorem length_invariants_witness :
    ([19840, -2172] : List Int).length = [65, 255].length
    ∧ ([65, 255] : List Nat).length = ([19840, -2172] : List Int).length :=
  ⟨((length_invariants noRotate noRotate (fixedIV [3, -4]) [65, 255] [19840, -2172] [3, -4]
      [5, -7] 0 1).1 [19840, -2172] [3, -4] (by decide)).1,
   ((length_invariants noRotate noRotate (fixedIV [3, -4]) [65, 255] [19840, -2172] [3, -4]
      [5, -7] 0 1).2 [65, 255] (fun _ => rfl) (by decide)).1⟩

/-- C8: decrypt does not check that the IV and the key match the encryption.  For a ciphertext
of length `n ≥ 1`, an IV of length `n` and a derived key of length `n` whose wrapped divisor
`S1*S1` is not zero, `DecryptWithAlreadyDerivedKey` returns bytes and a nil error, whatever the
values are; and the only error values it ever returns are the two validation errors. -/
theorem decrypt_unchecked (LeftRotate : List Nat → Nat → Int → List Nat)
    (encryptedData IV derivedKey : List Int) (bitsToRotate : Nat) (bytesToRotate : Int) :
    (1 ≤ encryptedData.length → IV.length = encryptedData.length →
      derivedKey.length = encryptedData.length →
      wrap64 (exactS1 derivedKey encryptedData.length * exactS1 derivedKey encryptedData.length)
        ≠ 0 →
      ∃ bytes, DecryptWithAlreadyDerivedKey LeftRotate encryptedData IV derivedKey bitsToRotate
        bytesToRotate = .ok bytes)
    ∧ (∀ e, DecryptWithAlreadyDerivedKey LeftRotate encryptedData IV derivedKey bitsToRotate
        bytesToRotate = .error e →
      e = .NotPositiveDataLengthError "Ciphertext"
        ∨ e = .DifferentIVLengthError IV.length encryptedData.length) := by
  constructor
  · intro hn hv hk hd
    exact ⟨_, decrypt_eq LeftRotate encryptedData IV derivedKey bitsToRotate bytesToRotate hn hv
      (by omega) (by rw [divisor_eq]; exact hd)⟩
  · intro e h
    exact decrypt_error_cases _ _ _ _ _ _ _ h

theorem decrypt_unchecked_witness :
    (∃ bytes, DecryptWithAlreadyDerivedKey noRotate [1000, -77] [9, 9] [2, 3] 0 1 = .ok bytes)
    ∧ (NseError.DifferentIVLengthError 2 1 = .NotPositiveDataLengthError "Ciphertext"
        ∨ NseError.DifferentIVLengthError 2 1
          = .DifferentIVLengthError ([1, 2] : List Int).length ([5] : List Int).length) :=
  ⟨(decrypt_unchecked noRotate [1000, -77] [9, 9] [2, 3] 0 1).1 (by decide) (by decide)
      (by decide) (by decide),
   (decrypt_unchecked noRotate [5] [1, 2] [] 0 1).2 _ (by decide)⟩

/-- C9 fails on the code: `2^55` is a signed 64-bit integer, yet `Int64ToBytes` stops with an
index-out-of-range panic on it, and so does `Int64sToBytes` on the one-element array: the zigzag
value `2^56` needs nine varint bytes and `PutVarint` is handed a buffer of eight. -/
theorem int64sToBytes_panics_at_two_pow_55 :
    (-2 ^ 63 : Int) ≤ 36028797018963968 ∧ (36028797018963968 : Int) < 2 ^ 63
    ∧ Int64ToBytes 36028797018963968 = .panic .indexOutOfRange
    ∧ Int64sToBytes [36028797018963968] = .panic .indexOutOfRange := by
  decide

/-- C10 fails as stated: the one-byte buffer `[0]` is not the result of `Int64sToBytes` on any
array (a non-empty array gives at least two bytes), yet `BytesToInt64s` decodes it to `[0]` with a
nil error. -/
theorem bytesToInt64s_accepts_non_encoding :
    BytesToInt64s [0] = .ok [0] ∧ ∀ xs : List Int, Int64sToBytes xs ≠ .ok [0] := by
  refine ⟨by decide, ?_⟩
  intro xs h
  have hl := Int64sToBytes_length xs [0] h
  have h0 : xs = [] := by
    apply List.eq_nil_of_length_eq_zero
    simp only [List.length_singleton] at hl
    omega
  subst h0
  revert h
  decide

/-- C10, as the code has it: a buffer is rejected when a length byte reaches past its end.  If,
reading the blocks one after the other from position 0, the `k`-th block starts inside the buffer
at position `p` and `p + 1 + L > len(data)` for its length byte `L`, then `BytesToInt64s` returns
`WrongDataFormatError` and no integers. -/
theorem overreaching_block_rejected (data : List Nat) (k : Nat)
    (h1 : blockStart data 0 k < data.length)
    (h2 : blockStart data 0 k + data.getD (blockStart data 0 k) 0 + 1 > data.length) :
    BytesToInt64s data = .error .WrongDataFormatError := by
  unfold BytesToInt64s
  exact bytesToInt64sLoop_overreach data k data.length _ 0 0 (by simp) (le_refl _) (by omega)
    h1 h2

theorem overreaching_block_rejected_witness :
    BytesToInt64s [1, 0, 5, 9] = .error .WrongDataFormatError :=
  overreaching_block_rejected [1, 0, 5, 9] 1 (by decide) (by decide)

/-- C11: `BytesToInt64s` is total and fails exactly on over-reaching length bytes.  Reading the
blocks one after the other from position 0, it returns `WrongDataFormatError` if and only if some
block's length byte `L` at a position `p` inside the buffer has `p + 1 + L > len(data)`;
otherwise the blocks end exactly at the end of the buffer, there are at most `len(data)` of them,
and it returns one integer per block, in block order, with a nil error.  It never panics, every
block advances the position by at least one byte, and no larger iteration bound changes the
result (the loop has ended within `len(data)` iterations). -/
theorem bytesToInt64s_total (data : List Nat) :
    (BytesToInt64s data = .error .WrongDataFormatError ↔
      ∃ k, k < data.length ∧ blockStart data 0 k < data.length
        ∧ blockStart data 0 k + data.getD (blockStart data 0 k) 0 + 1 > data.length)
    ∧ ((¬ ∃ k, k < data.length ∧ blockStart data 0 k < data.length
          ∧ blockStart data 0 k + data.getD (blockStart data 0 k) 0 + 1 > data.length) →
        ∃ m, m ≤ data.length ∧ blockStart data 0 m = data.length
          ∧ BytesToInt64s data = .ok ((List.range m).map (blockValue data 0)))
    ∧ (∀ p, BytesToInt64s data ≠ .panic p)
    ∧ (∀ k, blockStart data 0 k + 1 ≤ blockStart data 0 (k + 1))
    ∧ (∀ bound, data.length ≤ bound →
        bytesToInt64sLoop data bound (List.replicate data.length 0) 0 0 = BytesToInt64s data) := by
  have hex : ∀ m bound, data.length ≤ bound → blockStart data 0 m = data.length →
      bytesToInt64sLoop data bound (List.replicate data.length 0) 0 0
        = .ok ((List.range m).map (blockValue data 0)) := by
    intro m bound hb hm
    rw [bytesToInt64sLoop_exact data m bound _ 0 0 (by simp) (le_refl _) (by omega) hm]
    simp
  have hov : ∀ k bound, data.length ≤ bound → blockStart data 0 k < data.length →
      blockStart data 0 k + data.getD (blockStart data 0 k) 0 + 1 > data.length →
      bytesToInt64sLoop data bound (List.replicate data.length 0) 0 0
        = .error .WrongDataFormatError := by
    intro k bound hb h1 h2
    exact bytesToInt64sLoop_overreach data k bound _ 0 0 (by simp) (le_refl _) (by omega) h1 h2
  have hdi := blocks_dichotomy data data.length 0 (by omega) (Nat.zero_le _)
  refine ⟨⟨?_, ?_⟩, ?_, ?_, ?_, ?_⟩
  · intro h
    rcases hdi with ⟨m, hm⟩ | hk
    · unfold BytesToInt64s at h
      rw [hex m _ (le_refl _) hm] at h
      cases h
    · obtain ⟨k, h1, h2⟩ := hk
      have := blockStart_add_le data k 0
      exact ⟨k, by omega, h1, h2⟩
  · rintro ⟨k, _, h1, h2⟩
    exact hov k _ (le_refl _) h1 h2
  · intro hno
    rcases hdi with ⟨m, hm⟩ | hk
    · refine ⟨m, ?_, hm, hex m _ (le_refl _) hm⟩
      have := blockStart_add_le data m 0
      omega
    · obtain ⟨k, h1, h2⟩ := hk
      have := blockStart_add_le data k 0
      exact absurd ⟨k, by omega, h1, h2⟩ hno
  · intro p h
    unfold BytesToInt64s at h
    rcases hdi with ⟨m, hm⟩ | ⟨k, h1, h2⟩
    · rw [hex m _ (le_refl _) hm] at h
      cases h
    · rw [hov k _ (le_refl _) h1 h2] at h
      cases h
  · intro k
    have : ∀ j start, blockStart data start j + 1 ≤ blockStart data start (j + 1) := by
      intro j
      induction j with
      | zero =>
        intro start
        simp only [blockStart]
        omega
      | succ j ih =>
        intro start
        rw [blockStart, blockStart]
        exact ih _
    exact this k 0
  · intro bound hb
    unfold BytesToInt64s
    rcases hdi with ⟨m, hm⟩ | ⟨k, h1, h2⟩
    · rw [hex m _ hb hm, hex m _ (le_refl _) hm]
    · rw [hov k _ hb h1 h2, hov k _ (le_refl _) h1 h2]

theorem bytesToInt64s_total_witness :
    ∃ m, m ≤ [1, 0, 2, 216, 4].length ∧ blockStart [1, 0, 2, 216, 4] 0 m = [1, 0, 2, 216, 4].length
      ∧ BytesToInt64s [1, 0, 2, 216, 4]
        = .ok ((List.range m).map (blockValue [1, 0, 2, 216, 4] 0)) :=
  (bytesToInt64s_total [1, 0, 2, 216, 4]).2.1 (by decide)

/-- C13: the signed-8-bit vector codec is a bijection without framing.  For bytes `bs`,
`Int8sToBytes(BytesToInt8s(bs)) = bs`; for signed 8-bit values `xs`,
`BytesToInt8s(Int8sToBytes(xs)) = xs`; each function returns a sequence of the length of its
input whose `i`-th element is the reinterpretation (`AsUnsigned`, `AsSigned`) of the `i`-th
input element. -/
theorem int8_codec_bijection (bs : List Nat) (xs : List Int)
    (hbs : ∀ b ∈ bs, b < 256) (hxs : ∀ x ∈ xs, -128 ≤ x ∧ x ≤ 127) :
    (BytesToInt8s bs).bind Int8sToBytes = .ok bs
    ∧ (Int8sToBytes xs).bind BytesToInt8s = .ok xs
    ∧ Int8sToBytes xs = .ok (xs.map AsUnsigned)
    ∧ BytesToInt8s bs = .ok (bs.map AsSigned)
    ∧ (xs.map AsUnsigned).length = xs.length
    ∧ (bs.map AsSigned).length = bs.length := by
  refine ⟨?_, ?_, Int8sToBytes_eq xs, BytesToInt8s_eq bs, by simp, by simp⟩
  · rw [BytesToInt8s_eq]
    simp only [Outcome.bind]
    rw [Int8sToBytes_eq, List.map_map]
    congr 1
    conv_rhs => rw [← List.map_id bs]
    apply List.map_congr_left
    intro b hb
    exact AsUnsigned_AsSigned b (hbs b hb)
  · rw [Int8sToBytes_eq]
    simp only [Outcome.bind]
    rw [BytesToInt8s_eq, List.map_map]
    congr 1
    conv_rhs => rw [← List.map_id xs]
    apply List.map_congr_left
    intro x hx
    exact AsSigned_AsUnsigned x (hxs x hx).1 (hxs x hx).2

theorem int8_codec_bijection_witness :
    (BytesToInt8s [0, 127, 128, 255]).bind Int8sToBytes = .ok [0, 127, 128, 255]
    ∧ (Int8sToBytes [0, 127, -128, -1]).bind BytesToInt8s = .ok [0, 127, -128, -1]
    ∧ Int8sToBytes [0, 127, -128, -1] = .ok ([0, 127, -128, -1].map AsUnsigned)
    ∧ BytesToInt8s [0, 127, 128, 255] = .ok ([0, 127, 128, 255].map AsSigned)
    ∧ (([0, 127, -128, -1] : List Int).map AsUnsigned).length = [0, 127, -128, -1].length
    ∧ (([0, 127, 128, 255] : List Nat).map AsSigned).length = [0, 127, 128, 255].length :=
  int8_codec_bijection [0, 127, 128, 255] [0, 127, -128, -1] (by decide) (by decide)

/-- C14: the facades delegate and pass errors through unchanged.  If `DeriveKey` fails with `e`,
`Encrypt` and `Decrypt` return the error `e` and nothing else, whatever the other collaborators
are; if it succeeds with `(bits, bytes, derivedKey)`, they return exactly the result of
`EncryptWithAlreadyDerivedKey`, resp. `DecryptWithAlreadyDerivedKey`, on these; and an error of
`GenerateIV` (called on non-empty data) is the result of `EncryptWithAlreadyDerivedKey`. -/
theorem facades_delegate
    (DeriveKey : Int → List Nat → Nat → Except NseError (Nat × Int × List Int))
    (RightRotate LeftRotate : List Nat → Nat → Int → List Nat)
    (GenerateIV : Nat → List Nat → List Int → Except NseError (List Int))
    (data salt : List Nat) (encryptedData IV : List Int) (key : Int) :
    (∀ e, DeriveKey key salt data.length = .error e →
      Encrypt DeriveKey RightRotate GenerateIV data salt key = .error e)
    ∧ (∀ e, DeriveKey key salt encryptedData.length = .error e →
      Decrypt DeriveKey LeftRotate encryptedData salt IV key = .error e)
    ∧ (∀ bitsToRotate bytesToRotate derivedKey,
      DeriveKey key salt data.length = .ok (bitsToRotate, bytesToRotate, derivedKey) →
      Encrypt DeriveKey RightRotate GenerateIV data salt key
        = EncryptWithAlreadyDerivedKey RightRotate GenerateIV data derivedKey bitsToRotate
            bytesToRotate)
    ∧ (∀ bitsToRotate bytesToRotate derivedKey,
      DeriveKey key salt encryptedData.length = .ok (bitsToRotate, bytesToRotate, derivedKey) →
      Decrypt DeriveKey LeftRotate encryptedData salt IV key
        = DecryptWithAlreadyDerivedKey LeftRotate encryptedData IV derivedKey bitsToRotate
            bytesToRotate)
    ∧ (∀ e derivedKey bitsToRotate bytesToRotate, 1 ≤ data.length →
      GenerateIV data.length (RightRotate data bitsToRotate bytesToRotate) derivedKey
        = .error e →
      EncryptWithAlreadyDerivedKey RightRotate GenerateIV data derivedKey bitsToRotate
        bytesToRotate = .error e) := by
  refine ⟨?_, ?_, ?_, ?_, ?_⟩
  · intro e h
    unfold Encrypt
    rw [h]
  · intro e h
    unfold Decrypt
    rw [h]
  · intro b1 b2 dk h
    unfold Encrypt
    rw [h]
  · intro b1 b2 dk h
    unfold Decrypt
    rw [h]
  · intro e dk b1 b2 hn h
    unfold EncryptWithAlreadyDerivedKey
    simp only []
    rw [if_neg (by omega), h]

theorem facades_delegate_witness :
    Encrypt (fixedDeriveKey 0 1 [5, -7]) noRotate (fixedIV [3, -4]) [65, 255] [] 0
        = .error (.other "key is not positive")
    ∧ Decrypt (fixedDeriveKey 0 1 [5, -7]) noRotate [19840, -2172] [] [3, -4] 0
        = .error (.other "key is not positive")
    ∧ Encrypt (fixedDeriveKey 0 1 [5, -7]) noRotate (fixedIV [3, -4]) [65, 255] [] 12345
        = EncryptWithAlreadyDerivedKey noRotate (fixedIV [3, -4]) [65, 255] [5, -7] 0 1
    ∧ Decrypt (fixedDeriveKey 0 1 [5, -7]) noRotate [19840, -2172] [] [3, -4] 12345
        = DecryptWithAlreadyDerivedKey noRotate [19840, -2172] [3, -4] [5, -7] 0 1
    ∧ EncryptWithAlreadyDerivedKey noRotate (failingIV (.other "no entropy")) [65, 255] [5, -7]
        0 1 = .error (.other "no entropy") :=
  ⟨(facades_delegate (fixedDeriveKey 0 1 [5, -7]) noRotate noRotate (fixedIV [3, -4])
      [65, 255] [] [19840, -2172] [3, -4] 0).1 _ rfl,
   (facades_delegate (fixedDeriveKey 0 1 [5, -7]) noRotate noRotate (fixedIV [3, -4])
      [65, 255] [] [19840, -2172] [3, -4] 0).2.1 _ rfl,
   (facades_delegate (fixedDeriveKey 0 1 [5, -7]) noRotate noRotate (fixedIV [3, -4])
      [65, 255] [] [19840, -2172] [3, -4] 12345).2.2.1 _ _ _ rfl,
   (facades_delegate (fixedDeriveKey 0 1 [5, -7]) noRotate noRotate (fixedIV [3, -4])
      [65, 255] [] [19840, -2172] [3, -4] 12345).2.2.2.1 _ _ _ rfl,
   (facades_delegate (fixedDeriveKey 0 1 [5, -7]) noRotate noRotate
      (failingIV (.other "no entropy")) [65, 255] [] [19840, -2172] [3, -4] 12345).2.2.2.2
      _ [5, -7] 0 1 (by decide) rfl⟩

theorem exactS1_sq_bound (derivedKey : List Int) (n : Nat)
    (hk : ∀ k ∈ derivedKey, -128 ≤ k ∧ k ≤ 127) (hn : n ≤ 512) :
    exactS1 derivedKey n * exactS1 derivedKey n < 2 ^ 63 := by
  have := fit_of_length_le derivedKey n hk (by omega)
  have h0 := exactS1_nonneg derivedKey n
  have : 0 ≤ exactS1 derivedKey n * exactS1 derivedKey n := mul_nonneg h0 h0
  omega

/-- C15: the undefined division is exactly the all-zero key case.  For a derived key of `n`
signed 8-bit values with `1 ≤ n ≤ 512`, the value `sum1Square = sum1 * sum1` that the first loop
of `DecryptWithAlreadyDerivedKey` leads to is `0` if and only if every key element is `0`, and is
strictly positive otherwise; and on every validated input (`n ≥ 1`, `len(IV) = n`) with an
all-zero key the call stops with an integer division by zero: it returns neither bytes nor an
error value. -/
theorem zero_divisor_iff_zero_key (LeftRotate : List Nat → Nat → Int → List Nat)
    (encryptedData IV derivedKey : List Int) (bitsToRotate : Nat) (bytesToRotate : Int)
    (hn : 1 ≤ encryptedData.length) (hv : IV.length = encryptedData.length)
    (hk : derivedKey.length = encryptedData.length) :
    (encryptedData.length ≤ 512 → (∀ k ∈ derivedKey, -128 ≤ k ∧ k ≤ 127) →
      ∃ s, decryptSums encryptedData IV derivedKey encryptedData.length encryptedData.length
          = .ok s
        ∧ (mul64 s.sum1 s.sum1 = 0 ↔ ∀ k ∈ derivedKey, k = 0)
        ∧ ((¬ ∀ k ∈ derivedKey, k = 0) → 0 < mul64 s.sum1 s.sum1))
    ∧ ((∀ k ∈ derivedKey, k = 0) →
      DecryptWithAlreadyDerivedKey LeftRotate encryptedData IV derivedKey bitsToRotate
        bytesToRotate = .panic .divideByZero) := by
  constructor
  · intro h512 hr
    refine ⟨_, decryptSums_eq encryptedData IV derivedKey _ (le_refl _) (by omega) (by omega) _
      (le_refl _), ?_, ?_⟩
    · simp only []
      have e := divisor_eq derivedKey encryptedData.length
      unfold divisor at e
      have h0 := exactS1_nonneg derivedKey encryptedData.length
      have hb := exactS1_sq_bound derivedKey encryptedData.length hr h512
      have hsq : 0 ≤ exactS1 derivedKey encryptedData.length
          * exactS1 derivedKey encryptedData.length := mul_nonneg h0 h0
      rw [e, wrap64_of_range _ (by omega) hb]
      constructor
      · intro hz
        by_contra hne
        push_neg at hne
        have hp := exactS1_pos derivedKey encryptedData.length (by omega) hne
        have : 0 < exactS1 derivedKey encryptedData.length
            * exactS1 derivedKey encryptedData.length := mul_pos hp hp
        omega
      · intro hz
        rw [exactS1_zero derivedKey hz]
        rfl
    · intro hne
      simp only []
      push_neg at hne
      have e := divisor_eq derivedKey encryptedData.length
      unfold divisor at e
      have h0 := exactS1_nonneg derivedKey encryptedData.length
      have hb := exactS1_sq_bound derivedKey encryptedData.length hr h512
      have hp := exactS1_pos derivedKey encryptedData.length (by omega) hne
      have : 0 < exactS1 derivedKey encryptedData.length
          * exactS1 derivedKey encryptedData.length := mul_pos hp hp
      rw [e, wrap64_of_range _ (by omega) hb]
      exact this
  · intro hz
    apply decrypt_zero_divisor LeftRotate encryptedData IV derivedKey bitsToRotate bytesToRotate hn
      hv (by omega)
    rw [divisor_eq, exactS1_zero derivedKey hz]
    rfl

theorem zero_divisor_iff_zero_key_witness :
    (∃ s, decryptSums [19840, -2172] [3, -4] [5, -7] [19840, -2172].length
          [19840, -2172].length = .ok s
        ∧ (mul64 s.sum1 s.sum1 = 0 ↔ ∀ k ∈ ([5, -7] : List Int), k = 0)
        ∧ ((¬ ∀ k ∈ ([5, -7] : List Int), k = 0) → 0 < mul64 s.sum1 s.sum1))
    ∧ DecryptWithAlreadyDerivedKey noRotate [19840, -2172] [3, -4] [0, 0] 0 1
        = .panic .divideByZero :=
  ⟨(zero_divisor_iff_zero_key noRotate [19840, -2172] [3, -4] [5, -7] 0 1 (by decide)
      (by decide) (by decide)).1 (by decide) (by decide),
   (zero_divisor_iff_zero_key noRotate [19840, -2172] [3, -4] [0, 0] 0 1 (by decide)
      (by decide) (by decide)).2 (by decide)⟩

/-- C16: the exact domain of the round trip.  For `n ≥ 1`, data of `n` bytes, an IV of length `n`
and a derived key of length `n` whose exact sum of squares `S1` has
`0 < 255 * S1 * S1 ≤ 2^63 - 1`: on the output of the encryption the divisor is `S1 * S1` and
the numerator at every index `i` is `rotated[i] * S1 * S1` without wraparound, a non-negative
multiple of the divisor, so that the truncating and the flooring quotient are both `rotated[i]`;
and the decryption returns exactly the data.  Nothing is assumed about the sums `S2`, `S3`. -/
theorem roundTrip_exact_domain (RightRotate LeftRotate : List Nat → Nat → Int → List Nat)
    (GenerateIV : Nat → List Nat → List Int → Except NseError (List Int))
    (data : List Nat) (derivedKey : List Int) (bitsToRotate : Nat) (bytesToRotate : Int)
    (out IV : List Int)
    (hn : 1 ≤ data.length)
    (hrlen : (RightRotate data bitsToRotate bytesToRotate).length = data.length)
    (hbytes : ∀ b ∈ RightRotate data bitsToRotate bytesToRotate, b < 256)
    (hinv : LeftRotate (RightRotate data bitsToRotate bytesToRotate) bitsToRotate bytesToRotate
      = data)
    (hklen : derivedKey.length = data.length)
    (hIV : IV.length = data.length)
    (hpos : 0 < 255 * exactS1 derivedKey data.length * exactS1 derivedKey data.length)
    (hfit : 255 * exactS1 derivedKey data.length * exactS1 derivedKey data.length ≤ 2 ^ 63 - 1)
    (henc : EncryptWithAlreadyDerivedKey RightRotate GenerateIV data derivedKey bitsToRotate
      bytesToRotate = .ok (out, IV)) :
    divisor derivedKey data.length
        = exactS1 derivedKey data.length * exactS1 derivedKey data.length
    ∧ (∀ i, i < data.length →
        numeratorAt out IV derivedKey data.length i
            = widenByte (RightRotate data bitsToRotate bytesToRotate) i
              * exactS1 derivedKey data.length * exactS1 derivedKey data.length
        ∧ 0 ≤ numeratorAt out IV derivedKey data.length i
        ∧ Int.tdiv (numeratorAt out IV derivedKey data.length i)
            (divisor derivedKey data.length)
            = widenByte (RightRotate data bitsToRotate bytesToRotate) i
        ∧ numeratorAt out IV derivedKey data.length i / divisor derivedKey data.length
            = widenByte (RightRotate data bitsToRotate bytesToRotate) i)
    ∧ DecryptWithAlreadyDerivedKey LeftRotate out IV derivedKey bitsToRotate bytesToRotate
        = .ok data := by
  have _ := hn
  have h0 := exactS1_nonneg derivedKey data.length
  have hS : 0 < exactS1 derivedKey data.length := by
    rcases lt_or_eq_of_le h0 with h | h
    · exact h
    · rw [← h] at hpos
      simp at hpos
  have hsq : 0 < exactS1 derivedKey data.length * exactS1 derivedKey data.length :=
    mul_pos hS hS
  have hfit2 : 255 * (exactS1 derivedKey data.length * exactS1 derivedKey data.length)
      < 2 ^ 63 := by
    rw [← mul_assoc]
    omega
  have hdiv : divisor derivedKey data.length
      = exactS1 derivedKey data.length * exactS1 derivedKey data.length := by
    rw [divisor_eq, wrap64_of_range _ (by omega) (by omega)]
  obtain ⟨_, hg⟩ := encrypt_ok_generateIV _ _ _ _ _ _ _ _ henc
  have hout := henc
  rw [encrypt_eq RightRotate GenerateIV data derivedKey IV bitsToRotate bytesToRotate hn
    (by omega) (by omega) hg (by omega)] at hout
  have hout2 : out = (List.range data.length).map (encryptedAt
      (RightRotate data bitsToRotate bytesToRotate) IV derivedKey data.length) := by
    cases hout
    rfl
  refine ⟨hdiv, ?_, roundTrip_of_fit RightRotate LeftRotate GenerateIV data derivedKey
    bitsToRotate bytesToRotate out IV hrlen hbytes hinv hklen hIV hS hfit2 henc⟩
  intro i hi
  have hR := widenByte_range (RightRotate data bitsToRotate bytesToRotate) hbytes i
  have h1 : widenByte (RightRotate data bitsToRotate bytesToRotate) i
      * (exactS1 derivedKey data.length * exactS1 derivedKey data.length)
      ≤ 255 * (exactS1 derivedKey data.length * exactS1 derivedKey data.length) := by
    nlinarith
  have h2 : 0 ≤ widenByte (RightRotate data bitsToRotate bytesToRotate) i
      * (exactS1 derivedKey data.length * exactS1 derivedKey data.length) := by
    nlinarith
  have hnum : numeratorAt out IV derivedKey data.length i
      = widenByte (RightRotate data bitsToRotate bytesToRotate) i
        * (exactS1 derivedKey data.length * exactS1 derivedKey data.length) := by
    rw [hout2, numeratorAt_encrypted _ _ _ _ _ hi, wrap64_of_range _ (by omega) (by omega)]
  rw [hdiv, hnum]
  refine ⟨by ring, h2, Int.mul_tdiv_cancel _ (by omega), Int.mul_ediv_cancel _ (by omega)⟩

theorem roundTrip_exact_domain_witness :
    divisor [5, -7] [65, 255].length = exactS1 [5, -7] [65, 255].length
        * exactS1 [5, -7] [65, 255].length
    ∧ (∀ i, i < [65, 255].length →
        numeratorAt [19840, -2172] [3, -4] [5, -7] [65, 255].length i
            = widenByte (noRotate [65, 255] 0 1) i
              * exactS1 [5, -7] [65, 255].length * exactS1 [5, -7] [65, 255].length
        ∧ 0 ≤ numeratorAt [19840, -2172] [3, -4] [5, -7] [65, 255].length i
        ∧ Int.tdiv (numeratorAt [19840, -2172] [3, -4] [5, -7] [65, 255].length i)
            (divisor [5, -7] [65, 255].length)
            = widenByte (noRotate [65, 255] 0 1) i
        ∧ numeratorAt [19840, -2172] [3, -4] [5, -7] [65, 255].length i
            / divisor [5, -7] [65, 255].length
            = widenByte (noRotate [65, 255] 0 1) i)
    ∧ DecryptWithAlreadyDerivedKey noRotate [19840, -2172] [3, -4] [5, -7] 0 1
        = .ok [65, 255] :=
  roundTrip_exact_domain noRotate noRotate (fixedIV [3, -4]) [65, 255] [5, -7] 0 1
    [19840, -2172] [3, -4] (by decide) (by decide) (by decide) (by decide) (by decide)
    (by decide) (by decide) (by decide) (by decide)

/-- C18: an all-zero key erases the plaintext.  For non-empty data of `n` bytes, any rotation
parameters and a generated IV of length `n`, if every element of the derived key is `0` then
`S1 = 0`, `S2 = 0` and every element of the ciphertext is `0`; so a second plaintext of the same
length gets the same ciphertext. -/
theorem zero_key_erases (RightRotate : List Nat → Nat → Int → List Nat)
    (GenerateIV GenerateIV2 : Nat → List Nat → List Int → Except NseError (List Int))
    (data data2 : List Nat) (derivedKey IV IV2 : List Int) (bitsToRotate : Nat)
    (bytesToRotate : Int)
    (hn : 1 ≤ data.length) (hlen2 : data2.length = data.length)
    (hrlen : (RightRotate data bitsToRotate bytesToRotate).length = data.length)
    (hrlen2 : (RightRotate data2 bitsToRotate bytesToRotate).length = data2.length)
    (hklen : derivedKey.length = data.length)
    (hzero : ∀ k ∈ derivedKey, k = 0)
    (hg : GenerateIV data.length (RightRotate data bitsToRotate bytesToRotate) derivedKey = .ok IV)
    (hIV : IV.length = data.length)
    (hg2 : GenerateIV2 data2.length (RightRotate data2 bitsToRotate bytesToRotate) derivedKey
      = .ok IV2)
    (hIV2 : IV2.length = data2.length) :
    exactS1 derivedKey data.length = 0
    ∧ exactS2 (RightRotate data bitsToRotate bytesToRotate) IV derivedKey data.length = 0
    ∧ EncryptWithAlreadyDerivedKey RightRotate GenerateIV data derivedKey bitsToRotate
        bytesToRotate = .ok (List.replicate data.length 0, IV)
    ∧ (∀ x ∈ List.replicate data.length (0 : Int), x = 0)
    ∧ EncryptWithAlreadyDerivedKey RightRotate GenerateIV2 data2 derivedKey bitsToRotate
        bytesToRotate = .ok (List.replicate data.length 0, IV2) := by
  refine ⟨exactS1_zero derivedKey hzero _, exactS2_zero _ _ derivedKey hzero _,
    encrypt_zero_key RightRotate GenerateIV data derivedKey IV bitsToRotate bytesToRotate hn
      hrlen hklen hzero hg hIV,
    fun x hx => List.eq_of_mem_replicate hx, ?_⟩
  rw [← hlen2]
  exact encrypt_zero_key RightRotate GenerateIV2 data2 derivedKey IV2 bitsToRotate bytesToRotate
    (by omega) hrlen2 (by omega) hzero hg2 hIV2

theorem zero_key_erases_witness :
    exactS1 [0, 0] [65, 255].length = 0
    ∧ exactS2 (noRotate [65, 255] 0 1) [3, -4] [0, 0] [65, 255].length = 0
    ∧ EncryptWithAlreadyDerivedKey noRotate (fixedIV [3, -4]) [65, 255] [0, 0] 0 1
        = .ok (List.replicate [65, 255].length 0, [3, -4])
    ∧ (∀ x ∈ List.replicate [65, 255].length (0 : Int), x = 0)
    ∧ EncryptWithAlreadyDerivedKey noRotate (fixedIV [9, 9]) [1, 2] [0, 0] 0 1
        = .ok (List.replicate [65, 255].length 0, [9, 9]) :=
  zero_key_erases noRotate (fixedIV [3, -4]) (fixedIV [9, 9]) [65, 255] [1, 2] [0, 0] [3, -4]
    [9, 9] 0 1 (by decide) (by decide) (by decide) (by decide) (by decide) (by decide) rfl
    (by decide) rfl (by decide)

/-- C17: every key has an equivalent key.  For every ciphertext, IV, rotation parameters and
derived key of signed 8-bit values none of which is `-128`, `DecryptWithAlreadyDerivedKey` with
the element-wise negated key returns exactly what it returns with the key: the same bytes, the
same error or the same panic. -/
theorem negated_key_equivalent (LeftRotate : List Nat → Nat → Int → List Nat)
    (encryptedData IV derivedKey : List Int) (bitsToRotate : Nat) (bytesToRotate : Int)
    (hk : ∀ k ∈ derivedKey, -128 ≤ k ∧ k ≤ 127) (h128 : ∀ k ∈ derivedKey, k ≠ -128) :
    DecryptWithAlreadyDerivedKey LeftRotate encryptedData IV (derivedKey.map neg8)
        bitsToRotate bytesToRotate
      = DecryptWithAlreadyDerivedKey LeftRotate encryptedData IV derivedKey bitsToRotate
        bytesToRotate := by
  have hmap : derivedKey.map neg8 = derivedKey.map fun k => -k := by
    apply List.map_congr_left
    intro k hkm
    have h1 := hk k hkm
    have h2 := h128 k hkm
    unfold neg8 int8OfInt64
    omega
  rw [hmap]
  exact decrypt_neg LeftRotate encryptedData IV derivedKey bitsToRotate bytesToRotate

theorem negated_key_equivalent_witness :
    DecryptWithAlreadyDerivedKey noRotate [19840, -2172] [3, -4] (([5, -7] : List Int).map neg8)
        0 1
      = DecryptWithAlreadyDerivedKey noRotate [19840, -2172] [3, -4] [5, -7] 0 1 :=
  negated_key_equivalent noRotate [19840, -2172] [3, -4] [5, -7] 0 1 (by decide) (by decide)

/-- C19: the wire codec round trip on its real domain.  For an array `xs` of integers of
`[-2^55, 2^55)`: for each element `x`, `Int64ToBytes(x)` returns exactly the bytes that
`binary.PutVarint` wrote (none is lost by the trimming), between 1 and 8 of them, which are the
zigzag varint of `x` (they stand for the zigzag value, every byte but the last has its top bit
set, the last byte is below 128 and is non-zero unless `x = 0`) and which `binary.Varint` reads
back as `x`; `Int64sToBytes(xs)` returns at most nine bytes per element; and
`BytesToInt64s(Int64sToBytes(xs))` returns exactly `xs` with a nil error. -/
theorem wire_roundTrip_real_domain (xs : List Int)
    (h : ∀ x ∈ xs, -2 ^ 55 ≤ x ∧ x < 2 ^ 55) :
    (∀ x ∈ xs, ∃ bs,
      Int64ToBytes x = .ok bs
      ∧ (∃ written, PutVarint (List.replicate 8 0) x = .ok written
          ∧ written.2 = bs.length ∧ written.1.take written.2 = bs)
      ∧ 1 ≤ bs.length ∧ bs.length ≤ 8
      ∧ uvarintValue bs = zigzag x
      ∧ (∀ i, i + 1 < bs.length → 128 ≤ bs.getD i 0 ∧ bs.getD i 0 < 256)
      ∧ bs.getD (bs.length - 1) 0 < 128
      ∧ (x ≠ 0 → bs.getD (bs.length - 1) 0 ≠ 0)
      ∧ Varint bs = (x, (bs.length : Int)))
    ∧ ∃ out, Int64sToBytes xs = .ok out ∧ out.length ≤ xs.length * 9
      ∧ BytesToInt64s out = .ok xs := by
  refine ⟨?_, codec_roundTrip xs h⟩
  intro x hx
  obtain ⟨h1, h2⟩ := h x hx
  have hlen := varintBytes_length x h1 h2
  have hshape := uvarintBytes_shape (zigzag x) (zigzag x) (le_refl _)
  refine ⟨varintBytes x, Int64ToBytes_eq x h1 h2,
    ⟨_, PutVarint_eq x h1 h2, rfl, List.take_left' rfl⟩, hlen.1, hlen.2,
    uvarintValue_uvarintBytes _ _ (le_refl _), hshape.1, hshape.2.1, ?_,
    Varint_varintBytes x h1 h2⟩
  intro hx0
  exact hshape.2.2 (fun hz => hx0 (zigzag_eq_zero x hz))

theorem wire_roundTrip_real_domain_witness :
    ∃ out, Int64sToBytes [0, -1, 300, 36028797018963967, -36028797018963968] = .ok out
      ∧ out.length ≤ [0, -1, 300, 36028797018963967, -36028797018963968].length * 9
      ∧ BytesToInt64s out = .ok [0, -1, 300, 36028797018963967, -36028797018963968] :=
  (wire_roundTrip_real_domain [0, -1, 300, 36028797018963967, -36028797018963968]
    (by decide)).2

/-- C20: the ciphertext is bounded and serialisable in the tested range.  For `1 ≤ n ≤ 512`,
data of `n` bytes, a derived key and an IV of `n` signed 8-bit values: every 64-bit operation of
the two loops of `EncryptWithAlreadyDerivedKey` returns the exact integer (none wraps), every
ciphertext element `c` is the exact `R[i]*S1 - 2*(K[i]*S2)` with `|c| ≤ 16728064 * n < 2^34`, so
it lies in `[-2^55, 2^55)`, and `BytesToInt64s(Int64sToBytes(ciphertext))` returns the ciphertext
with a nil error. -/
theorem ciphertext_bounded (RightRotate : List Nat → Nat → Int → List Nat)
    (GenerateIV : Nat → List Nat → List Int → Except NseError (List Int))
    (data : List Nat) (derivedKey IV : List Int) (bitsToRotate : Nat) (bytesToRotate : Int)
    (hn : 1 ≤ data.length) (hn512 : data.length ≤ 512)
    (hrlen : (RightRotate data bitsToRotate bytesToRotate).length = data.length)
    (hbytes : ∀ b ∈ RightRotate data bitsToRotate bytesToRotate, b < 256)
    (hklen : derivedKey.length = data.length)
    (hk : ∀ k ∈ derivedKey, -128 ≤ k ∧ k ≤ 127)
    (hg : GenerateIV data.length (RightRotate data bitsToRotate bytesToRotate) derivedKey = .ok IV)
    (hIV : IV.length = data.length)
    (hv : ∀ v ∈ IV, -128 ≤ v ∧ v ≤ 127) :
    (∀ i, i < data.length →
      mul64 (widenInt8 derivedKey i) (widenInt8 derivedKey i)
          = widenInt8 derivedKey i * widenInt8 derivedKey i
      ∧ add64 (exactS1 derivedKey i) (widenInt8 derivedKey i * widenInt8 derivedKey i)
          = exactS1 derivedKey (i + 1)
      ∧ sub64 (widenByte (RightRotate data bitsToRotate bytesToRotate) i) (widenInt8 IV i)
          = widenByte (RightRotate data bitsToRotate bytesToRotate) i - widenInt8 IV i
      ∧ mul64 (widenInt8 derivedKey i)
            (widenByte (RightRotate data bitsToRotate bytesToRotate) i - widenInt8 IV i)
          = widenInt8 derivedKey i
            * (widenByte (RightRotate data bitsToRotate bytesToRotate) i - widenInt8 IV i)
      ∧ add64 (exactS2 (RightRotate data bitsToRotate bytesToRotate) IV derivedKey i)
            (widenInt8 derivedKey i
              * (widenByte (RightRotate data bitsToRotate bytesToRotate) i - widenInt8 IV i))
          = exactS2 (RightRotate data bitsToRotate bytesToRotate) IV derivedKey (i + 1)
      ∧ mul64 (widenByte (RightRotate data bitsToRotate bytesToRotate) i)
            (exactS1 derivedKey data.length)
          = widenByte (RightRotate data bitsToRotate bytesToRotate) i
            * exactS1 derivedKey data.length
      ∧ mul64 (widenInt8 derivedKey i)
            (exactS2 (RightRotate data bitsToRotate bytesToRotate) IV derivedKey data.length)
          = widenInt8 derivedKey i
            * exactS2 (RightRotate data bitsToRotate bytesToRotate) IV derivedKey data.length
      ∧ shl64 (widenInt8 derivedKey i
            * exactS2 (RightRotate data bitsToRotate bytesToRotate) IV derivedKey data.length) 1
          = 2 * (widenInt8 derivedKey i
            * exactS2 (RightRotate data bitsToRotate bytesToRotate) IV derivedKey data.length)
      ∧ sub64 (widenByte (RightRotate data bitsToRotate bytesToRotate) i
            * exactS1 derivedKey data.length)
          (2 * (widenInt8 derivedKey i
            * exactS2 (RightRotate data bitsToRotate bytesToRotate) IV derivedKey data.length))
          = widenByte (RightRotate data bitsToRotate bytesToRotate) i
              * exactS1 derivedKey data.length
            - 2 * (widenInt8 derivedKey i
              * exactS2 (RightRotate data bitsToRotate bytesToRotate) IV derivedKey
                  data.length))
    ∧ (16728064 * (data.length : Int) < 2 ^ 34)
    ∧ ∃ out, EncryptWithAlreadyDerivedKey RightRotate GenerateIV data derivedKey bitsToRotate
          bytesToRotate = .ok (out, IV)
      ∧ (∀ i, i < data.length →
          out[i]? = some (widenByte (RightRotate data bitsToRotate bytesToRotate) i
              * exactS1 derivedKey data.length
            - 2 * (widenInt8 derivedKey i
              * exactS2 (RightRotate data bitsToRotate bytesToRotate) IV derivedKey
                  data.length))
          ∧ |widenByte (RightRotate data bitsToRotate bytesToRotate) i
              * exactS1 derivedKey data.length
            - 2 * (widenInt8 derivedKey i
              * exactS2 (RightRotate data bitsToRotate bytesToRotate) IV derivedKey
                  data.length)| ≤ 16728064 * (data.length : Int))
      ∧ (∀ x ∈ out, |x| ≤ 16728064 * (data.length : Int) ∧ -2 ^ 55 ≤ x ∧ x < 2 ^ 55)
      ∧ ∃ wire, Int64sToBytes out = .ok wire ∧ BytesToInt64s wire = .ok out := by
  have hn' : (data.length : Int) ≤ 512 := by exact_mod_cast hn512
  have hcell : ∀ i, i < data.length →
      encryptedAt (RightRotate data bitsToRotate bytesToRotate) IV derivedKey data.length i
        = widenByte (RightRotate data bitsToRotate bytesToRotate) i
            * exactS1 derivedKey data.length
          - 2 * (widenInt8 derivedKey i
            * exactS2 (RightRotate data bitsToRotate bytesToRotate) IV derivedKey data.length) :=
    fun i hi => encryptedAt_exact _ IV derivedKey hbytes hv hk data.length i hn512 hi
  have hbound : ∀ i,
      |widenByte (RightRotate data bitsToRotate bytesToRotate) i
          * exactS1 derivedKey data.length
        - 2 * (widenInt8 derivedKey i
          * exactS2 (RightRotate data bitsToRotate bytesToRotate) IV derivedKey data.length)|
        ≤ 16728064 * (data.length : Int) :=
    fun i => (abs_cell_le _ IV derivedKey hbytes hv hk data.length i).2.2
  have hrange : ∀ x ∈ (List.range data.length).map (encryptedAt
      (RightRotate data bitsToRotate bytesToRotate) IV derivedKey data.length),
      |x| ≤ 16728064 * (data.length : Int) ∧ -2 ^ 55 ≤ x ∧ x < 2 ^ 55 := by
    intro x hx
    obtain ⟨i, hi, rfl⟩ := List.mem_map.mp hx
    rw [hcell i (List.mem_range.mp hi)]
    have hb := hbound i
    have := abs_le.mp hb
    exact ⟨hb, by omega, by omega⟩
  refine ⟨fun i hi => encrypt_ops_exact _ IV derivedKey hbytes hv hk data.length i hn512 hi,
    by omega, _, encrypt_eq RightRotate GenerateIV data derivedKey IV bitsToRotate bytesToRotate
      hn (by omega) (by omega) hg (by omega), ?_, hrange, ?_⟩
  · intro i hi
    rw [List.getElem?_map, List.getElem?_range hi, Option.map_some', hcell i hi]
    exact ⟨rfl, hbound i⟩
  · obtain ⟨wire, h1, _, h3⟩ := codec_roundTrip _ (fun x hx => (hrange x hx).2)
    exact ⟨wire, h1, h3⟩

theorem ciphertext_bounded_witness :
    ∃ wire, Int64sToBytes [19840, -2172] = .ok wire
      ∧ BytesToInt64s wire = .ok [19840, -2172] := by
  obtain ⟨_, _, out, h1, _, _, h4⟩ :=
    ciphertext_bounded noRotate (fixedIV [3, -4]) [65, 255] [5, -7] [3, -4] 0 1 (by decide)
      (by decide) (by decide) (by decide) (by decide) (by decide) rfl (by decide) (by decide)
  have h0 : EncryptWithAlreadyDerivedKey noRotate (fixedIV [3, -4]) [65, 255] [5, -7] 0 1
      = .ok ([19840, -2172], [3, -4]) := by decide
  rw [h0] at h1
  cases h1
  exact h4

/-- C12 fails as stated: `64` lies in `[-128, 127]` and the single byte `0x40` is its
two's-complement form, yet `Int64ToBytes(64)` returns the two bytes `0x80 0x01` (the zigzag
varint of 64), and `Int64sToBytes` writes the length byte 2 for it. -/
theorem int64ToBytes_not_twos_complement :
    (-128 : Int) ≤ 64 ∧ (64 : Int) ≤ 127
    ∧ int64OfInt8 (AsSigned 64) = 64
    ∧ Int64ToBytes 64 = .ok [128, 1]
    ∧ Int64sToBytes [64] = .ok [2, 128, 1] := by
  decide

/-- C12, as the code has it: the encoding of one integer is its minimal zigzag varint.  For
every `x` with `-2^55 ≤ x < 2^55`, `Int64ToBytes(x)` returns between 1 and 8 bytes which
`binary.Varint` reads back as `x`, and no shorter byte sequence is read back as `x` by
`binary.Varint`; the result has exactly one byte if and only if `-64 ≤ x ≤ 63`; and the length
byte that `Int64sToBytes` writes in front of it is this length, between 1 and 8. -/
theorem int64ToBytes_minimal_varint (x : Int) (h1 : -2 ^ 55 ≤ x) (h2 : x < 2 ^ 55) :
    ∃ bs, Int64ToBytes x = .ok bs
      ∧ 1 ≤ bs.length ∧ bs.length ≤ 8
      ∧ Varint bs = (x, (bs.length : Int))
      ∧ (∀ (other : List Nat) (n : Int), Varint other = (x, n) → 0 < n →
          bs.length ≤ other.length)
      ∧ (bs.length = 1 ↔ -64 ≤ x ∧ x ≤ 63)
      ∧ Int64sToBytes [x] = .ok (bs.length :: bs) := by
  have hlen := varintBytes_length x h1 h2
  refine ⟨varintBytes x, Int64ToBytes_eq x h1 h2, hlen.1, hlen.2, Varint_varintBytes x h1 h2,
    fun other n h hn => varintBytes_minimal x other n h hn, varintBytes_length_one_iff x, ?_⟩
  have := (Int64sToBytes_eq [x] (by
    intro y hy
    rw [List.mem_singleton] at hy
    subst hy
    exact ⟨h1, h2⟩)).1
  rw [this]
  simp [wireBlocks]

theorem int64ToBytes_minimal_varint_witness :
    ∃ bs, Int64ToBytes (-2172) = .ok bs
      ∧ 1 ≤ bs.length ∧ bs.length ≤ 8
      ∧ Varint bs = (-2172, (bs.length : Int))
      ∧ (∀ (other : List Nat) (n : Int), Varint other = (-2172, n) → 0 < n →
          bs.length ≤ other.length)
      ∧ (bs.length = 1 ↔ (-64 : Int) ≤ -2172 ∧ (-2172 : Int) ≤ 63)
      ∧ Int64sToBytes [-2172] = .ok (bs.length :: bs) :=
  int64ToBytes_minimal_varint (-2172) (by decide) (by decide)

end Gonse
